import Mathlib

/-!
# GAL: blade-level product rules and unary operators of `ga.hpp`

A shallow embedding of the compile-time functions of `src/public/gal/ga.hpp`
(`geometric_product`, `exterior_product`, `contract_product`, `inner_product`, the four
term rules, `poincare_complement_parity`, `poincare_complement`, `dual`, `pseudoscalar`,
`polarity_dual`, `reverse`, the operator `*` and `conjugate` of `GAL_OPERATORS`), of the
encodings and helper functions of `src/public/gal/pga2.hpp` and of `rotor::ie` of
`src/public/gal/ega.hpp`, together with the properties the specification states about
them.

Conventions of the embedding.

* `size_t` values are natural numbers; a blade bitmask `E` has bit `i` set when basis
  vector `i` is present (`E.testBit i`).
* `int` values are integers.  The source shifts the `int` constant `1`; `shift_one`
  gives that expression a value only where C++ defines one, so every function that
  contains such a shift returns an `Option`.
* A `while` loop becomes a recursion on a fuel counter started at 64, the width of
  `size_t`; a loop that is still running when the fuel is spent yields `none`.
-/

namespace gal

/-! ## Machine arithmetic -/

/-- Conversion of a C++ `int` to the 64-bit unsigned `size_t` (two's complement). -/
def to_size_t (z : Int) : Nat := (z % 2 ^ 64).toNat

/-- The C++ `int` expression `1 << k`.  It has a value for `0 ≤ k < 31`.  For `k = 31`
the result is the sign bit, on which every use in `ga.hpp` (`(1 << k) - 1`, evaluated
first in each loop body) overflows, and for `k ≥ 32` the shift itself is undefined;
inside a constant expression either is a compile error, modelled as `none`. -/
def shift_one (k : Int) : Option Int :=
  if 0 ≤ k ∧ k < 31 then some (2 ^ k.toNat) else none

/-! ## Helpers declared in `utility.hpp` -/

/-- Positions of the set bits of a 64-bit word. -/
def bits (x : Nat) : Finset Nat := (Finset.range 64).filter (fun i => x.testBit i)

/-- Modelled from the spec: `count_bits`, declared in the header `utility.hpp` that is
missing from the sources, is the population count of its argument. -/
def count_bits (x : Nat) : Nat := (bits x).card

/-- Modelled from the spec: `leading_index`, declared in the header `utility.hpp` that is
missing from the sources, yields the index of the highest set bit. -/
def leading_index (x : Nat) : Nat := (bits x).sup id

/-- Grade of a basis element: `grade<E>()` returns `count_bits(E::value)`. -/
def grade (E : Nat) : Nat := count_bits E

/-! ## Metric -/

/-- Modelled from the spec: the metric type parameter `Metric`, whose declaration is
missing from the sources.  `intercept i S` answers whether basis
vector `i` contracts with the blade `S`, returning the pair `(index, dot)` with
`index = -1` for "absent"; `dimension` is the number of basis vectors and `v` the
number of negative-square ones. -/
structure Metric where
  dimension : Nat
  v : Nat
  intercept : Nat → Nat → Int × Int

/-- Modelled from the spec: a diagonal metric with signature `sig`.  `intercept i S`
yields `(i, sig i)` when bit `i` is set in `S` and index `-1` otherwise. -/
def Metric.Diagonal (M : Metric) (sig : Nat → Int) : Prop :=
  ∀ i S : Nat, (S.testBit i = true → M.intercept i S = ((i : Int), sig i)) ∧
    (S.testBit i = false → (M.intercept i S).1 = -1)

/-- Modelled from the spec: the diagonal metric of dimension `d` whose basis vector `i`
squares to `sig i`; `v` counts the basis vectors with square `-1`. -/
def diagonal_metric (d : Nat) (sig : Nat → Int) : Metric where
  dimension := d
  v := ((Finset.range d).filter (fun i => sig i = -1)).card
  intercept := fun i S => if S.testBit i then ((i : Int), sig i) else (-1, 0)

/-! ## Blade-level product rules (`ga::algebra<Metric>`) -/

/-- The `while (lhs > 0)` loop of `geometric::geometric_product`; `element` is the
constant `E1 ^ E2` computed before the loop. -/
def geometric_loop (M : Metric) (element : Nat) : Nat → Nat → Nat → Nat → Option (Nat × Int)
  | 0, lhs, _, swaps =>
    if lhs > 0 then none else some (element, if swaps % 2 = 0 then 1 else -1)
  | fuel + 1, lhs, rhs, swaps =>
    if lhs > 0 then
      let lhs_element := leading_index lhs
      let index := (M.intercept lhs_element rhs).1
      let dot := (M.intercept lhs_element rhs).2
      if index = -1 then
        -- Exterior
        match shift_one lhs_element with
        | none => none
        | some b =>
          geometric_loop M element fuel (lhs &&& to_size_t (~~~b)) (rhs ||| to_size_t b)
            (swaps + count_bits (rhs &&& to_size_t (b - 1)))
      else
        -- Contract
        match shift_one index with
        | none => none
        | some c =>
          if dot = 0 then some (0, 0)
          else
            match shift_one lhs_element with
            | none => none
            | some b =>
              geometric_loop M element fuel (lhs &&& to_size_t (~~~b)) (rhs &&& to_size_t (~~~c))
                (swaps + count_bits (rhs &&& to_size_t (c - 1)) + (if dot = -1 then 1 else 0))
    else some (element, if swaps % 2 = 0 then 1 else -1)

/-- Blade rule `geometric::geometric_product<E1, E2>()`: the pair (basis element, sign). -/
def geometric_product (M : Metric) (E1 E2 : Nat) : Option (Nat × Int) :=
  if E1 = 0 then some (E2, 1)
  else if E2 = 0 then some (E1, 1)
  else geometric_loop M (E1 ^^^ E2) 64 E1 E2 0

/-- The `while (lhs > 0)` loop of `exterior::exterior_product`; it returns the final
value of `swaps`. -/
def exterior_loop : Nat → Nat → Nat → Nat → Option Nat
  | 0, lhs, _, swaps => if lhs > 0 then none else some swaps
  | fuel + 1, lhs, rhs, swaps =>
    if lhs > 0 then
      let lhs_element := leading_index lhs
      match shift_one lhs_element with
      | none => none
      | some b =>
        exterior_loop fuel (lhs &&& to_size_t (~~~b)) (rhs ||| to_size_t b)
          (swaps + count_bits (rhs &&& to_size_t (b - 1)))
    else some swaps

/-- Blade rule `exterior::exterior_product<E1, E2>()`. -/
def exterior_product (E1 E2 : Nat) : Option (Nat × Int) :=
  if E1 = 0 then some (E2, 1)
  else if E2 = 0 then some (E1, 1)
  else
    let intersection := E1 &&& E2
    if intersection ≠ 0 then some (0, 0)
    else
      match exterior_loop 64 E1 E2 0 with
      | none => none
      | some swaps => some (E1 ||| E2, if swaps % 2 = 0 then 1 else -1)

/-- The `while (lhs > 0)` loop of `contract::contract_product`. -/
def contract_loop (M : Metric) : Nat → Nat → Nat → Nat → Option (Nat × Int)
  | 0, lhs, rhs, swaps =>
    if lhs > 0 then none else some (rhs, if swaps % 2 = 0 then 1 else -1)
  | fuel + 1, lhs, rhs, swaps =>
    if lhs > 0 then
      let lhs_element := leading_index lhs
      let index := (M.intercept lhs_element rhs).1
      let dot := (M.intercept lhs_element rhs).2
      if index = -1 ∨ dot = 0 then some (0, 0)
      else
        match shift_one index with
        | none => none
        | some c =>
          match shift_one lhs_element with
          | none => none
          | some b =>
            contract_loop M fuel (lhs &&& to_size_t (~~~b)) (rhs &&& to_size_t (~~~c))
              (swaps + count_bits (rhs &&& to_size_t (c - 1)) + (if dot = -1 then 1 else 0))
    else some (rhs, if swaps % 2 = 0 then 1 else -1)

/-- Blade rule `contract::contract_product<E1, E2>()` (the `>>` operator). -/
def contract_product (M : Metric) (E1 E2 : Nat) : Option (Nat × Int) :=
  if E1 = 0 then some (E2, 1)
  else if count_bits E1 > count_bits E2 then some (0, 0)
  else contract_loop M 64 E1 E2 0

/-- The C++ `static_cast<int>` of a `size_t`: reduction to the 32-bit two's complement
range. -/
def static_cast_int (x : Nat) : Int := Int.bmod x (2 ^ 32)

/-- The value of an `int` arithmetic expression whose exact result is `z`: signed
overflow is undefined, hence a compile error in a constant expression (`none`). -/
def int_checked (z : Int) : Option Int :=
  if -2 ^ 31 ≤ z ∧ z < 2 ^ 31 then some z else none

/-- Blade rule `inner::inner_product<E1, E2>()` (the `|` operator).  `desired_grade`
is the `int` difference of the two bitmasks; comparing it with the `size_t`
`gp.first` converts it to `size_t`.  The test `(A || B) && C` short-circuits: the
negation `-desired_grade` is evaluated only when the first comparison fails. -/
def inner_product (M : Metric) (E1 E2 : Nat) : Option (Nat × Int) :=
  if E1 = 0 ∨ E2 = 0 then some (0, 0)
  else
    match geometric_product M E1 E2 with
    | none => none
    | some gp =>
      match int_checked (static_cast_int E2 - static_cast_int E1) with
      | none => none
      | some desired_grade =>
        if gp.1 = to_size_t desired_grade then
          if gp.2 ≠ 0 then some gp else some (0, 0)
        else
          match int_checked (-desired_grade) with
          | none => none
          | some negated =>
            if gp.1 = to_size_t negated ∧ gp.2 ≠ 0 then some gp else some (0, 0)

/-! ## Quantities named by the specification -/

/-- The number `N` of pairs `(i, j)` with `i` a vector of `E1`, `j` a vector of `E2`
and `j < i`: the transpositions needed to sort the vectors of `E1` followed by those
of `E2` into canonical order. -/
def inversions (E1 E2 : Nat) : Nat :=
  ((bits E1 ×ˢ bits E2).filter (fun p => p.2 < p.1)).card

/-- The number `V` of basis vectors shared by `E1` and `E2` whose square is `-1`. -/
def shared_negative (sig : Nat → Int) (E1 E2 : Nat) : Nat :=
  ((bits E1).filter (fun i => E2.testBit i = true ∧ sig i = -1)).card

/-- The number of basis vectors of `E` whose square is `-1`. -/
def negative_count (sig : Nat → Int) (E : Nat) : Nat :=
  ((bits E).filter (fun i => sig i = -1)).card

/-- The blade `a AND NOT b` on 64-bit words (`a & ~b`). -/
def and_not (a b : Nat) : Nat := a &&& (2 ^ 64 - 1 - b)

/-! ## Terms and multivectors -/

/-- Modelled from the spec: a generator (`generator<tag<ID, index>, degree>`, declared in
the header `finite_algebra.hpp` that is missing from the sources) refers to one run-time
input slot, raised to an integer exponent. -/
structure generator where
  id : Nat
  index : Nat
  degree : Nat
deriving DecidableEq

/-- Modelled from the spec: a monomial (`monomial<Q, G...>`) is an exact rational
coefficient times a product of generator powers. -/
structure monomial where
  q : Rat
  generators : List generator
deriving DecidableEq

/-- Modelled from the spec: a term (`term<E, M...>`) is a basis element paired with a
sum of monomials. -/
structure term where
  element : Nat
  monomials : List monomial
deriving DecidableEq

/-- Modelled from the spec: a multivector (`multivector<void, T...>`) is a list of
terms. -/
abbrev multivector := List term

/-- Modelled from the spec: multiplication of a term by the rational constant `c`
(`rational<c>{} * t`, declared in `finite_algebra.hpp`) multiplies every monomial
coefficient by `c`. -/
def term.scale (c : Rat) (t : term) : term :=
  ⟨t.element, t.monomials.map (fun m => ⟨c * m.q, m.generators⟩)⟩

/-- Modelled from the spec: negation of a term (`-t`, and `minus_one{} * t`, declared
in `finite_algebra.hpp`) negates every monomial coefficient. -/
def term.neg (t : term) : term :=
  ⟨t.element, t.monomials.map (fun m => ⟨-m.q, m.generators⟩)⟩

/-- Modelled from the spec: the product of two terms on the same basis element
(`term<E, M1...>{} * term<E, M2...>{}`, declared in `finite_algebra.hpp`) multiplies the
two monomial sums: coefficients multiply and generator sets combine, one monomial per
pair. -/
def term.mul (a b : term) : term :=
  ⟨a.element, a.monomials.flatMap (fun m => b.monomials.map
    (fun n => ⟨m.q * n.q, m.generators ++ n.generators⟩))⟩

/-- Term rule `contract::product(lhs, rhs)`. -/
def contract.product (M : Metric) (lhs rhs : term) : Option multivector :=
  match contract_product M lhs.element rhs.element with
  | none => none
  | some contraction =>
    if contraction.2 = 0 then some []
    else
      let element_t := contraction.1
      if contraction.2 = 1 then
        some [term.mul ⟨element_t, lhs.monomials⟩ ⟨element_t, rhs.monomials⟩]
      else
        some [term.mul (term.scale contraction.2 ⟨element_t, lhs.monomials⟩)
          ⟨element_t, rhs.monomials⟩]

/-! ## Poincaré complement (`namespace ga`) -/

/-- The `while (e > 0)` loop of `poincare_complement_parity`; it returns the final value
of `swaps`. -/
def poincare_complement_parity_loop : Nat → Nat → Int → Int → Option Int
  | 0, e, swaps, _ => if e > 0 then none else some swaps
  | fuel + 1, e, swaps, grade =>
    if e > 0 then
      if e &&& 1 = 0 then
        poincare_complement_parity_loop fuel (e >>> 1) (swaps + grade) grade
      else
        poincare_complement_parity_loop fuel (e >>> 1) swaps (grade - 1)
    else some swaps

/-- The function `ga::poincare_complement_parity<Dim, E>()`; the result is `1` or `-1`.
The body does not use `Dim`. -/
def poincare_complement_parity (_Dim E : Nat) : Option Int :=
  match poincare_complement_parity_loop 64 E 0 (count_bits E) with
  | none => none
  | some swaps => if Int.land swaps 1 = 1 then some (-1) else some 1

/-- The function `ga::poincare_complement<Dim>(term<E, As...>)`. -/
def poincare_complement (Dim : Nat) (t : term) : Option term :=
  match shift_one Dim with
  | none => none
  | some b =>
    let complement := to_size_t (b - 1) ^^^ t.element
    match poincare_complement_parity Dim t.element with
    | none => none
    | some parity =>
      if parity = 1 then some ⟨complement, t.monomials⟩
      else some (term.neg ⟨complement, t.monomials⟩)

/-! ## Reversion -/

/-- Term reversion `reverse(term<E, M...> t)`. -/
def reverse (t : term) : term :=
  let g := grade t.element
  let flips := g * (g - 1) / 2
  if flips % 2 = 1 then term.neg t else t

/-- General multivector reversion `reverse(multivector<void, T...>)`: every term is
reversed. -/
def reverse_multivector (m : multivector) : multivector :=
  m.map reverse

/-! ## Auxiliary quantities of the complement-parity loop invariant -/

/-- Number of vectors of `E` at positions `t` and above: the value of `grade` when the
loop of `poincare_complement_parity` reaches bit `t`. -/
def remaining_grade (E t : Nat) : Nat := ((bits E).filter (fun k => t ≤ k)).card

/-- Swaps still to be added once the loop of `poincare_complement_parity` is at bit `t`:
for every position `j ≥ t` absent from `E`, the number of vectors of `E` above `j`. -/
def remaining_swaps (E t : Nat) : Nat :=
  ∑ j ∈ Finset.range 64,
    if t ≤ j ∧ E.testBit j = false then ((bits E).filter (fun k => j < k)).card else 0

/-! ## Term-level product rules -/

/-- Term rule `geometric::product_diagonal(lhs, rhs)`. -/
def geometric.product_diagonal (M : Metric) (lhs rhs : term) : Option multivector :=
  match geometric_product M lhs.element rhs.element with
  | none => none
  | some gp =>
    if gp.2 = 0 then some []
    else
      let element_t := gp.1
      if gp.2 = 1 then
        some [term.mul ⟨element_t, lhs.monomials⟩ ⟨element_t, rhs.monomials⟩]
      else
        some [term.mul (term.scale gp.2 ⟨element_t, lhs.monomials⟩)
          ⟨element_t, rhs.monomials⟩]

/-- Term rule `exterior::product(lhs, rhs)`. -/
def exterior.product (lhs rhs : term) : Option multivector :=
  match exterior_product lhs.element rhs.element with
  | none => none
  | some wedge =>
    if wedge.2 = 0 then some []
    else
      let element_t := wedge.1
      if wedge.2 = 1 then
        some [term.mul ⟨element_t, lhs.monomials⟩ ⟨element_t, rhs.monomials⟩]
      else
        some [term.mul (term.scale wedge.2 ⟨element_t, lhs.monomials⟩)
          ⟨element_t, rhs.monomials⟩]

/-- Term rule `inner::product(lhs, rhs)`. -/
def inner.product (M : Metric) (lhs rhs : term) : Option multivector :=
  match inner_product M lhs.element rhs.element with
  | none => none
  | some inner =>
    if inner.2 = 0 then some []
    else
      let element_t := inner.1
      if inner.2 = 1 then
        some [term.mul ⟨element_t, lhs.monomials⟩ ⟨element_t, rhs.monomials⟩]
      else
        some [term.mul (term.scale inner.2 ⟨element_t, lhs.monomials⟩)
          ⟨element_t, rhs.monomials⟩]

/-! ## Multivector-level products -/

/-- Merging a term into a multivector: a term on a basis element already present adds
its monomials to that term. -/
def insert_term (t : term) : multivector → multivector
  | [] => [t]
  | u :: us =>
    if u.element = t.element then ⟨u.element, u.monomials ++ t.monomials⟩ :: us
    else u :: insert_term t us

/-- Re-simplification of a sum of terms: merge by basis element. -/
def merge_terms (m : multivector) : multivector :=
  m.foldl (fun acc t => insert_term t acc) []

/-- The contributions of a list of term pairs under a term rule, in order; a pair on
which the rule has no value leaves the whole product without one. -/
def detail.collect (rule : term → term → Option multivector) :
    List (term × term) → Option multivector
  | [] => some []
  | p :: ps =>
    match rule p.1 p.2 with
    | none => none
    | some r =>
      match detail.collect rule ps with
      | none => none
      | some rest => some (r ++ rest)

/-- Modelled from the spec: `detail::product<Rule>(lhs, rhs)`, declared in the header
`finite_algebra.hpp` that is missing from the sources: the multivector-level product is
the sum over all term pairs (the Cartesian product of the terms of `lhs` with those of
`rhs`), each contributing via the term rule, followed by merging by basis element. -/
def detail.product (rule : term → term → Option multivector) (lhs rhs : multivector) :
    Option multivector :=
  match detail.collect rule (lhs.product rhs) with
  | none => none
  | some terms => some (merge_terms terms)

/-! ## Pseudoscalar and duals -/

/-- The constant `pseudoscalar<Metric>::value`: the top blade `(1 << dimension) - 1`
with the monomial `one`. -/
def pseudoscalar.value (M : Metric) : Option multivector :=
  match shift_one M.dimension with
  | none => none
  | some b => some [⟨to_size_t (b - 1), [⟨1, []⟩]⟩]

/-- The constant `pseudoscalar<Metric>::inverse`: the top blade with the monomial `one`
when `(dimension * (dimension - 1) / 2 + v) % 2 == 0` and `minus_one` otherwise. -/
def pseudoscalar.inverse (M : Metric) : Option multivector :=
  match shift_one M.dimension with
  | none => none
  | some b =>
    some [⟨to_size_t (b - 1),
      [⟨if (M.dimension * (M.dimension - 1) / 2 + M.v) % 2 = 0 then 1 else -1, []⟩]⟩]

/-- The function `polarity_dual<Metric>(input)`: `input >> pseudoscalar<Metric>::inverse`,
where `>>` is `detail::product<Algebra::contract>`. -/
def polarity_dual (M : Metric) (input : multivector) : Option multivector :=
  match pseudoscalar.inverse M with
  | none => none
  | some inverse => detail.product (contract.product M) input inverse

/-- The fold `(multivector<void, decltype(poincare_complement<Dim>(T{}))>{} + ...)` of
`dual`: a right fold of the multivector sum `add` over the single-term multivectors of
the complemented terms. -/
def dual_fold (add : multivector → multivector → multivector) (Dim : Nat) :
    List term → Option multivector
  | [] => some []
  | [t] =>
    match poincare_complement Dim t with
    | none => none
    | some c => some [c]
  | t :: u :: ts =>
    match poincare_complement Dim t with
    | none => none
    | some c =>
      match dual_fold add Dim (u :: ts) with
      | none => none
      | some rest => some (add [c] rest)

/-- Poincaré dual `dual<Metric>(multivector<void, T...>)`.  The multivector sum
(`operator+`, declared in the header `finite_algebra.hpp` that is missing from the
sources) is the parameter `add`. -/
def dual (add : multivector → multivector → multivector) (M : Metric) (m : multivector) :
    Option multivector :=
  if m.length = 0 then some [] else dual_fold add M.dimension m

/-! ## Selection and evaluation of symbolic multivectors -/

/-- Modelled from the spec: `extract<E>(mv)`, declared in a header that is missing from
the sources, selects the terms of `mv` on the basis element `E`. -/
def extract (E : Nat) (mv : multivector) : multivector :=
  mv.filter (fun t => t.element = E)

/-- Modelled from the spec: negation of a multivector (`-mv`, declared in the header
`finite_algebra.hpp` that is missing from the sources) negates every term. -/
def multivector_neg (mv : multivector) : multivector :=
  mv.map term.neg

/-- Modelled from the spec: the value of a generator `generator<tag<ID, index>, degree>`
when the run-time field bound to the tag `(ID, index)` holds `ρ ID index`. -/
def generator.eval {K : Type} [Field K] (ρ : Nat → Nat → K) (g : generator) : K :=
  ρ g.id g.index ^ g.degree

/-- Modelled from the spec: the value of a monomial, its rational coefficient times the
product of its generator powers. -/
def monomial.eval {K : Type} [Field K] (ρ : Nat → Nat → K) (m : monomial) : K :=
  (m.q : K) * (m.generators.map (generator.eval ρ)).prod

/-- Modelled from the spec: the value of the coefficient of a term, the sum of its
monomials. -/
def term.eval {K : Type} [Field K] (ρ : Nat → Nat → K) (t : term) : K :=
  (t.monomials.map (monomial.eval ρ)).sum

/-- Modelled from the spec: `engine.evaluate<T>(mv)` (the engine is declared in the
header `engine.hpp` that is missing from the sources) substitutes the bound field values
into an extracted component and returns its numeric value. -/
def evaluate {K : Type} [Field K] (ρ : Nat → Nat → K) (mv : multivector) : K :=
  (mv.map (term.eval ρ)).sum

/-- Modelled from the spec: the member types `first_t` (the first term of a multivector)
and `rational_t` (the rational coefficient of a term's leading monomial), declared in the
header `finite_algebra.hpp` that is missing from the sources; there is none in a
multivector without terms or a term without monomials. -/
def first_rational (mv : multivector) : Option Rat :=
  match mv with
  | [] => none
  | t :: _ =>
    match t.monomials with
    | [] => none
    | m :: _ => some m.q

/-- Modelled from the spec: division of exact rationals at compile time; there is no
quotient by zero. -/
def rational_div (a b : Rat) : Option Rat :=
  if b = 0 then none else some (a / b)

namespace pga2

/-- Compile-time point `point_t<X, Y>` ("Point at (x, y)"); `-X` is `int` arithmetic. -/
def point_t (X Y : Int) : Option multivector :=
  match int_checked (-X) with
  | none => none
  | some minus_x =>
    some [⟨0b11, [⟨Y, []⟩]⟩, ⟨0b101, [⟨minus_x, []⟩]⟩, ⟨0b110, [⟨1, []⟩]⟩]

/-- Run-time point `point<T>` with fields `x` and `y`. -/
structure point (T : Type) where
  x : T
  y : T

/-- Symbolic encoding `point<T>::type<ID>`. -/
def point.type (ID : Nat) : multivector :=
  [⟨0b11, [⟨1, [⟨ID, 1, 1⟩]⟩]⟩, ⟨0b101, [⟨-1, [⟨ID, 0, 1⟩]⟩]⟩, ⟨0b110, [⟨1, []⟩]⟩]

/-- The function `point<T>::convert(engine, mv)`; over an exact field the quotient by a
zero weight has no value. -/
def point.convert {K : Type} [Field K] [DecidableEq K] (ρ : Nat → Nat → K)
    (mv : multivector) : Option (point K) :=
  let x_e := extract 0b101 mv
  let y_e := extract 0b11 mv
  let c_e := extract 0b110 mv
  let x := -evaluate ρ x_e
  let y := evaluate ρ y_e
  let c := evaluate ρ c_e
  if c = 0 then none else some ⟨x / c, y / c⟩

/-- Compile-time line `line_t<A, B, C>` ("Line with equation ax + by + c = 0"). -/
def line_t (A B C : Int) : multivector :=
  [⟨0b1, [⟨C, []⟩]⟩, ⟨0b10, [⟨A, []⟩]⟩, ⟨0b100, [⟨B, []⟩]⟩]

/-- Compile-time direction `direction_t<X, Y>` ("Direction pointing toward (x, y)"); `-X`
is `int` arithmetic. -/
def direction_t (X Y : Int) : Option multivector :=
  match int_checked (-X) with
  | none => none
  | some minus_x => some [⟨0b11, [⟨Y, []⟩]⟩, ⟨0b101, [⟨minus_x, []⟩]⟩]

/-- Run-time direction `direction<T>` with fields `x` and `y`. -/
structure direction (T : Type) where
  x : T
  y : T

/-- Symbolic encoding `direction<T>::type<ID>`: the `0b11` term is
`monomial<minus_one, generator<tag<ID, 1>>>` and the `0b101` term is
`monomial<one, generator<tag<ID, 0>>>`. -/
def direction.type (ID : Nat) : multivector :=
  [⟨0b11, [⟨-1, [⟨ID, 1, 1⟩]⟩]⟩, ⟨0b101, [⟨1, [⟨ID, 0, 1⟩]⟩]⟩]

/-- The function `direction<T>::convert(engine, mv)`. -/
def direction.convert {K : Type} [Field K] (ρ : Nat → Nat → K) (mv : multivector) :
    direction K :=
  let x_e := multivector_neg (extract 0b101 mv)
  let y_e := extract 0b11 mv
  ⟨evaluate ρ x_e, evaluate ρ y_e⟩

/-- The function `line_slope(line)`; the two `static_assert`s require one term each. -/
def line_slope (line : multivector) : Option Rat :=
  let x := extract 0b10 line
  let y := extract 0b100 line
  if x.length = 1 ∧ y.length = 1 then
    match first_rational x, first_rational y with
    | some a, some b => rational_div (-a) b
    | _, _ => none
  else none

/-- The function `cartesian_point(point)`; the three `static_assert`s require one term
each. -/
def cartesian_point (point : multivector) : Option (Rat × Rat) :=
  let x := multivector_neg (extract 0b101 point)
  let y := extract 0b11 point
  let sign := extract 0b110 point
  if x.length = 1 ∧ y.length = 1 ∧ sign.length = 1 then
    match first_rational x, first_rational y, first_rational sign with
    | some a, some b, some s =>
      match rational_div a s, rational_div b s with
      | some u, some v => some (u, v)
      | _, _ => none
    | _, _, _ => none
  else none

end pga2

/-! ## Run-time multivector encoding (`ega.hpp`) -/

namespace ega

/-- Modelled from the spec: an indeterminate `ind{id, degree}` of the flat run-time
encoding (its declaration is missing from the sources): the id of a run-time input and the
degree it is raised to. -/
structure ind where
  id : Nat
  degree : Rat
deriving DecidableEq

/-- Modelled from the spec: a monomial `mon{q, degree, count, ind_offset}` of the flat
run-time encoding (its declaration is missing from the sources): the rational coefficient
`q`, the total degree, and the `count` indeterminates starting at `ind_offset`. -/
structure mon where
  q : Rat
  degree : Rat
  count : Nat
  ind_offset : Nat
deriving DecidableEq

/-- Modelled from the spec: a term `term{count, mon_offset, element}` of the flat run-time
encoding (its declaration is missing from the sources): the `count` monomials starting at
`mon_offset`, on the basis element `element`. -/
structure term where
  count : Nat
  mon_offset : Nat
  element : Nat
deriving DecidableEq

/-- Modelled from the spec: the counts `mv_size{ind, mon, term}` of a flat multivector. -/
structure mv_size where
  ind : Nat
  mon : Nat
  term : Nat
deriving DecidableEq

/-- Modelled from the spec: the flat run-time multivector `mv<Algebra, I, M, T>` (its
declaration is missing from the sources): its size and the arrays of indeterminates,
monomials and terms. -/
structure mv where
  size : mv_size
  inds : List ind
  mons : List mon
  terms : List term
deriving DecidableEq

/-- The monomials of a term of a flat multivector, each as its coefficient and its list
of indeterminates. -/
def mv.monomials (m : mv) (t : term) : List (Rat × List ind) :=
  ((m.mons.drop t.mon_offset).take t.count).map
    (fun k => (k.q, (m.inds.drop k.ind_offset).take k.count))

/-- The terms of a flat multivector, each as its basis element and its monomials. -/
def mv.decode (m : mv) : List (Nat × List (Rat × List ind)) :=
  m.terms.map (fun t => (t.element, m.monomials t))

/-- The constant `rotor<T>::size()`. -/
def rotor.size : Nat := 5

/-- The function `rotor<T>::ie(id)`; `id` is a `uint32_t`, so the sums wrap at `2^32`. -/
def rotor.ie (id : Nat) : mv :=
  { size := ⟨7, 4, 4⟩
    inds := [⟨id, 1⟩,                  -- cos(t/2)
      ⟨(id + 1) % 2 ^ 32, 1⟩,           -- z * sin(t/2)
      ⟨(id + 4) % 2 ^ 32, 1⟩,
      ⟨(id + 1) % 2 ^ 32, 1⟩,           -- -y * sin(t/2)
      ⟨(id + 3) % 2 ^ 32, 1⟩,
      ⟨(id + 1) % 2 ^ 32, 1⟩,           -- x * sin(t/2)
      ⟨(id + 2) % 2 ^ 32, 1⟩]
    mons := [⟨1, 1, 1, 0⟩, ⟨-1, 2, 2, 1⟩, ⟨1, 2, 2, 3⟩, ⟨-1, 2, 2, 5⟩]
    terms := [⟨1, 0, 0⟩, ⟨1, 1, 0b11⟩, ⟨1, 2, 0b101⟩, ⟨1, 3, 0b110⟩] }

end ega

/-! ## Products of three blades and the sandwich product -/

/-- The blade pair of `(A * B) * C`: `geometric_product` applied to `A` and `B` and then,
unless that pair is zero, to its basis element and `C`; the two signs multiply, as the
coefficients do in `product_diagonal`. -/
def geometric_product_left (M : Metric) (A B C : Nat) : Option (Nat × Int) :=
  match geometric_product M A B with
  | none => none
  | some ab =>
    if ab.2 = 0 then some (0, 0)
    else
      match geometric_product M ab.1 C with
      | none => none
      | some r => if r.2 = 0 then some (0, 0) else some (r.1, ab.2 * r.2)

/-- The blade pair of `A * (B * C)`: `geometric_product` applied to `B` and `C` and then,
unless that pair is zero, to `A` and its basis element; the two signs multiply. -/
def geometric_product_right (M : Metric) (A B C : Nat) : Option (Nat × Int) :=
  match geometric_product M B C with
  | none => none
  | some bc =>
    if bc.2 = 0 then some (0, 0)
    else
      match geometric_product M A bc.1 with
      | none => none
      | some r => if r.2 = 0 then some (0, 0) else some (r.1, bc.2 * r.2)

/-- The operator `lhs * rhs` of `GAL_OPERATORS` for an algebra over a diagonal metric:
`detail::product<Algebra::geometric>`, whose term rule `geometric::product` is then
`product_diagonal`. -/
def operator_mul (M : Metric) (lhs rhs : multivector) : Option multivector :=
  detail.product (geometric.product_diagonal M) lhs rhs

/-- The function `conjugate(action, subject)` of `GAL_OPERATORS`:
`action * subject * ::gal::reverse(action)`, the operator `*` grouping to the left; a
product without a value leaves the sandwich without one. -/
def conjugate (M : Metric) (action subject : multivector) : Option multivector :=
  (operator_mul M action subject).bind
    (fun product => operator_mul M product (reverse_multivector action))

/-- The same sandwich bracketed to the right: `action * (subject * reverse(action))`. -/
def conjugate_right (M : Metric) (action subject : multivector) : Option multivector :=
  (operator_mul M subject (reverse_multivector action)).bind
    (fun product => operator_mul M action product)

/-! ## Sums of monomials -/

/-- Modelled from the spec: adding a monomial to a sum of monomials (the sum of
monomials is declared in the header `finite_algebra.hpp` that is missing from the
sources): a monomial whose generator set is already present adds its coefficient to that
monomial, any other monomial is appended.  Generator sets are kept in one canonical
order, so identical sets are equal lists. -/
def insert_monomial (m : monomial) : List monomial → List monomial
  | [] => [m]
  | n :: ns =>
    if n.generators = m.generators then ⟨n.q + m.q, n.generators⟩ :: ns
    else n :: insert_monomial m ns

/-- Modelled from the spec: the sum of a list of monomials, merged by generator set. -/
def sum_monomials (ms : List monomial) : List monomial :=
  ms.foldl (fun acc m => insert_monomial m acc) []

/-- Modelled from the spec: simplification of a sum of monomials: merge the monomials
with identical generator sets, then drop the monomials whose coefficient is zero. -/
def simplify_monomials (ms : List monomial) : List monomial :=
  (sum_monomials ms).filter (fun m => m.q ≠ 0)


/-! ## Bit-level facts -/

theorem mem_bits {x i : Nat} : i ∈ bits x ↔ i < 64 ∧ x.testBit i = true := by
  simp [bits]

theorem testBit_lt_of_lt {x n i : Nat} (h : x < 2 ^ n) (hi : x.testBit i = true) : i < n := by
  by_contra hc
  have hle : n ≤ i := Nat.le_of_not_lt hc
  have hx : x < 2 ^ i := lt_of_lt_of_le h (Nat.pow_le_pow_right (by norm_num) hle)
  rw [Nat.testBit_lt_two_pow hx] at hi
  exact Bool.noConfusion hi

theorem mem_bits_of_lt {x i : Nat} (h : x < 2 ^ 64) : i ∈ bits x ↔ x.testBit i = true := by
  rw [mem_bits]
  exact ⟨fun h' => h'.2, fun h' => ⟨testBit_lt_of_lt h h', h'⟩⟩

theorem bits_nonempty {x : Nat} (h0 : 0 < x) (h : x < 2 ^ 64) : (bits x).Nonempty := by
  obtain ⟨i, hi, _⟩ := Nat.exists_most_significant_bit (Nat.pos_iff_ne_zero.mp h0)
  exact ⟨i, (mem_bits_of_lt h).mpr hi⟩

theorem leading_index_mem {x : Nat} (h0 : 0 < x) (h : x < 2 ^ 64) :
    leading_index x ∈ bits x := by
  obtain ⟨i, hi, he⟩ := Finset.exists_mem_eq_sup (bits x) (bits_nonempty h0 h) id
  unfold leading_index
  rw [he]
  exact hi

theorem le_leading_index {x i : Nat} (hi : i ∈ bits x) : i ≤ leading_index x :=
  Finset.le_sup (f := id) hi

theorem testBit_leading_index {x : Nat} (h0 : 0 < x) (h : x < 2 ^ 64) :
    x.testBit (leading_index x) = true :=
  (mem_bits.mp (leading_index_mem h0 h)).2

theorem testBit_above_leading_index {x j : Nat} (h : x < 2 ^ 64) (hj : leading_index x < j) :
    x.testBit j = false := by
  by_contra hc
  have hm : j ∈ bits x := (mem_bits_of_lt h).mpr (by simpa using hc)
  exact absurd (le_leading_index hm) (Nat.not_le.mpr hj)

theorem leading_index_lt {x n : Nat} (h0 : 0 < x) (hn : x < 2 ^ n) (h : x < 2 ^ 64) :
    leading_index x < n :=
  testBit_lt_of_lt hn (testBit_leading_index h0 h)

theorem two_pow_leading_index_le {x : Nat} (h0 : 0 < x) (h : x < 2 ^ 64) :
    2 ^ leading_index x ≤ x :=
  Nat.testBit_implies_ge (testBit_leading_index h0 h)

/-! ## Values of the shifted constant -/

theorem shift_one_of_lt {k : Nat} (hk : k < 31) : shift_one (k : Int) = some ((2 : Int) ^ k) := by
  unfold shift_one
  rw [if_pos ⟨Int.ofNat_nonneg k, by exact_mod_cast hk⟩]
  simp

theorem shift_one_of_ge {k : Nat} (hk : 31 ≤ k) : shift_one (k : Int) = none := by
  unfold shift_one
  rw [if_neg]
  intro h
  have : k < 31 := by exact_mod_cast h.2
  omega

theorem to_size_t_two_pow {k : Nat} (hk : k < 64) : to_size_t ((2 : Int) ^ k) = 2 ^ k := by
  unfold to_size_t
  have h1 : ((2 : Int) ^ k) = ((2 ^ k : Nat) : Int) := by push_cast; rfl
  have h2 : (2 : Nat) ^ k < 2 ^ 64 := Nat.pow_lt_pow_right (by norm_num) hk
  rw [h1, Int.emod_eq_of_lt (Int.ofNat_nonneg _) (by exact_mod_cast h2)]
  exact Int.toNat_ofNat _

theorem to_size_t_two_pow_sub_one {k : Nat} (hk : k < 64) :
    to_size_t ((2 : Int) ^ k - 1) = 2 ^ k - 1 := by
  unfold to_size_t
  have hpos : 1 ≤ (2 : Nat) ^ k := Nat.one_le_two_pow
  have h1 : ((2 : Int) ^ k - 1) = ((2 ^ k - 1 : Nat) : Int) := by
    rw [Nat.cast_sub hpos]; push_cast; rfl
  have h2 : (2 : Nat) ^ k < 2 ^ 64 := Nat.pow_lt_pow_right (by norm_num) hk
  have h3 : (2 : Nat) ^ k - 1 < 2 ^ 64 := by omega
  rw [h1, Int.emod_eq_of_lt (Int.ofNat_nonneg _) (by exact_mod_cast h3)]
  exact Int.toNat_ofNat _

theorem to_size_t_not_two_pow {k : Nat} (hk : k < 64) :
    to_size_t (~~~((2 : Int) ^ k)) = 2 ^ 64 - (2 ^ k + 1) := by
  unfold to_size_t
  have h2 : (2 : Nat) ^ k < 2 ^ 64 := Nat.pow_lt_pow_right (by norm_num) hk
  have h' : ((2 : Int) ^ k) = ((2 ^ k : Nat) : Int) := by push_cast; rfl
  have hnot : (~~~((2 ^ k : Nat) : Int)) = Int.negSucc (2 ^ k) := rfl
  have h1 : (~~~((2 : Int) ^ k)) = ((2 ^ 64 - (2 ^ k + 1) : Nat) : Int) + (-1) * 2 ^ 64 := by
    rw [Nat.cast_sub (Nat.succ_le_of_lt h2), h', hnot, Int.negSucc_eq]
    push_cast
    ring
  have h3 : (2 : Nat) ^ 64 - (2 ^ k + 1) < 2 ^ 64 :=
    Nat.sub_lt (by norm_num) (Nat.succ_pos _)
  rw [h1, Int.add_mul_emod_self, Int.emod_eq_of_lt (Int.ofNat_nonneg _) (by exact_mod_cast h3)]
  exact Int.toNat_ofNat _

/-- Clearing bit `k` of a 64-bit word, as done by `x &= ~(1 << k)`. -/
theorem testBit_clear {x k : Nat} (hx : x < 2 ^ 64) (hk : k < 64) (j : Nat) :
    (x &&& (2 ^ 64 - (2 ^ k + 1))).testBit j = (x.testBit j && decide (j ≠ k)) := by
  have h2 : (2 : Nat) ^ k < 2 ^ 64 := Nat.pow_lt_pow_right (by norm_num) hk
  rw [Nat.testBit_and, Nat.testBit_two_pow_sub_succ h2, Nat.testBit_two_pow]
  by_cases hj : j < 64
  · by_cases hjk : k = j
    · subst hjk; simp
    · have : j ≠ k := fun h => hjk h.symm
      simp [hj, hjk, this]
  · have hf : x.testBit j = false := by
      by_contra hc
      exact hj (testBit_lt_of_lt hx (by simpa using hc))
    simp [hf]

/-- Setting bit `k`, as done by `x |= 1 << k`. -/
theorem testBit_set (x k j : Nat) :
    (x ||| 2 ^ k).testBit j = (x.testBit j || decide (j = k)) := by
  rw [Nat.testBit_or, Nat.testBit_two_pow]
  by_cases hjk : k = j
  · subst hjk; simp
  · have : j ≠ k := fun h => hjk h.symm
    simp [hjk, this]

/-- The bits of `x` below position `k`, as selected by `x & ((1 << k) - 1)`. -/
theorem testBit_low (x k j : Nat) :
    (x &&& (2 ^ k - 1)).testBit j = (x.testBit j && decide (j < k)) := by
  rw [Nat.testBit_and, Nat.testBit_two_pow_sub_one]

/-! ## One iteration of the `while (lhs > 0)` loops -/

theorem leading_index_lt_31 {lhs : Nat} (h0 : 0 < lhs) (h31 : lhs < 2 ^ 31) :
    leading_index lhs < 31 :=
  leading_index_lt h0 h31 (lt_trans h31 (by norm_num))

theorem testBit_clear_leading {lhs : Nat} (h31 : lhs < 2 ^ 31) (j : Nat) :
    (lhs &&& (2 ^ 64 - (2 ^ leading_index lhs + 1))).testBit j
      = (lhs.testBit j && decide (j ≠ leading_index lhs)) := by
  have h64 : lhs < 2 ^ 64 := lt_trans h31 (by norm_num)
  by_cases h0 : 0 < lhs
  · exact testBit_clear h64 (lt_trans (leading_index_lt_31 h0 h31) (by norm_num)) j
  · have hz : lhs = 0 := by omega
    subst hz
    simp

theorem clear_leading_lt {lhs : Nat} (h31 : lhs < 2 ^ 31) :
    lhs &&& (2 ^ 64 - (2 ^ leading_index lhs + 1)) < 2 ^ leading_index lhs := by
  have h64 : lhs < 2 ^ 64 := lt_trans h31 (by norm_num)
  apply Nat.lt_pow_two_of_testBit
  intro j hj
  rw [testBit_clear_leading h31]
  rcases Nat.eq_or_lt_of_le hj with h | h
  · simp [h]
  · simp [testBit_above_leading_index h64 h]

theorem bits_clear_leading {lhs : Nat} (h0 : 0 < lhs) (h31 : lhs < 2 ^ 31) :
    bits lhs = insert (leading_index lhs)
      (bits (lhs &&& (2 ^ 64 - (2 ^ leading_index lhs + 1)))) := by
  have h64 : lhs < 2 ^ 64 := lt_trans h31 (by norm_num)
  ext j
  rw [Finset.mem_insert, mem_bits, mem_bits, testBit_clear_leading h31]
  constructor
  · intro h
    by_cases hj : j = leading_index lhs
    · exact Or.inl hj
    · exact Or.inr ⟨h.1, by simp [h.2, hj]⟩
  · rintro (h | h)
    · rw [h]
      exact mem_bits.mp (leading_index_mem h0 h64)
    · refine ⟨h.1, ?_⟩
      have := h.2
      simp only [Bool.and_eq_true] at this
      exact this.1

theorem leading_index_not_mem_clear {lhs : Nat} (h31 : lhs < 2 ^ 31) :
    leading_index lhs ∉ bits (lhs &&& (2 ^ 64 - (2 ^ leading_index lhs + 1))) := by
  rw [mem_bits, testBit_clear_leading h31]
  simp

theorem sum_bits_clear_leading {lhs : Nat} (h0 : 0 < lhs) (h31 : lhs < 2 ^ 31) (f : Nat → Nat) :
    ∑ i ∈ bits lhs, f i = f (leading_index lhs)
      + ∑ i ∈ bits (lhs &&& (2 ^ 64 - (2 ^ leading_index lhs + 1))), f i := by
  conv_lhs => rw [bits_clear_leading h0 h31]
  exact Finset.sum_insert (leading_index_not_mem_clear h31)

theorem bits_zero : bits 0 = ∅ := by
  ext j
  simp [mem_bits]

/-! ## The counting quantities as sums over the vectors of the left blade -/

theorem inversions_eq_sum (E1 E2 : Nat) :
    inversions E1 E2 = ∑ i ∈ bits E1, ((bits E2).filter (fun j => j < i)).card := by
  unfold inversions
  rw [Finset.card_filter, Finset.sum_product]
  refine Finset.sum_congr rfl (fun i _ => ?_)
  rw [Finset.card_filter]

theorem shared_negative_eq_sum (sig : Nat → Int) (E1 E2 : Nat) :
    shared_negative sig E1 E2
      = ∑ i ∈ bits E1, (if E2.testBit i = true ∧ sig i = -1 then 1 else 0) := by
  unfold shared_negative
  rw [Finset.card_filter]

theorem negative_count_eq_sum (sig : Nat → Int) (E : Nat) :
    negative_count sig E = ∑ i ∈ bits E, (if sig i = -1 then 1 else 0) := by
  unfold negative_count
  rw [Finset.card_filter]

theorem inversions_zero_left (E2 : Nat) : inversions 0 E2 = 0 := by
  rw [inversions_eq_sum, bits_zero, Finset.sum_empty]

theorem inversions_zero_right (E1 : Nat) : inversions E1 0 = 0 := by
  rw [inversions_eq_sum, bits_zero]
  simp

/-- The popcount `count_bits(rhs & ((1 << k) - 1))` added to `swaps`, when the running
right operand still agrees with `E2` below position `k`. -/
theorem count_bits_low {rhs E2 k : Nat} (h : ∀ j, j < k → rhs.testBit j = E2.testBit j) :
    count_bits (rhs &&& (2 ^ k - 1)) = ((bits E2).filter (fun j => j < k)).card := by
  unfold count_bits
  congr 1
  ext j
  rw [Finset.mem_filter, mem_bits, mem_bits, testBit_low]
  constructor
  · intro hj
    have h2 := hj.2
    simp only [Bool.and_eq_true, decide_eq_true_eq] at h2
    exact ⟨⟨hj.1, by rw [← h j h2.2]; exact h2.1⟩, h2.2⟩
  · intro hj
    refine ⟨hj.1.1, ?_⟩
    simp only [Bool.and_eq_true, decide_eq_true_eq]
    exact ⟨by rw [h j hj.2]; exact hj.1.2, hj.2⟩

theorem sign_eq_neg_one_pow (n : Nat) : (if n % 2 = 0 then (1 : Int) else -1) = (-1) ^ n := by
  rcases Nat.even_or_odd n with h | h
  · rw [h.neg_one_pow, if_pos (Nat.even_iff.mp h)]
  · rw [h.neg_one_pow, if_neg (by rw [Nat.odd_iff.mp h]; norm_num)]

/-! ## The exterior loop -/

theorem exterior_loop_done (fuel rhs swaps : Nat) :
    exterior_loop fuel 0 rhs swaps = some swaps := by
  cases fuel <;> rfl

theorem exterior_loop_step (fuel rhs swaps : Nat) {lhs : Nat} (h0 : 0 < lhs)
    (h31 : lhs < 2 ^ 31) :
    exterior_loop (fuel + 1) lhs rhs swaps
      = exterior_loop fuel (lhs &&& (2 ^ 64 - (2 ^ leading_index lhs + 1)))
          (rhs ||| 2 ^ leading_index lhs)
          (swaps + count_bits (rhs &&& (2 ^ leading_index lhs - 1))) := by
  have hk := leading_index_lt_31 h0 h31
  have hk64 : leading_index lhs < 64 := lt_trans hk (by norm_num)
  show (if lhs > 0 then _ else _) = _
  rw [if_pos h0]
  simp only [shift_one_of_lt hk, to_size_t_not_two_pow hk64, to_size_t_two_pow hk64,
    to_size_t_two_pow_sub_one hk64]

/-- Facts about the state after one iteration: the new `lhs` is below both `2 ^ fuel` and
`2 ^ 31`, and every position still to be visited lies below the cleared bit. -/
theorem after_step {fuel lhs : Nat} (h0 : 0 < lhs) (hf : lhs < 2 ^ (fuel + 1))
    (h31 : lhs < 2 ^ 31) :
    lhs &&& (2 ^ 64 - (2 ^ leading_index lhs + 1)) < 2 ^ fuel ∧
    lhs &&& (2 ^ 64 - (2 ^ leading_index lhs + 1)) < 2 ^ 31 ∧
    (∀ j, 2 ^ j ≤ lhs &&& (2 ^ 64 - (2 ^ leading_index lhs + 1)) → j < leading_index lhs) ∧
    (∀ j, j ≤ leading_index lhs → 2 ^ j ≤ lhs) := by
  have h64 : lhs < 2 ^ 64 := lt_trans h31 (by norm_num)
  have hk := leading_index_lt_31 h0 h31
  have hkf : leading_index lhs < fuel + 1 := leading_index_lt h0 hf h64
  have hle := two_pow_leading_index_le h0 h64
  have hlt := clear_leading_lt h31
  refine ⟨lt_of_lt_of_le hlt (Nat.pow_le_pow_right (by norm_num) (Nat.lt_succ_iff.mp hkf)),
    lt_trans hlt (Nat.pow_lt_pow_right (by norm_num) hk), ?_, ?_⟩
  · intro j hj
    by_contra hc
    have := Nat.pow_le_pow_right (n := 2) (by norm_num) (Nat.le_of_not_lt hc)
    omega
  · intro j hj
    exact le_trans (Nat.pow_le_pow_right (by norm_num) hj) hle

theorem exterior_loop_eq (E2 : Nat) : ∀ (fuel lhs rhs swaps : Nat), lhs < 2 ^ fuel → lhs < 2 ^ 31 →
    (∀ j, 2 ^ j ≤ lhs → rhs.testBit j = E2.testBit j) →
    exterior_loop fuel lhs rhs swaps = some (swaps + inversions lhs E2) := by
  intro fuel
  induction fuel with
  | zero =>
    intro lhs rhs swaps hf _ _
    have hz : lhs = 0 := by simpa using hf
    subst hz
    rw [exterior_loop_done, inversions_zero_left]
    rfl
  | succ fuel ih =>
    intro lhs rhs swaps hf h31 hr
    by_cases h0 : 0 < lhs
    · obtain ⟨hf', h31', hlow, hup⟩ := after_step h0 hf h31
      rw [exterior_loop_step fuel rhs swaps h0 h31, ih _ _ _ hf' h31']
      · rw [count_bits_low (fun j hj => hr j (hup j (Nat.le_of_lt hj))),
          inversions_eq_sum lhs, sum_bits_clear_leading h0 h31, ← inversions_eq_sum]
        simp only [Nat.add_assoc]
      · intro j hj
        have hjk := hlow j hj
        rw [testBit_set, ← hr j (hup j (Nat.le_of_lt hjk))]
        simp [Nat.ne_of_lt hjk]
    · have hz : lhs = 0 := by omega
      subst hz
      rw [exterior_loop_done, inversions_zero_left]
      rfl

/-! ## The geometric loop under a diagonal metric -/

theorem geometric_loop_done (M : Metric) (element fuel rhs swaps : Nat) :
    geometric_loop M element fuel 0 rhs swaps
      = some (element, if swaps % 2 = 0 then 1 else -1) := by
  cases fuel <;> rfl

theorem geometric_loop_wedge {M : Metric} {sig : Nat → Int} (hM : M.Diagonal sig)
    (element fuel swaps : Nat) {lhs rhs : Nat} (h0 : 0 < lhs) (h31 : lhs < 2 ^ 31)
    (hb : rhs.testBit (leading_index lhs) = false) :
    geometric_loop M element (fuel + 1) lhs rhs swaps
      = geometric_loop M element fuel (lhs &&& (2 ^ 64 - (2 ^ leading_index lhs + 1)))
          (rhs ||| 2 ^ leading_index lhs)
          (swaps + count_bits (rhs &&& (2 ^ leading_index lhs - 1))) := by
  have hk := leading_index_lt_31 h0 h31
  have hk64 : leading_index lhs < 64 := lt_trans hk (by norm_num)
  have hi := (hM (leading_index lhs) rhs).2 hb
  show (if lhs > 0 then _ else _) = _
  rw [if_pos h0]
  simp only [hi, if_true, shift_one_of_lt hk, to_size_t_not_two_pow hk64,
    to_size_t_two_pow hk64, to_size_t_two_pow_sub_one hk64]

theorem intercept_index_ne {k : Nat} : ((k : Int) = -1) = False := by
  apply eq_false
  intro h
  have := Int.ofNat_nonneg k
  omega

theorem geometric_loop_zero {M : Metric} {sig : Nat → Int} (hM : M.Diagonal sig)
    (element fuel swaps : Nat) {lhs rhs : Nat} (h0 : 0 < lhs) (h31 : lhs < 2 ^ 31)
    (hb : rhs.testBit (leading_index lhs) = true) (hs : sig (leading_index lhs) = 0) :
    geometric_loop M element (fuel + 1) lhs rhs swaps = some (0, 0) := by
  have hk := leading_index_lt_31 h0 h31
  have hi := (hM (leading_index lhs) rhs).1 hb
  show (if lhs > 0 then _ else _) = _
  rw [if_pos h0]
  simp only [hi, intercept_index_ne, if_false, shift_one_of_lt hk, hs, if_true]

theorem geometric_loop_contract {M : Metric} {sig : Nat → Int} (hM : M.Diagonal sig)
    (element fuel swaps : Nat) {lhs rhs : Nat} (h0 : 0 < lhs) (h31 : lhs < 2 ^ 31)
    (hb : rhs.testBit (leading_index lhs) = true) (hs : sig (leading_index lhs) ≠ 0) :
    geometric_loop M element (fuel + 1) lhs rhs swaps
      = geometric_loop M element fuel (lhs &&& (2 ^ 64 - (2 ^ leading_index lhs + 1)))
          (rhs &&& (2 ^ 64 - (2 ^ leading_index lhs + 1)))
          (swaps + count_bits (rhs &&& (2 ^ leading_index lhs - 1))
            + (if sig (leading_index lhs) = -1 then 1 else 0)) := by
  have hk := leading_index_lt_31 h0 h31
  have hk64 : leading_index lhs < 64 := lt_trans hk (by norm_num)
  have hi := (hM (leading_index lhs) rhs).1 hb
  show (if lhs > 0 then _ else _) = _
  rw [if_pos h0]
  simp only [hi, intercept_index_ne, if_false, shift_one_of_lt hk, hs,
    to_size_t_not_two_pow hk64, to_size_t_two_pow_sub_one hk64]

/-- Clearing bit `k` of a word of any size leaves the positions below 64 other than `k`. -/
theorem testBit_clear_low (x : Nat) {k j : Nat} (hk : k < 64) (hj : j < 64) (hjk : j ≠ k) :
    (x &&& (2 ^ 64 - (2 ^ k + 1))).testBit j = x.testBit j := by
  have h2 : (2 : Nat) ^ k < 2 ^ 64 := Nat.pow_lt_pow_right (by norm_num) hk
  rw [Nat.testBit_and, Nat.testBit_two_pow_sub_succ h2, Nat.testBit_two_pow]
  have : ¬ k = j := fun h => hjk h.symm
  simp [hj, this]

theorem shared_negative_zero_left (sig : Nat → Int) (E2 : Nat) : shared_negative sig 0 E2 = 0 := by
  rw [shared_negative_eq_sum, bits_zero, Finset.sum_empty]

theorem geometric_loop_eq_done (M : Metric) (sig : Nat → Int) (E2 element fuel rhs swaps : Nat) :
    geometric_loop M element fuel 0 rhs swaps
      = if ∃ i ∈ bits 0, E2.testBit i = true ∧ sig i = 0 then some (0, 0)
        else some (element,
          if (swaps + inversions 0 E2 + shared_negative sig 0 E2) % 2 = 0 then 1 else -1) := by
  have hne : ¬ ∃ i ∈ bits 0, E2.testBit i = true ∧ sig i = 0 := by
    rw [bits_zero]
    simp
  rw [geometric_loop_done, if_neg hne, inversions_zero_left, shared_negative_zero_left]
  rfl

theorem geometric_loop_eq {M : Metric} {sig : Nat → Int} (hM : M.Diagonal sig)
    (E2 element : Nat) : ∀ (fuel lhs rhs swaps : Nat), lhs < 2 ^ fuel → lhs < 2 ^ 31 →
    (∀ j, 2 ^ j ≤ lhs → rhs.testBit j = E2.testBit j) →
    geometric_loop M element fuel lhs rhs swaps
      = if ∃ i ∈ bits lhs, E2.testBit i = true ∧ sig i = 0 then some (0, 0)
        else some (element,
          if (swaps + inversions lhs E2 + shared_negative sig lhs E2) % 2 = 0 then 1 else -1) := by
  intro fuel
  induction fuel with
  | zero =>
    intro lhs rhs swaps hf _ _
    have hz : lhs = 0 := by simpa using hf
    subst hz
    exact geometric_loop_eq_done M sig E2 element 0 rhs swaps
  | succ fuel ih =>
    intro lhs rhs swaps hf h31 hr
    by_cases h0 : 0 < lhs
    · obtain ⟨hf', h31', hlow, hup⟩ := after_step h0 hf h31
      have hk := leading_index_lt_31 h0 h31
      have hk64 : leading_index lhs < 64 := lt_trans hk (by norm_num)
      have hrk := hr _ (hup _ (le_refl _))
      have hcnt := count_bits_low (fun j hj => hr j (hup j (Nat.le_of_lt hj)))
      have hex : (∃ i ∈ bits lhs, E2.testBit i = true ∧ sig i = 0) ↔
          ((E2.testBit (leading_index lhs) = true ∧ sig (leading_index lhs) = 0) ∨
            ∃ i ∈ bits (lhs &&& (2 ^ 64 - (2 ^ leading_index lhs + 1))),
              E2.testBit i = true ∧ sig i = 0) := by
        conv_lhs => rw [bits_clear_leading h0 h31]
        exact Finset.exists_mem_insert _ _ _
      have hinv : inversions lhs E2 = ((bits E2).filter (fun j => j < leading_index lhs)).card
          + inversions (lhs &&& (2 ^ 64 - (2 ^ leading_index lhs + 1))) E2 := by
        rw [inversions_eq_sum lhs, sum_bits_clear_leading h0 h31, ← inversions_eq_sum]
      have hneg : shared_negative sig lhs E2
          = (if E2.testBit (leading_index lhs) = true ∧ sig (leading_index lhs) = -1 then 1 else 0)
            + shared_negative sig (lhs &&& (2 ^ 64 - (2 ^ leading_index lhs + 1))) E2 := by
        rw [shared_negative_eq_sum sig lhs, sum_bits_clear_leading h0 h31,
          ← shared_negative_eq_sum]
      cases hb : E2.testBit (leading_index lhs) with
      | false =>
        rw [hb] at hrk
        rw [geometric_loop_wedge hM element fuel swaps h0 h31 hrk, ih _ _ _ hf' h31']
        · rw [hcnt, hinv, hneg]
          simp only [hex, hb, Bool.false_eq_true, false_and, false_or, if_false, Nat.zero_add,
            Nat.add_assoc]
        · intro j hj
          have hjk := hlow j hj
          rw [testBit_set, ← hr j (hup j (Nat.le_of_lt hjk))]
          simp [Nat.ne_of_lt hjk]
      | true =>
        rw [hb] at hrk
        by_cases hs : sig (leading_index lhs) = 0
        · rw [geometric_loop_zero hM element fuel swaps h0 h31 hrk hs, if_pos]
          exact hex.mpr (Or.inl ⟨hb, hs⟩)
        · rw [geometric_loop_contract hM element fuel swaps h0 h31 hrk hs, ih _ _ _ hf' h31']
          · rw [hcnt, hinv, hneg]
            have hsimp : ((if sig (leading_index lhs) = -1 then (1 : Nat) else 0))
                = (if true = true ∧ sig (leading_index lhs) = -1 then 1 else 0) := by simp
            simp only [hex, hb, hs, and_false, false_or, hsimp]
            congr 3
            omega
          · intro j hj
            have hjk := hlow j hj
            rw [testBit_clear_low rhs hk64 (lt_trans hjk hk64) (Nat.ne_of_lt hjk)]
            exact hr j (hup j (Nat.le_of_lt hjk))
    · have hz : lhs = 0 := by omega
      subst hz
      exact geometric_loop_eq_done M sig E2 element (fuel + 1) rhs swaps

theorem geometric_product_eq {M : Metric} {sig : Nat → Int} (hM : M.Diagonal sig)
    (E1 E2 : Nat) (h31 : E1 < 2 ^ 31) :
    geometric_product M E1 E2
      = if ∃ i ∈ bits E1, E2.testBit i = true ∧ sig i = 0 then some (0, 0)
        else some (E1 ^^^ E2, (-1) ^ (inversions E1 E2 + shared_negative sig E1 E2)) := by
  unfold geometric_product
  by_cases h1 : E1 = 0
  · subst h1
    have hne : ¬ ∃ i ∈ bits 0, E2.testBit i = true ∧ sig i = 0 := by
      rw [bits_zero]
      simp
    rw [if_pos rfl, if_neg hne, inversions_zero_left, shared_negative_zero_left]
    simp
  · rw [if_neg h1]
    by_cases h2 : E2 = 0
    · subst h2
      have hne : ¬ ∃ i ∈ bits E1, Nat.testBit 0 i = true ∧ sig i = 0 := by simp
      have hsn : shared_negative sig E1 0 = 0 := by
        rw [shared_negative_eq_sum]
        simp
      rw [if_pos rfl, if_neg hne, inversions_zero_right, hsn]
      simp
    · rw [if_neg h2, geometric_loop_eq hM E2 (E1 ^^^ E2) 64 E1 E2 0
        (lt_trans h31 (by norm_num)) h31 (fun _ _ => rfl), Nat.zero_add, sign_eq_neg_one_pow]

/-! ## The contraction loop under a diagonal metric -/

theorem testBit_and_not (a : Nat) {b : Nat} (hb : b < 2 ^ 64) (j : Nat) :
    (and_not a b).testBit j = (a.testBit j && (decide (j < 64) && !b.testBit j)) := by
  unfold and_not
  rw [Nat.sub_sub, Nat.add_comm 1 b, Nat.testBit_and, Nat.testBit_two_pow_sub_succ hb]

theorem and_not_zero {a : Nat} (ha : a < 2 ^ 64) : and_not a 0 = a := by
  apply Nat.eq_of_testBit_eq
  intro j
  rw [testBit_and_not a (by norm_num)]
  by_cases hj : j < 64
  · simp [hj]
  · have hf : a.testBit j = false := by
      by_contra hc
      exact hj (testBit_lt_of_lt ha (by simpa using hc))
    simp [hf]

theorem contract_loop_done (M : Metric) (fuel rhs swaps : Nat) :
    contract_loop M fuel 0 rhs swaps = some (rhs, if swaps % 2 = 0 then 1 else -1) := by
  cases fuel <;> rfl

theorem contract_loop_absent {M : Metric} {sig : Nat → Int} (hM : M.Diagonal sig)
    (fuel swaps : Nat) {lhs rhs : Nat} (h0 : 0 < lhs)
    (hb : rhs.testBit (leading_index lhs) = false) :
    contract_loop M (fuel + 1) lhs rhs swaps = some (0, 0) := by
  have hi := (hM (leading_index lhs) rhs).2 hb
  show (if lhs > 0 then _ else _) = _
  rw [if_pos h0]
  simp only [hi, true_or, if_true]

theorem contract_loop_zero {M : Metric} {sig : Nat → Int} (hM : M.Diagonal sig)
    (fuel swaps : Nat) {lhs rhs : Nat} (h0 : 0 < lhs)
    (hb : rhs.testBit (leading_index lhs) = true) (hs : sig (leading_index lhs) = 0) :
    contract_loop M (fuel + 1) lhs rhs swaps = some (0, 0) := by
  have hi := (hM (leading_index lhs) rhs).1 hb
  show (if lhs > 0 then _ else _) = _
  rw [if_pos h0]
  simp only [hi, hs, or_true, if_true]

theorem contract_loop_step {M : Metric} {sig : Nat → Int} (hM : M.Diagonal sig)
    (fuel swaps : Nat) {lhs rhs : Nat} (h0 : 0 < lhs) (h31 : lhs < 2 ^ 31)
    (hb : rhs.testBit (leading_index lhs) = true) (hs : sig (leading_index lhs) ≠ 0) :
    contract_loop M (fuel + 1) lhs rhs swaps
      = contract_loop M fuel (lhs &&& (2 ^ 64 - (2 ^ leading_index lhs + 1)))
          (rhs &&& (2 ^ 64 - (2 ^ leading_index lhs + 1)))
          (swaps + count_bits (rhs &&& (2 ^ leading_index lhs - 1))
            + (if sig (leading_index lhs) = -1 then 1 else 0)) := by
  have hk := leading_index_lt_31 h0 h31
  have hk64 : leading_index lhs < 64 := lt_trans hk (by norm_num)
  have hi := (hM (leading_index lhs) rhs).1 hb
  show (if lhs > 0 then _ else _) = _
  rw [if_pos h0]
  simp only [hi, intercept_index_ne, hs, or_self, if_false, shift_one_of_lt hk,
    to_size_t_not_two_pow hk64, to_size_t_two_pow_sub_one hk64]

theorem testBit_clear_self (x : Nat) {k : Nat} (hk : k < 64) :
    (x &&& (2 ^ 64 - (2 ^ k + 1))).testBit k = false := by
  have h2 : (2 : Nat) ^ k < 2 ^ 64 := Nat.pow_lt_pow_right (by norm_num) hk
  rw [Nat.testBit_and, Nat.testBit_two_pow_sub_succ h2, Nat.testBit_two_pow_self]
  simp

theorem and_not_clear_leading {lhs rhs : Nat} (h0 : 0 < lhs) (h31 : lhs < 2 ^ 31) :
    and_not (rhs &&& (2 ^ 64 - (2 ^ leading_index lhs + 1)))
        (lhs &&& (2 ^ 64 - (2 ^ leading_index lhs + 1)))
      = and_not rhs lhs := by
  have h64 : lhs < 2 ^ 64 := lt_trans h31 (by norm_num)
  have hk := leading_index_lt_31 h0 h31
  have hk64 : leading_index lhs < 64 := lt_trans hk (by norm_num)
  have hlt : lhs &&& (2 ^ 64 - (2 ^ leading_index lhs + 1)) < 2 ^ 64 :=
    lt_of_le_of_lt Nat.and_le_left h64
  apply Nat.eq_of_testBit_eq
  intro j
  rw [testBit_and_not _ hlt, testBit_and_not _ h64, testBit_clear_leading h31]
  by_cases hj : j < 64
  · by_cases hjk : j = leading_index lhs
    · rw [hjk, testBit_leading_index h0 h64, testBit_clear_self rhs hk64]
      simp
    · rw [testBit_clear_low rhs hk64 hj hjk]
      simp [hjk]
  · simp [hj]

theorem contract_loop_eq {M : Metric} {sig : Nat → Int} (hM : M.Diagonal sig)
    (E2 : Nat) : ∀ (fuel lhs rhs swaps : Nat), lhs < 2 ^ fuel → lhs < 2 ^ 31 → rhs < 2 ^ 64 →
    (∀ j, 2 ^ j ≤ lhs → rhs.testBit j = E2.testBit j) →
    contract_loop M fuel lhs rhs swaps
      = if ∀ i ∈ bits lhs, E2.testBit i = true ∧ sig i ≠ 0 then
          some (and_not rhs lhs,
            if (swaps + inversions lhs E2 + negative_count sig lhs) % 2 = 0 then 1 else -1)
        else some (0, 0) := by
  have hdone : ∀ (fuel rhs swaps : Nat), rhs < 2 ^ 64 →
      contract_loop M fuel 0 rhs swaps
        = if ∀ i ∈ bits 0, E2.testBit i = true ∧ sig i ≠ 0 then
            some (and_not rhs 0,
              if (swaps + inversions 0 E2 + negative_count sig 0) % 2 = 0 then 1 else -1)
          else some (0, 0) := by
    intro fuel rhs swaps hrhs
    have hall : ∀ i ∈ bits 0, E2.testBit i = true ∧ sig i ≠ 0 := by
      rw [bits_zero]
      simp
    have hnc : negative_count sig 0 = 0 := by
      rw [negative_count_eq_sum, bits_zero, Finset.sum_empty]
    rw [contract_loop_done, if_pos hall, inversions_zero_left, hnc, and_not_zero hrhs]
    rfl
  intro fuel
  induction fuel with
  | zero =>
    intro lhs rhs swaps hf _ hrhs _
    have hz : lhs = 0 := by simpa using hf
    subst hz
    exact hdone 0 rhs swaps hrhs
  | succ fuel ih =>
    intro lhs rhs swaps hf h31 hrhs hr
    by_cases h0 : 0 < lhs
    · obtain ⟨hf', h31', hlow, hup⟩ := after_step h0 hf h31
      have hk := leading_index_lt_31 h0 h31
      have hk64 : leading_index lhs < 64 := lt_trans hk (by norm_num)
      have hrk := hr _ (hup _ (le_refl _))
      have hcnt := count_bits_low (fun j hj => hr j (hup j (Nat.le_of_lt hj)))
      have hall : (∀ i ∈ bits lhs, E2.testBit i = true ∧ sig i ≠ 0) ↔
          ((E2.testBit (leading_index lhs) = true ∧ sig (leading_index lhs) ≠ 0) ∧
            ∀ i ∈ bits (lhs &&& (2 ^ 64 - (2 ^ leading_index lhs + 1))),
              E2.testBit i = true ∧ sig i ≠ 0) := by
        conv_lhs => rw [bits_clear_leading h0 h31]
        exact Finset.forall_mem_insert _ _ _
      have hinv : inversions lhs E2 = ((bits E2).filter (fun j => j < leading_index lhs)).card
          + inversions (lhs &&& (2 ^ 64 - (2 ^ leading_index lhs + 1))) E2 := by
        rw [inversions_eq_sum lhs, sum_bits_clear_leading h0 h31, ← inversions_eq_sum]
      have hneg : negative_count sig lhs
          = (if sig (leading_index lhs) = -1 then 1 else 0)
            + negative_count sig (lhs &&& (2 ^ 64 - (2 ^ leading_index lhs + 1))) := by
        rw [negative_count_eq_sum sig lhs, sum_bits_clear_leading h0 h31,
          ← negative_count_eq_sum]
      cases hb : E2.testBit (leading_index lhs) with
      | false =>
        rw [hb] at hrk
        rw [contract_loop_absent hM fuel swaps h0 hrk, if_neg]
        intro hc
        have := (hall.mp hc).1.1
        rw [hb] at this
        exact Bool.noConfusion this
      | true =>
        rw [hb] at hrk
        by_cases hs : sig (leading_index lhs) = 0
        · rw [contract_loop_zero hM fuel swaps h0 hrk hs, if_neg]
          intro hc
          exact (hall.mp hc).1.2 hs
        · rw [contract_loop_step hM fuel swaps h0 h31 hrk hs,
            ih _ _ _ hf' h31' (lt_of_le_of_lt Nat.and_le_left hrhs)]
          · rw [hcnt, hinv, hneg, and_not_clear_leading h0 h31]
            simp only [hall, hb, hs, ne_eq, not_false_eq_true, and_self, true_and]
            congr 3
            omega
          · intro j hj
            have hjk := hlow j hj
            rw [testBit_clear_low rhs hk64 (lt_trans hjk hk64) (Nat.ne_of_lt hjk)]
            exact hr j (hup j (Nat.le_of_lt hjk))
    · have hz : lhs = 0 := by omega
      subst hz
      exact hdone (fuel + 1) rhs swaps hrhs

theorem contract_product_eq {M : Metric} {sig : Nat → Int} (hM : M.Diagonal sig)
    (E1 E2 : Nat) (h31 : E1 < 2 ^ 31) (h64 : E2 < 2 ^ 64) :
    contract_product M E1 E2
      = if ∀ i ∈ bits E1, E2.testBit i = true ∧ sig i ≠ 0 then
          some (and_not E2 E1, (-1) ^ (inversions E1 E2 + negative_count sig E1))
        else some (0, 0) := by
  unfold contract_product
  by_cases h1 : E1 = 0
  · subst h1
    have hall : ∀ i ∈ bits 0, E2.testBit i = true ∧ sig i ≠ 0 := by
      rw [bits_zero]
      simp
    have hnc : negative_count sig 0 = 0 := by
      rw [negative_count_eq_sum, bits_zero, Finset.sum_empty]
    rw [if_pos rfl, if_pos hall, inversions_zero_left, hnc, and_not_zero h64]
    simp
  · rw [if_neg h1]
    by_cases hg : count_bits E1 > count_bits E2
    · rw [if_pos hg, if_neg]
      intro hall
      have hsub : bits E1 ⊆ bits E2 := fun i hi =>
        (mem_bits_of_lt h64).mpr (hall i hi).1
      exact absurd (Finset.card_le_card hsub) (Nat.not_le.mpr hg)
    · rw [if_neg hg, contract_loop_eq hM E2 64 E1 E2 0 (lt_trans h31 (by norm_num)) h31 h64
        (fun _ _ => rfl), Nat.zero_add, sign_eq_neg_one_pow]

theorem and_eq_zero_iff_bits (E1 E2 : Nat) (h31 : E1 < 2 ^ 31) :
    E1 &&& E2 = 0 ↔ ∀ i ∈ bits E1, E2.testBit i = false := by
  have h64 : E1 < 2 ^ 64 := lt_trans h31 (by norm_num)
  constructor
  · intro h i hi
    have := congrArg (fun x => Nat.testBit x i) h
    simp only [Nat.testBit_and, Nat.zero_testBit, (mem_bits_of_lt h64).mp hi,
      Bool.true_and] at this
    exact this
  · intro h
    apply Nat.eq_of_testBit_eq
    intro i
    rw [Nat.testBit_and, Nat.zero_testBit]
    cases hb : E1.testBit i with
    | false => rfl
    | true => rw [h i ((mem_bits_of_lt h64).mpr hb)]; rfl

theorem exterior_product_eq (E1 E2 : Nat) (h31 : E1 < 2 ^ 31) :
    exterior_product E1 E2
      = if E1 &&& E2 ≠ 0 then some (0, 0)
        else some (E1 ||| E2, (-1) ^ inversions E1 E2) := by
  unfold exterior_product
  by_cases h1 : E1 = 0
  · subst h1
    rw [if_pos rfl, if_neg (by simp), inversions_zero_left]
    simp
  · rw [if_neg h1]
    by_cases h2 : E2 = 0
    · subst h2
      rw [if_pos rfl, if_neg (by simp), inversions_zero_right]
      simp
    · rw [if_neg h2]
      by_cases h3 : E1 &&& E2 ≠ 0
      · simp only [h3, ne_eq, not_false_eq_true, if_true]
      · simp only [h3, if_false]
        rw [exterior_loop_eq E2 64 E1 E2 0 (lt_trans h31 (by norm_num)) h31 (fun _ _ => rfl)]
        simp only [Nat.zero_add, sign_eq_neg_one_pow]

theorem bits_two_pow {i : Nat} (hi : i < 64) : bits (2 ^ i) = {i} := by
  ext j
  rw [mem_bits, Nat.testBit_two_pow, Finset.mem_singleton]
  constructor
  · intro h
    have := h.2
    simp only [decide_eq_true_eq] at this
    exact this.symm
  · intro h
    subst h
    exact ⟨hi, by simp⟩

theorem inversions_two_pow {i j : Nat} (hi : i < 64) (hj : j < 64) :
    inversions (2 ^ i) (2 ^ j) = if j < i then 1 else 0 := by
  rw [inversions_eq_sum, bits_two_pow hi, bits_two_pow hj, Finset.sum_singleton,
    Finset.filter_singleton]
  by_cases h : j < i
  · simp [h]
  · simp [h]

theorem neg_one_pow_ne_zero (n : Nat) : ((-1 : Int)) ^ n ≠ 0 :=
  pow_ne_zero n (by norm_num)

theorem diagonal_metric_diagonal (d : Nat) (sig : Nat → Int) :
    (diagonal_metric d sig).Diagonal sig := by
  intro i S
  constructor
  · intro h
    show (if S.testBit i then ((i : Int), sig i) else (-1, 0)) = _
    rw [if_pos h]
  · intro h
    show (if S.testBit i then ((i : Int), sig i) else (-1, 0)).1 = _
    rw [if_neg (by rw [h]; exact Bool.false_ne_true)]

/-! ## Bitmask differences and grades (the test of `inner_product`) -/

theorem xor_add_two_mul_and : ∀ a b : Nat, (a ^^^ b) + 2 * (a &&& b) = a + b := by
  intro a
  induction a using Nat.strongRecOn with
  | ind a ih =>
    intro b
    by_cases ha : a = 0
    · subst ha
      simp
    · have hlt : a / 2 < a := Nat.div_lt_self (Nat.pos_of_ne_zero ha) (by norm_num)
      have hrec := ih (a / 2) hlt (b / 2)
      have hx2 : (a ^^^ b) / 2 = a / 2 ^^^ b / 2 := Nat.xor_div_two
      have hy2 : (a &&& b) / 2 = a / 2 &&& b / 2 := Nat.and_div_two
      have hxm : (a ^^^ b) % 2 = (a + b) % 2 := Nat.xor_mod_two_eq
      have hym : (a &&& b) % 2 = 1 ↔ a % 2 = 1 ∧ b % 2 = 1 := Nat.and_mod_two_eq_one
      rw [← hx2, ← hy2] at hrec
      generalize a ^^^ b = x at *
      generalize a &&& b = y at *
      omega

theorem and_eq_left_of_xor_eq_sub {a b : Nat} (hab : a ≤ b) (h : a ^^^ b = b - a) :
    a &&& b = a := by
  have := xor_add_two_mul_and a b
  omega

theorem count_bits_eq_sum (x : Nat) :
    count_bits x = ∑ i ∈ Finset.range 64, (if x.testBit i = true then 1 else 0) := by
  unfold count_bits bits
  rw [Finset.card_filter]

/-- When `a` is a sub-blade of `b`, the blade `a XOR b` has grade `grade b - grade a`. -/
theorem count_bits_xor_of_subset {a b : Nat} (h : a &&& b = a) :
    count_bits (a ^^^ b) + count_bits a = count_bits b := by
  rw [count_bits_eq_sum, count_bits_eq_sum, count_bits_eq_sum, ← Finset.sum_add_distrib]
  refine Finset.sum_congr rfl (fun i _ => ?_)
  have hi : (a.testBit i && b.testBit i) = a.testBit i := by
    rw [← Nat.testBit_and, h]
  rw [Nat.testBit_xor]
  cases ha : a.testBit i <;> cases hb : b.testBit i <;> simp_all

theorem static_cast_int_of_lt {x : Nat} (h : x < 2 ^ 31) : static_cast_int x = (x : Int) := by
  unfold static_cast_int
  rw [Int.bmod_def]
  have h1 : ((x : Int)) % ((2 ^ 32 : Nat) : Int) = x := by
    apply Int.emod_eq_of_lt (Int.ofNat_nonneg x)
    have : x < 2 ^ 32 := lt_trans h (by norm_num)
    exact_mod_cast this
  rw [h1, if_pos]
  have : (x : Int) < 2 ^ 31 := by exact_mod_cast h
  have h2 : (((2 ^ 32 : Nat) : Int) + 1) / 2 = 2 ^ 31 := by norm_num
  rw [h2]
  exact this

theorem to_size_t_sub_of_le {a b : Nat} (hab : a ≤ b) (hb : b < 2 ^ 31) :
    to_size_t ((b : Int) - (a : Int)) = b - a := by
  unfold to_size_t
  have h1 : ((b : Int) - (a : Int)) = ((b - a : Nat) : Int) := by
    rw [Nat.cast_sub hab]
  have h2 : b - a < 2 ^ 64 := lt_of_le_of_lt (Nat.sub_le b a) (lt_trans hb (by norm_num))
  rw [h1, Int.emod_eq_of_lt (Int.ofNat_nonneg _) (by exact_mod_cast h2)]
  exact Int.toNat_ofNat _

theorem to_size_t_sub_of_lt {a b : Nat} (hab : b < a) (ha : a < 2 ^ 31) :
    2 ^ 31 ≤ to_size_t ((b : Int) - (a : Int)) := by
  unfold to_size_t
  have h1 : ((b : Int) - (a : Int)) = ((2 ^ 64 - (a - b) : Nat) : Int) + (-1) * 2 ^ 64 := by
    have h3 : a - b ≤ 2 ^ 64 := by omega
    rw [Nat.cast_sub h3, Nat.cast_sub (Nat.le_of_lt hab)]
    push_cast
    ring
  have h2 : 2 ^ 64 - (a - b) < 2 ^ 64 := by omega
  rw [h1, Int.add_mul_emod_self, Int.emod_eq_of_lt (Int.ofNat_nonneg _) (by exact_mod_cast h2),
    Int.toNat_ofNat]
  omega

theorem int_checked_sub {a b : Nat} (ha : a < 2 ^ 31) (hb : b < 2 ^ 31) :
    int_checked ((b : Int) - (a : Int)) = some ((b : Int) - (a : Int)) := by
  unfold int_checked
  have h1 : (a : Int) < 2 ^ 31 := by exact_mod_cast ha
  have h2 : (b : Int) < 2 ^ 31 := by exact_mod_cast hb
  have h3 : (0 : Int) ≤ a := Int.ofNat_nonneg a
  have h4 : (0 : Int) ≤ b := Int.ofNat_nonneg b
  rw [if_pos ⟨by omega, by omega⟩]

/-- The bitmask test of `inner_product` forces the grade of `E1 XOR E2` to be the absolute
difference of the grades. -/
theorem grade_of_inner_test {E1 E2 : Nat} (h1 : E1 < 2 ^ 31) (h2 : E2 < 2 ^ 31)
    (h : E1 ^^^ E2 = to_size_t (static_cast_int E2 - static_cast_int E1) ∨
      E1 ^^^ E2 = to_size_t (-(static_cast_int E2 - static_cast_int E1))) :
    (grade (E1 ^^^ E2) : Int) = |(grade E2 : Int) - (grade E1 : Int)| := by
  have hx : E1 ^^^ E2 < 2 ^ 31 := Nat.xor_lt_two_pow h1 h2
  rw [static_cast_int_of_lt h1, static_cast_int_of_lt h2, neg_sub] at h
  unfold grade
  rcases h with h | h
  · rcases Nat.lt_or_ge E2 E1 with hlt | hge
    · have := to_size_t_sub_of_lt hlt h1
      omega
    · rw [to_size_t_sub_of_le hge h2] at h
      have hc := count_bits_xor_of_subset (and_eq_left_of_xor_eq_sub hge h)
      rw [abs_of_nonneg (by omega)]
      omega
  · rcases Nat.lt_or_ge E1 E2 with hlt | hge
    · have := to_size_t_sub_of_lt hlt h2
      omega
    · rw [to_size_t_sub_of_le hge h1, Nat.xor_comm] at h
      have hc := count_bits_xor_of_subset (and_eq_left_of_xor_eq_sub hge h)
      rw [Nat.xor_comm] at hc
      rw [abs_of_nonpos (by omega)]
      omega

/-! ## The complement-parity loop -/

theorem parity_loop_done (fuel : Nat) (swaps grade : Int) :
    poincare_complement_parity_loop fuel 0 swaps grade = some swaps := by
  cases fuel <;> rfl

theorem parity_loop_even (fuel : Nat) (swaps grade : Int) {e : Nat} (h0 : 0 < e)
    (he : e % 2 = 0) :
    poincare_complement_parity_loop (fuel + 1) e swaps grade
      = poincare_complement_parity_loop fuel (e >>> 1) (swaps + grade) grade := by
  show (if e > 0 then _ else _) = _
  rw [if_pos h0, if_pos (by rw [Nat.and_one_is_mod]; exact he)]

theorem parity_loop_odd (fuel : Nat) (swaps grade : Int) {e : Nat} (h0 : 0 < e)
    (he : e % 2 = 1) :
    poincare_complement_parity_loop (fuel + 1) e swaps grade
      = poincare_complement_parity_loop fuel (e >>> 1) swaps (grade - 1) := by
  show (if e > 0 then _ else _) = _
  rw [if_pos h0, if_neg (by rw [Nat.and_one_is_mod, he]; norm_num)]

theorem shiftRight_mod_two (E t : Nat) :
    (E >>> t) % 2 = if E.testBit t = true then 1 else 0 := by
  rw [Nat.testBit_to_div_mod, Nat.shiftRight_eq_div_pow]
  rcases Nat.mod_two_eq_zero_or_one (E / 2 ^ t) with h | h <;> simp [h]

theorem remaining_grade_succ_of_absent {E t : Nat} (h : E.testBit t = false) :
    remaining_grade E (t + 1) = remaining_grade E t := by
  unfold remaining_grade
  congr 1
  ext k
  simp only [Finset.mem_filter, mem_bits]
  constructor
  · rintro ⟨hk, hle⟩
    exact ⟨hk, by omega⟩
  · rintro ⟨hk, hle⟩
    refine ⟨hk, ?_⟩
    rcases Nat.eq_or_lt_of_le hle with heq | hlt
    · rw [← heq, h] at hk
      exact absurd hk.2 Bool.false_ne_true
    · exact hlt

theorem remaining_grade_succ_of_present {E t : Nat} (ht : t < 64) (h : E.testBit t = true) :
    remaining_grade E t = remaining_grade E (t + 1) + 1 := by
  unfold remaining_grade
  have hins : (bits E).filter (fun k => t ≤ k)
      = insert t ((bits E).filter (fun k => t + 1 ≤ k)) := by
    ext k
    simp only [Finset.mem_filter, Finset.mem_insert, mem_bits]
    constructor
    · rintro ⟨hk, hle⟩
      rcases Nat.eq_or_lt_of_le hle with heq | hlt
      · exact Or.inl heq.symm
      · exact Or.inr ⟨hk, hlt⟩
    · rintro (heq | ⟨hk, hle⟩)
      · subst heq
        exact ⟨⟨ht, h⟩, le_refl _⟩
      · exact ⟨hk, by omega⟩
  rw [hins, Finset.card_insert_of_not_mem]
  simp

theorem remaining_grade_above (E t : Nat) :
    ((bits E).filter (fun k => t < k)).card = remaining_grade E (t + 1) := rfl

theorem remaining_swaps_succ (E : Nat) {t : Nat} (ht : t < 64) :
    remaining_swaps E t
      = (if E.testBit t = false then remaining_grade E (t + 1) else 0)
        + remaining_swaps E (t + 1) := by
  unfold remaining_swaps
  have hpt : ∀ j ∈ Finset.range 64,
      (if t ≤ j ∧ E.testBit j = false then ((bits E).filter (fun k => j < k)).card else 0)
        = (if j = t then (if E.testBit t = false then remaining_grade E (t + 1) else 0) else 0)
          + (if t + 1 ≤ j ∧ E.testBit j = false then ((bits E).filter (fun k => j < k)).card
              else 0) := by
    intro j _
    by_cases hjt : j = t
    · subst hjt
      rw [if_pos rfl, remaining_grade_above]
      have h1 : ¬ (j + 1 ≤ j ∧ E.testBit j = false) := fun hc => by omega
      rw [if_neg h1]
      by_cases hb : E.testBit j = false
      · rw [if_pos ⟨le_refl _, hb⟩, if_pos hb]
        rfl
      · rw [if_neg (fun hc => hb hc.2), if_neg hb]
    · rw [if_neg hjt, Nat.zero_add]
      by_cases hc : t ≤ j ∧ E.testBit j = false
      · rw [if_pos hc, if_pos ⟨by omega, hc.2⟩]
      · rw [if_neg hc, if_neg (fun hd => hc ⟨by omega, hd.2⟩)]
  rw [Finset.sum_congr rfl hpt, Finset.sum_add_distrib, Finset.sum_ite_eq',
    if_pos (Finset.mem_range.mpr ht)]

theorem remaining_swaps_of_shift_zero {E t : Nat} (h : E >>> t = 0) :
    remaining_swaps E t = 0 := by
  unfold remaining_swaps
  apply Finset.sum_eq_zero
  intro j _
  by_cases hc : t ≤ j ∧ E.testBit j = false
  · rw [if_pos hc, Finset.card_eq_zero, Finset.filter_eq_empty_iff]
    intro k hk hjk
    have hbit : (E >>> t).testBit (k - t) = true := by
      rw [Nat.testBit_shiftRight, Nat.add_sub_cancel' (by omega)]
      exact (mem_bits.mp hk).2
    rw [h, Nat.zero_testBit] at hbit
    exact Bool.false_ne_true hbit
  · rw [if_neg hc]

theorem parity_loop_eq (E : Nat) (hE : E < 2 ^ 64) : ∀ (fuel t : Nat) (swaps : Int),
    t + fuel = 64 →
    poincare_complement_parity_loop fuel (E >>> t) swaps (remaining_grade E t)
      = some (swaps + remaining_swaps E t) := by
  intro fuel
  induction fuel with
  | zero =>
    intro t swaps ht
    have h64 : t = 64 := by omega
    have hz : E >>> t = 0 := by
      rw [h64, Nat.shiftRight_eq_div_pow]
      exact Nat.div_eq_of_lt hE
    rw [hz, parity_loop_done, remaining_swaps_of_shift_zero hz]
    simp
  | succ fuel ih =>
    intro t swaps ht
    have ht64 : t < 64 := by omega
    by_cases h0 : 0 < E >>> t
    · have hnext : (E >>> t) >>> 1 = E >>> (t + 1) := (Nat.shiftRight_add E t 1).symm
      cases hb : E.testBit t with
      | false =>
        rw [parity_loop_even fuel _ _ h0 (by rw [shiftRight_mod_two, hb]; rfl), hnext,
          ← remaining_grade_succ_of_absent hb, ih (t + 1) _ (by omega),
          remaining_swaps_succ E ht64, if_pos hb]
        congr 1
        push_cast
        ring
      | true =>
        have hg : ((remaining_grade E t : Nat) : Int) - 1 = (remaining_grade E (t + 1) : Nat) := by
          rw [remaining_grade_succ_of_present ht64 hb]
          push_cast
          ring
        rw [parity_loop_odd fuel _ _ h0 (by rw [shiftRight_mod_two, hb]; rfl), hnext, hg,
          ih (t + 1) _ (by omega), remaining_swaps_succ E ht64,
          if_neg (by rw [hb]; exact Bool.noConfusion)]
        simp
    · have hz : E >>> t = 0 := Nat.eq_zero_of_not_pos h0
      rw [hz, parity_loop_done, remaining_swaps_of_shift_zero hz]
      simp

theorem remaining_grade_zero (E : Nat) : remaining_grade E 0 = count_bits E := by
  unfold remaining_grade count_bits
  rw [Finset.filter_true_of_mem (fun _ _ => Nat.zero_le _)]

theorem testBit_complement (Dim E j : Nat) :
    ((2 ^ Dim - 1) ^^^ E).testBit j = (decide (j < Dim) ^^ E.testBit j) := by
  rw [Nat.testBit_xor, Nat.testBit_two_pow_sub_one]

/-- The swaps counted by `poincare_complement_parity` are the pairs (vector of `E`, lower
vector of the complement). -/
theorem remaining_swaps_zero_eq_inversions {Dim E : Nat} (hE : E < 2 ^ Dim) :
    remaining_swaps E 0 = inversions E ((2 ^ Dim - 1) ^^^ E) := by
  have hl : remaining_swaps E 0 = ∑ j ∈ Finset.range 64, ∑ k ∈ bits E,
      (if E.testBit j = false ∧ j < k then 1 else 0) := by
    unfold remaining_swaps
    refine Finset.sum_congr rfl (fun j _ => ?_)
    by_cases hb : E.testBit j = false
    · rw [if_pos ⟨Nat.zero_le _, hb⟩, Finset.card_filter]
      refine Finset.sum_congr rfl (fun k _ => ?_)
      simp [hb]
    · rw [if_neg (fun hc => hb hc.2)]
      symm
      apply Finset.sum_eq_zero
      intro k _
      rw [if_neg (fun hc => hb hc.1)]
  have hr : inversions E ((2 ^ Dim - 1) ^^^ E) = ∑ k ∈ bits E, ∑ j ∈ Finset.range 64,
      (if E.testBit j = false ∧ j < k then 1 else 0) := by
    rw [inversions_eq_sum]
    refine Finset.sum_congr rfl (fun k hk => ?_)
    have hkD : k < Dim := testBit_lt_of_lt hE (mem_bits.mp hk).2
    unfold bits
    rw [Finset.filter_filter, Finset.card_filter]
    refine Finset.sum_congr rfl (fun j _ => ?_)
    by_cases hjk : j < k
    · have hjD : j < Dim := lt_trans hjk hkD
      rw [testBit_complement]
      cases hb : E.testBit j <;> simp [hjk, hjD]
    · simp [hjk]
  rw [hl, hr, Finset.sum_comm]

theorem int_land_one (n : Nat) : Int.land (n : Int) 1 = ((n % 2 : Nat) : Int) := by
  show (((n &&& 1 : Nat)) : Int) = _
  rw [Nat.and_one_is_mod]

theorem poincare_complement_parity_eq {Dim E : Nat} (hE : E < 2 ^ Dim) (h64 : E < 2 ^ 64) :
    poincare_complement_parity Dim E = some ((-1) ^ inversions E ((2 ^ Dim - 1) ^^^ E)) := by
  unfold poincare_complement_parity
  have hloop := parity_loop_eq E h64 64 0 0 rfl
  rw [Nat.shiftRight_zero, remaining_grade_zero, remaining_swaps_zero_eq_inversions hE,
    Int.zero_add] at hloop
  rw [hloop]
  simp only [int_land_one]
  rw [← sign_eq_neg_one_pow]
  rcases Nat.mod_two_eq_zero_or_one (inversions E ((2 ^ Dim - 1) ^^^ E)) with h | h
  · rw [h]
    simp
  · rw [h]
    simp

theorem or_complement {Dim E : Nat} (hE : E < 2 ^ Dim) :
    E ||| ((2 ^ Dim - 1) ^^^ E) = 2 ^ Dim - 1 := by
  apply Nat.eq_of_testBit_eq
  intro j
  rw [Nat.testBit_or, testBit_complement, Nat.testBit_two_pow_sub_one]
  cases hb : E.testBit j
  · simp
  · simp [testBit_lt_of_lt hE hb]

theorem and_complement {Dim E : Nat} (hE : E < 2 ^ Dim) :
    E &&& ((2 ^ Dim - 1) ^^^ E) = 0 := by
  apply Nat.eq_of_testBit_eq
  intro j
  rw [Nat.testBit_and, testBit_complement, Nat.zero_testBit]
  cases hb : E.testBit j
  · simp
  · simp [testBit_lt_of_lt hE hb]

/-! ## Geometric product -/

/-- C1. Under a diagonal metric with signature `sig`, for blade bitmasks `E1` (with vector
indices in the range of the source's `int` shifts) and `E2`: `geometric_product` returns
`(0, 0)` when `E1` and `E2` share a basis vector whose square is `0`, and otherwise returns
`(E1 XOR E2, (-1)^(N+V))` with `N` the number of pairs `(i in E1, j in E2)`, `j < i`, and
`V` the number of shared basis vectors whose square is `-1`. -/
theorem geometric_product_spec (M : Metric) (sig : Nat → Int) (hM : M.Diagonal sig)
    (E1 E2 : Nat) (h1 : E1 < 2 ^ 31) :
    ((∃ i, E1.testBit i = true ∧ E2.testBit i = true ∧ sig i = 0) →
      geometric_product M E1 E2 = some (0, 0)) ∧
    ((¬ ∃ i, E1.testBit i = true ∧ E2.testBit i = true ∧ sig i = 0) →
      geometric_product M E1 E2
        = some (E1 ^^^ E2, (-1) ^ (inversions E1 E2 + shared_negative sig E1 E2))) := by
  have h64 : E1 < 2 ^ 64 := lt_trans h1 (by norm_num)
  have hiff : (∃ i ∈ bits E1, E2.testBit i = true ∧ sig i = 0) ↔
      ∃ i, E1.testBit i = true ∧ E2.testBit i = true ∧ sig i = 0 :=
    ⟨fun ⟨i, hi, h⟩ => ⟨i, (mem_bits_of_lt h64).mp hi, h⟩,
      fun ⟨i, hi, h⟩ => ⟨i, (mem_bits_of_lt h64).mpr hi, h⟩⟩
  rw [geometric_product_eq hM E1 E2 h1]
  constructor
  · intro h
    rw [if_pos (hiff.mpr h)]
  · intro h
    rw [if_neg (fun hc => h (hiff.mp hc))]

/-- Witness for C1: the Euclidean product `e01 * e12 = e02`, and the hypotheses hold. -/
theorem geometric_product_spec_witness :
    (diagonal_metric 3 (fun _ => 1)).Diagonal (fun _ => 1) ∧ (3 : Nat) < 2 ^ 31 ∧
    ((∃ i, Nat.testBit 3 i = true ∧ Nat.testBit 6 i = true ∧ (fun _ => (1 : Int)) i = 0) →
      geometric_product (diagonal_metric 3 (fun _ => 1)) 3 6 = some (0, 0)) ∧
    ((¬ ∃ i, Nat.testBit 3 i = true ∧ Nat.testBit 6 i = true ∧ (fun _ => (1 : Int)) i = 0) →
      geometric_product (diagonal_metric 3 (fun _ => 1)) 3 6
        = some (3 ^^^ 6, (-1) ^ (inversions 3 6 + shared_negative (fun _ => 1) 3 6))) :=
  ⟨diagonal_metric_diagonal 3 _, by norm_num,
    geometric_product_spec (diagonal_metric 3 (fun _ => 1)) (fun _ => 1)
      (diagonal_metric_diagonal 3 _) 3 6 (by norm_num)⟩

/-- C2. Under a diagonal metric, the geometric product of a basis vector with itself is
the scalar whose value is the metric's signature value for that vector: `(0, +1)` when the
square is `+1`, `(0, -1)` when it is `-1`, and the zero result `(0, 0)` when it is `0`. -/
theorem geometric_product_basis_vector_self (M : Metric) (sig : Nat → Int)
    (hM : M.Diagonal sig) (i : Nat) (hi : i < 31)
    (hs : sig i = 1 ∨ sig i = -1 ∨ sig i = 0) :
    geometric_product M (1 <<< i) (1 <<< i) = some (0, sig i) := by
  have hi64 : i < 64 := lt_trans hi (by norm_num)
  have hp : (2 : Nat) ^ i < 2 ^ 31 := Nat.pow_lt_pow_right (by norm_num) hi
  have hex : (∃ j ∈ bits (2 ^ i), (2 ^ i).testBit j = true ∧ sig j = 0) ↔ sig i = 0 := by
    rw [bits_two_pow hi64]
    simp
  have hsn : shared_negative sig (2 ^ i) (2 ^ i) = if sig i = -1 then 1 else 0 := by
    rw [shared_negative_eq_sum, bits_two_pow hi64, Finset.sum_singleton]
    simp
  rw [Nat.shiftLeft_eq, Nat.one_mul, geometric_product_eq hM _ _ hp, Nat.xor_self,
    inversions_two_pow hi64 hi64, hsn]
  rcases hs with h | h | h
  · rw [if_neg (by rw [hex, h]; norm_num), h]
    simp
  · rw [if_neg (by rw [hex, h]; norm_num), h]
    simp
  · rw [if_pos (hex.mpr h), h]

/-- Witness for C2: in the signature `(0, +1, -1)` the vector `e2` squares to `-1`. -/
theorem geometric_product_basis_vector_self_witness :
    (diagonal_metric 3 (fun i => if i = 0 then 0 else if i = 1 then 1 else -1)).Diagonal
      (fun i => if i = 0 then 0 else if i = 1 then 1 else -1) ∧ (2 : Nat) < 31 ∧
    geometric_product (diagonal_metric 3 (fun i => if i = 0 then 0 else if i = 1 then 1 else -1))
      (1 <<< 2) (1 <<< 2) = some (0, -1) :=
  ⟨diagonal_metric_diagonal 3 _, by norm_num,
    geometric_product_basis_vector_self _ _ (diagonal_metric_diagonal 3 _) 2 (by norm_num)
      (Or.inr (Or.inl rfl))⟩

/-! ## Exterior product -/

/-- C3. `exterior_product` returns the zero result `(0, 0)` exactly when `E1 AND E2` is
non-zero, and otherwise returns `(E1 OR E2, (-1)^N)`, with `N` the number of pairs
`(i in E1, j in E2)`, `j < i`. -/
theorem exterior_product_spec (E1 E2 : Nat) (h1 : E1 < 2 ^ 31) :
    (E1 &&& E2 ≠ 0 → exterior_product E1 E2 = some (0, 0)) ∧
    (E1 &&& E2 = 0 → exterior_product E1 E2 = some (E1 ||| E2, (-1) ^ inversions E1 E2)) ∧
    (exterior_product E1 E2 = some (0, 0) ↔ E1 &&& E2 ≠ 0) := by
  rw [exterior_product_eq E1 E2 h1]
  refine ⟨fun h => by rw [if_pos h], fun h => by rw [if_neg (by simp [h])], ?_⟩
  by_cases h : E1 &&& E2 ≠ 0
  · rw [if_pos h]
    exact ⟨fun _ => h, fun _ => rfl⟩
  · rw [if_neg h]
    constructor
    · intro hc
      have h2 := congrArg Prod.snd (Option.some.inj hc)
      exact absurd h2 (neg_one_pow_ne_zero _)
    · intro hc
      exact absurd hc h

/-- Witness for C3: `e1 ^ e0 = -e01`. -/
theorem exterior_product_spec_witness :
    (2 : Nat) < 2 ^ 31 ∧
    (2 &&& 1 ≠ 0 → exterior_product 2 1 = some (0, 0)) ∧
    (2 &&& 1 = 0 → exterior_product 2 1 = some (2 ||| 1, (-1) ^ inversions 2 1)) ∧
    (exterior_product 2 1 = some (0, 0) ↔ 2 &&& 1 ≠ 0) :=
  ⟨by norm_num, exterior_product_spec 2 1 (by norm_num)⟩

/-- C4. The exterior product is anti-symmetric on basis vectors: for distinct indices `i`
and `j` the products `e_i ^ e_j` and `e_j ^ e_i` have the same basis element and opposite
signs, and `e_i ^ e_i` is the zero result. -/
theorem exterior_product_antisymmetric (i j : Nat) (hi : i < 31) (hj : j < 31) :
    (i ≠ j → ∃ s : Int, (s = 1 ∨ s = -1) ∧
      exterior_product (1 <<< i) (1 <<< j) = some ((1 <<< i) ||| (1 <<< j), s) ∧
      exterior_product (1 <<< j) (1 <<< i) = some ((1 <<< i) ||| (1 <<< j), -s)) ∧
    exterior_product (1 <<< i) (1 <<< i) = some (0, 0) := by
  have hi64 : i < 64 := lt_trans hi (by norm_num)
  have hj64 : j < 64 := lt_trans hj (by norm_num)
  have hpi : (2 : Nat) ^ i < 2 ^ 31 := Nat.pow_lt_pow_right (by norm_num) hi
  have hpj : (2 : Nat) ^ j < 2 ^ 31 := Nat.pow_lt_pow_right (by norm_num) hj
  simp only [Nat.shiftLeft_eq, Nat.one_mul]
  constructor
  · intro hij
    have hdis : (2 : Nat) ^ i &&& 2 ^ j = 0 := by
      apply Nat.eq_of_testBit_eq
      intro k
      rw [Nat.testBit_and, Nat.testBit_two_pow, Nat.testBit_two_pow, Nat.zero_testBit]
      by_cases hik : i = k
      · have : ¬ j = k := fun h => hij (hik.trans h.symm)
        simp [this]
      · simp [hik]
    have hdis' : (2 : Nat) ^ j &&& 2 ^ i = 0 := by rw [Nat.and_comm]; exact hdis
    rw [exterior_product_eq _ _ hpi, exterior_product_eq _ _ hpj, if_neg (by simp [hdis]),
      if_neg (by simp [hdis']), inversions_two_pow hi64 hj64, inversions_two_pow hj64 hi64,
      Nat.lor_comm (2 ^ j) (2 ^ i)]
    rcases Nat.lt_or_gt_of_ne hij with h | h
    · refine ⟨1, Or.inl rfl, ?_, ?_⟩
      · rw [if_neg (Nat.lt_asymm h)]; rfl
      · rw [if_pos h]; rfl
    · refine ⟨-1, Or.inr rfl, ?_, ?_⟩
      · rw [if_pos h]; rfl
      · rw [if_neg (Nat.lt_asymm h)]; rfl
  · rw [exterior_product_eq _ _ hpi, if_pos]
    rw [Nat.and_self]
    exact (Nat.two_pow_pos i).ne'

/-- Witness for C4 at the basis vectors `e0` and `e2`. -/
theorem exterior_product_antisymmetric_witness :
    (0 : Nat) < 31 ∧ (2 : Nat) < 31 ∧
    ((0 ≠ 2 → ∃ s : Int, (s = 1 ∨ s = -1) ∧
      exterior_product (1 <<< 0) (1 <<< 2) = some ((1 <<< 0) ||| (1 <<< 2), s) ∧
      exterior_product (1 <<< 2) (1 <<< 0) = some ((1 <<< 0) ||| (1 <<< 2), -s)) ∧
    exterior_product (1 <<< 0) (1 <<< 0) = some (0, 0)) :=
  ⟨by norm_num, by norm_num, exterior_product_antisymmetric 0 2 (by norm_num) (by norm_num)⟩

/-! ## Contraction -/

/-- C5. Under a diagonal metric, `contract_product` (the `>>` rule) is non-zero if and
only if every basis vector of `E1` is present in `E2` and has a non-zero square; when it is
non-zero the blade is `E2 AND NOT E1` and the sign is `(-1)^(N+V)`, with `N` the number of
pairs `(i in E1, j in E2)`, `j < i`, and `V` the number of vectors of `E1` whose square is
`-1`. -/
theorem contract_product_spec (M : Metric) (sig : Nat → Int) (hM : M.Diagonal sig)
    (E1 E2 : Nat) (h1 : E1 < 2 ^ 31) (h2 : E2 < 2 ^ 64) :
    ((∃ r, contract_product M E1 E2 = some r ∧ r.2 ≠ 0) ↔
      ∀ i, E1.testBit i = true → E2.testBit i = true ∧ sig i ≠ 0) ∧
    ((∀ i, E1.testBit i = true → E2.testBit i = true ∧ sig i ≠ 0) →
      contract_product M E1 E2
        = some (and_not E2 E1, (-1) ^ (inversions E1 E2 + negative_count sig E1))) ∧
    ((¬ ∀ i, E1.testBit i = true → E2.testBit i = true ∧ sig i ≠ 0) →
      contract_product M E1 E2 = some (0, 0)) := by
  have h64 : E1 < 2 ^ 64 := lt_trans h1 (by norm_num)
  have hiff : (∀ i ∈ bits E1, E2.testBit i = true ∧ sig i ≠ 0) ↔
      ∀ i, E1.testBit i = true → E2.testBit i = true ∧ sig i ≠ 0 :=
    ⟨fun h i hi => h i ((mem_bits_of_lt h64).mpr hi),
      fun h i hi => h i ((mem_bits_of_lt h64).mp hi)⟩
  rw [contract_product_eq hM E1 E2 h1 h2]
  refine ⟨?_, fun h => by rw [if_pos (hiff.mpr h)],
    fun h => by rw [if_neg (fun hc => h (hiff.mp hc))]⟩
  by_cases h : ∀ i ∈ bits E1, E2.testBit i = true ∧ sig i ≠ 0
  · rw [if_pos h]
    exact ⟨fun _ => hiff.mp h, fun _ => ⟨_, rfl, neg_one_pow_ne_zero _⟩⟩
  · rw [if_neg h]
    constructor
    · rintro ⟨r, hr, hr2⟩
      rw [← Option.some.inj hr] at hr2
      exact absurd rfl hr2
    · intro hc
      exact absurd (hiff.mpr hc) h

/-- Witness for C5: contracting `e1` onto `e01` in the Euclidean metric. -/
theorem contract_product_spec_witness :
    (diagonal_metric 3 (fun _ => 1)).Diagonal (fun _ => 1) ∧ (2 : Nat) < 2 ^ 31 ∧
    (3 : Nat) < 2 ^ 64 ∧
    (((∃ r, contract_product (diagonal_metric 3 (fun _ => 1)) 2 3 = some r ∧ r.2 ≠ 0) ↔
      ∀ i, Nat.testBit 2 i = true → Nat.testBit 3 i = true ∧ (fun _ => (1 : Int)) i ≠ 0) ∧
    ((∀ i, Nat.testBit 2 i = true → Nat.testBit 3 i = true ∧ (fun _ => (1 : Int)) i ≠ 0) →
      contract_product (diagonal_metric 3 (fun _ => 1)) 2 3
        = some (and_not 3 2, (-1) ^ (inversions 2 3 + negative_count (fun _ => 1) 2))) ∧
    ((¬ ∀ i, Nat.testBit 2 i = true → Nat.testBit 3 i = true ∧ (fun _ => (1 : Int)) i ≠ 0) →
      contract_product (diagonal_metric 3 (fun _ => 1)) 2 3 = some (0, 0))) :=
  ⟨diagonal_metric_diagonal 3 _, by norm_num, by norm_num,
    contract_product_spec (diagonal_metric 3 (fun _ => 1)) (fun _ => 1)
      (diagonal_metric_diagonal 3 _) 2 3 (by norm_num) (by norm_num)⟩

/-- C6. Contraction zero-result rule: for every metric and all blades `a`, `b` with
`grade(b) < grade(a)`, `contract_product<a, b>()` is the zero result `(0, 0)`, so the
term-level `contract::product` returns the empty multivector. -/
theorem contract_product_zero_of_grade_lt (M : Metric) (a b : Nat)
    (h : grade b < grade a) :
    contract_product M a b = some (0, 0) ∧
    ∀ lhs rhs : term, lhs.element = a → rhs.element = b →
      contract.product M lhs rhs = some [] := by
  have hcp : contract_product M a b = some (0, 0) := by
    unfold contract_product
    have ha : a ≠ 0 := by
      intro h0
      subst h0
      simp [grade, count_bits, bits_zero] at h
    rw [if_neg ha, if_pos (show count_bits a > count_bits b from h)]
  refine ⟨hcp, fun lhs rhs hl hr => ?_⟩
  unfold contract.product
  rw [hl, hr, hcp]
  rfl

/-- Witness for C6: a bivector contracted onto a vector. -/
theorem contract_product_zero_of_grade_lt_witness :
    grade 1 < grade 3 ∧
    contract_product (diagonal_metric 3 (fun _ => 1)) 3 1 = some (0, 0) ∧
    ∀ lhs rhs : term, lhs.element = 3 → rhs.element = 1 →
      contract.product (diagonal_metric 3 (fun _ => 1)) lhs rhs = some [] :=
  ⟨by decide, contract_product_zero_of_grade_lt (diagonal_metric 3 (fun _ => 1)) 3 1
    (by decide)⟩

/-! ## Inner product -/

/-- C7, as the code has it. Under a diagonal metric and for blade bitmasks below `2^31`,
`inner_product` always returns a pair; the pair is non-zero only when both blades are
non-scalar and the grade of the resulting basis element equals the absolute difference
`|grade(E2) - grade(E1)|`, in which case it is the geometric product; every other pair is
discarded as `(0, 0)`. -/
theorem inner_product_grade (M : Metric) (sig : Nat → Int) (hM : M.Diagonal sig)
    (E1 E2 : Nat) (h1 : E1 < 2 ^ 31) (h2 : E2 < 2 ^ 31) :
    ∃ r, inner_product M E1 E2 = some r ∧
      (r.2 = 0 → r = (0, 0)) ∧
      (r.2 ≠ 0 → E1 ≠ 0 ∧ E2 ≠ 0 ∧ geometric_product M E1 E2 = some r ∧
        (grade r.1 : Int) = |(grade E2 : Int) - (grade E1 : Int)|) := by
  unfold inner_product
  by_cases hz : E1 = 0 ∨ E2 = 0
  · rw [if_pos hz]
    exact ⟨(0, 0), rfl, fun _ => rfl, fun h => absurd rfl h⟩
  · rw [if_neg hz]
    have hz1 : E1 ≠ 0 := fun h => hz (Or.inl h)
    have hz2 : E2 ≠ 0 := fun h => hz (Or.inr h)
    have hgp := geometric_product_eq hM E1 E2 h1
    by_cases hex : ∃ i ∈ bits E1, E2.testBit i = true ∧ sig i = 0
    · rw [if_pos hex] at hgp
      rw [hgp, static_cast_int_of_lt h1, static_cast_int_of_lt h2, int_checked_sub h1 h2]
      simp only
      by_cases hA : (0 : Nat) = to_size_t ((E2 : Int) - (E1 : Int))
      · rw [if_pos hA, if_neg (fun h => h rfl)]
        exact ⟨(0, 0), rfl, fun _ => rfl, fun h => absurd rfl h⟩
      · rw [if_neg hA, neg_sub, int_checked_sub h2 h1]
        simp only
        rw [if_neg (fun hc => hc.2 rfl)]
        exact ⟨(0, 0), rfl, fun _ => rfl, fun h => absurd rfl h⟩
    · rw [if_neg hex] at hgp
      rw [hgp, static_cast_int_of_lt h1, static_cast_int_of_lt h2, int_checked_sub h1 h2]
      simp only
      by_cases hA : E1 ^^^ E2 = to_size_t ((E2 : Int) - (E1 : Int))
      · rw [if_pos hA, if_pos (neg_one_pow_ne_zero _)]
        refine ⟨_, rfl, fun h => absurd h (neg_one_pow_ne_zero _), fun _ =>
          ⟨hz1, hz2, rfl, grade_of_inner_test h1 h2 (Or.inl ?_)⟩⟩
        rw [static_cast_int_of_lt h1, static_cast_int_of_lt h2]
        exact hA
      · rw [if_neg hA, neg_sub, int_checked_sub h2 h1]
        simp only
        by_cases hB : E1 ^^^ E2 = to_size_t ((E1 : Int) - (E2 : Int))
        · rw [if_pos ⟨hB, neg_one_pow_ne_zero _⟩]
          refine ⟨_, rfl, fun h => absurd h (neg_one_pow_ne_zero _), fun _ =>
            ⟨hz1, hz2, rfl, grade_of_inner_test h1 h2 (Or.inr ?_)⟩⟩
          rw [static_cast_int_of_lt h1, static_cast_int_of_lt h2, neg_sub]
          exact hB
        · rw [if_neg (fun hc => hB hc.1)]
          exact ⟨(0, 0), rfl, fun _ => rfl, fun h => absurd rfl h⟩

/-- Witness for C7 (amended): the Euclidean inner product of `e01` with `e0`. -/
theorem inner_product_grade_witness :
    (diagonal_metric 3 (fun _ => 1)).Diagonal (fun _ => 1) ∧ (3 : Nat) < 2 ^ 31 ∧
    (1 : Nat) < 2 ^ 31 ∧
    ∃ r, inner_product (diagonal_metric 3 (fun _ => 1)) 3 1 = some r ∧
      (r.2 = 0 → r = (0, 0)) ∧
      (r.2 ≠ 0 → (3 : Nat) ≠ 0 ∧ (1 : Nat) ≠ 0 ∧
        geometric_product (diagonal_metric 3 (fun _ => 1)) 3 1 = some r ∧
        (grade r.1 : Int) = |(grade 1 : Int) - (grade 3 : Int)|) :=
  ⟨diagonal_metric_diagonal 3 _, by norm_num, by norm_num,
    inner_product_grade (diagonal_metric 3 (fun _ => 1)) (fun _ => 1)
      (diagonal_metric_diagonal 3 _) 3 1 (by norm_num) (by norm_num)⟩

/-- C7, as stated, fails: in the Euclidean metric `inner_product<0b11, 0b1>()` is the
non-zero pair `(0b10, -1)` although `grade(0b1) < grade(0b11)`, and the grade of the result
is not `grade(E2) - grade(E1)`. -/
theorem inner_product_grade_counterexample :
    inner_product (diagonal_metric 3 (fun _ => 1)) 0b11 0b1 = some (0b10, -1) ∧
    grade 0b1 < grade 0b11 ∧
    (grade 0b10 : Int) ≠ (grade 0b1 : Int) - (grade 0b11 : Int) := by
  decide

/-! ## Reversion -/

theorem term_scale_one (t : term) : term.scale 1 t = t := by
  cases t with
  | mk e ms =>
    unfold term.scale
    congr 1
    have : (fun m : monomial => (⟨1 * m.q, m.generators⟩ : monomial)) = id := by
      funext m
      cases m
      simp
    rw [this, List.map_id]

theorem term_scale_neg_one (t : term) : term.scale (-1) t = term.neg t := by
  unfold term.scale term.neg
  congr 1
  apply List.map_congr_left
  intro m _
  simp

theorem term_neg_neg (t : term) : term.neg (term.neg t) = t := by
  cases t with
  | mk e ms =>
    unfold term.neg
    simp only [List.map_map]
    congr 1
    have : ((fun m : monomial => (⟨-m.q, m.generators⟩ : monomial)) ∘
        (fun m : monomial => (⟨-m.q, m.generators⟩ : monomial))) = id := by
      funext m
      cases m
      simp
    rw [this, List.map_id]

theorem term_neg_element (t : term) : (term.neg t).element = t.element := rfl

/-- Parity of the number of flips `g (g - 1) / 2`. -/
theorem flips_mod_two (g : Nat) :
    g * (g - 1) / 2 % 2 = if g % 4 = 2 ∨ g % 4 = 3 then 1 else 0 := by
  obtain ⟨m, hm⟩ : ∃ m, g = 4 * m + g % 4 := ⟨g / 4, (Nat.div_add_mod g 4).symm⟩
  have hr : g % 4 < 4 := Nat.mod_lt _ (by norm_num)
  generalize g % 4 = r at hm hr
  subst hm
  interval_cases r
  · have : 4 * m * (4 * m - 1) = 2 * (2 * (m * (4 * m - 1))) := by ring
    simp only [Nat.add_zero]
    rw [this, Nat.mul_div_cancel_left _ (by norm_num : 0 < 2)]
    simp
  · have : (4 * m + 1) * (4 * m + 1 - 1) = 2 * (2 * (m * (4 * m + 1))) := by
      rw [Nat.add_sub_cancel]; ring
    rw [this, Nat.mul_div_cancel_left _ (by norm_num : 0 < 2)]
    simp
  · have : (4 * m + 2) * (4 * m + 2 - 1) = 2 * (2 * (4 * m * m + 3 * m) + 1) := by
      have h1 : 4 * m + 2 - 1 = 4 * m + 1 := by omega
      rw [h1]; ring
    rw [this, Nat.mul_div_cancel_left _ (by norm_num : 0 < 2)]
    simp [Nat.add_mod]
  · have : (4 * m + 3) * (4 * m + 3 - 1) = 2 * (2 * (4 * m * m + 5 * m + 1) + 1) := by
      have h1 : 4 * m + 3 - 1 = 4 * m + 2 := by omega
      rw [h1]; ring
    rw [this, Nat.mul_div_cancel_left _ (by norm_num : 0 < 2)]
    simp [Nat.add_mod]

theorem reverse_eq (t : term) :
    reverse t = if grade t.element % 4 = 2 ∨ grade t.element % 4 = 3 then term.neg t else t := by
  unfold reverse
  simp only [flips_mod_two]
  by_cases h : grade t.element % 4 = 2 ∨ grade t.element % 4 = 3
  · simp [h]
  · simp [h]

theorem reverse_reverse (t : term) : reverse (reverse t) = t := by
  rw [reverse_eq t]
  by_cases h : grade t.element % 4 = 2 ∨ grade t.element % 4 = 3
  · rw [if_pos h, reverse_eq, term_neg_element, if_pos h, term_neg_neg]
  · rw [if_neg h, reverse_eq, if_neg h]

/-- C8. Reversion of a term multiplies it by `(-1)^(g(g-1)/2)`, `g` the popcount of its
basis element, and leaves the basis element unchanged: the result is `-T` when `g mod 4`
is 2 or 3 and `T` otherwise; in particular `~T = -T` for every grade-2 term and `~T = T`
for every grade-0 or grade-1 term. -/
theorem reverse_spec (t : term) :
    (reverse t).element = t.element ∧
    reverse t = term.scale ((-1) ^ (grade t.element * (grade t.element - 1) / 2)) t ∧
    ((-1 : Rat) ^ (grade t.element * (grade t.element - 1) / 2) = -1 ↔
      (grade t.element % 4 = 2 ∨ grade t.element % 4 = 3)) ∧
    ((grade t.element % 4 = 2 ∨ grade t.element % 4 = 3) → reverse t = term.neg t) ∧
    (¬ (grade t.element % 4 = 2 ∨ grade t.element % 4 = 3) → reverse t = t) ∧
    (grade t.element = 2 → reverse t = term.neg t) ∧
    (grade t.element = 0 ∨ grade t.element = 1 → reverse t = t) := by
  have hpar := flips_mod_two (grade t.element)
  have hpow : ((-1 : Rat)) ^ (grade t.element * (grade t.element - 1) / 2)
      = if grade t.element % 4 = 2 ∨ grade t.element % 4 = 3 then -1 else 1 := by
    by_cases h : grade t.element % 4 = 2 ∨ grade t.element % 4 = 3
    · rw [if_pos h] at hpar
      rw [if_pos h, Odd.neg_one_pow (Nat.odd_iff.mpr hpar)]
    · rw [if_neg h] at hpar
      rw [if_neg h, Even.neg_one_pow (Nat.even_iff.mpr hpar)]
  rw [hpow, reverse_eq]
  refine ⟨?_, ?_, ?_, fun h => by rw [if_pos h], fun h => by rw [if_neg h],
    fun h => by rw [if_pos (by rw [h]; exact Or.inl rfl)],
    fun h => by rw [if_neg (by rcases h with h | h <;> rw [h] <;> decide)]⟩
  · by_cases h : grade t.element % 4 = 2 ∨ grade t.element % 4 = 3
    · rw [if_pos h, term_neg_element]
    · rw [if_neg h]
  · by_cases h : grade t.element % 4 = 2 ∨ grade t.element % 4 = 3
    · rw [if_pos h, if_pos h, term_scale_neg_one]
    · rw [if_neg h, if_neg h, term_scale_one]
  · by_cases h : grade t.element % 4 = 2 ∨ grade t.element % 4 = 3
    · rw [if_pos h]
      exact ⟨fun _ => h, fun _ => rfl⟩
    · rw [if_neg h]
      exact ⟨fun hc => absurd hc (by norm_num), fun hc => absurd hc h⟩

/-- C9. Reversion is an involution: `reverse(reverse(M)) = M` for every multivector `M`,
term by term. -/
theorem reverse_multivector_involutive (m : multivector) :
    reverse_multivector (reverse_multivector m) = m := by
  unfold reverse_multivector
  rw [List.map_map]
  have : reverse ∘ reverse = id := funext reverse_reverse
  rw [this, List.map_id]

/-! ## Poincaré complement -/

/-- C10. For every dimension `Dim` (within the range of the `int` shift `1 << Dim`) and
blade `E < 2^Dim`, `poincare_complement<Dim>` maps a term on `E` to the term on the
bitwise complement `C = (2^Dim - 1) XOR E` with the same monomials multiplied by the sign
`p = poincare_complement_parity<Dim, E>()`; `p` is the sign `(-1)^N` of the permutation
"vectors of `E`, then vectors of `C`", equal to the sign of `exterior_product<E, C>()`,
whose blade is the pseudoscalar, so that `E ^ complement(E)` is `+1` times the
pseudoscalar (`p * p = 1`). No metric enters any of these functions. -/
theorem poincare_complement_spec (Dim : Nat) (hD : Dim < 31) (t : term)
    (hE : t.element < 2 ^ Dim) :
    ∃ p : Int, (p = 1 ∨ p = -1) ∧ p * p = 1 ∧
      poincare_complement_parity Dim t.element = some p ∧
      poincare_complement Dim t
        = some (term.scale (p : Rat) ⟨(2 ^ Dim - 1) ^^^ t.element, t.monomials⟩) ∧
      p = (-1) ^ inversions t.element ((2 ^ Dim - 1) ^^^ t.element) ∧
      exterior_product t.element ((2 ^ Dim - 1) ^^^ t.element) = some (2 ^ Dim - 1, p) := by
  have hD64 : Dim < 64 := lt_trans hD (by norm_num)
  have h31 : t.element < 2 ^ 31 :=
    lt_trans hE (Nat.pow_lt_pow_right (by norm_num) hD)
  have h64 : t.element < 2 ^ 64 := lt_trans h31 (by norm_num)
  have hpar := poincare_complement_parity_eq hE h64
  have hext := exterior_product_eq t.element ((2 ^ Dim - 1) ^^^ t.element) h31
  rw [if_neg (by rw [and_complement hE]; exact fun h => h rfl), or_complement hE] at hext
  have hpc : ∀ p : Int, (p = 1 ∨ p = -1) →
      poincare_complement_parity Dim t.element = some p →
      poincare_complement Dim t
        = some (term.scale (p : Rat) ⟨(2 ^ Dim - 1) ^^^ t.element, t.monomials⟩) := by
    intro p hp hpp
    unfold poincare_complement
    rw [shift_one_of_lt hD]
    simp only [to_size_t_two_pow_sub_one hD64, hpp]
    rcases hp with h | h
    · subst h
      rw [if_pos rfl]
      simp only [Int.cast_one, term_scale_one]
    · subst h
      rw [if_neg (by norm_num)]
      simp only [Int.cast_neg, Int.cast_one, term_scale_neg_one]
  have hsign : ((-1 : Int)) ^ inversions t.element ((2 ^ Dim - 1) ^^^ t.element) = 1 ∨
      ((-1 : Int)) ^ inversions t.element ((2 ^ Dim - 1) ^^^ t.element) = -1 :=
    neg_one_pow_eq_or Int _
  refine ⟨_, hsign, ?_, hpar, hpc _ hsign hpar, rfl, hext⟩
  rcases hsign with h | h <;> rw [h] <;> norm_num

/-- Witness for C10: the complement of `e0` in three dimensions. -/
theorem poincare_complement_spec_witness :
    (3 : Nat) < 31 ∧ (term.mk 1 [⟨1, []⟩]).element < 2 ^ 3 ∧
    ∃ p : Int, (p = 1 ∨ p = -1) ∧ p * p = 1 ∧
      poincare_complement_parity 3 (term.mk 1 [⟨1, []⟩]).element = some p ∧
      poincare_complement 3 (term.mk 1 [⟨1, []⟩])
        = some (term.scale (p : Rat)
            ⟨(2 ^ 3 - 1) ^^^ (term.mk 1 [⟨1, []⟩]).element, (term.mk 1 [⟨1, []⟩]).monomials⟩) ∧
      p = (-1) ^ inversions (term.mk 1 [⟨1, []⟩]).element
            ((2 ^ 3 - 1) ^^^ (term.mk 1 [⟨1, []⟩]).element) ∧
      exterior_product (term.mk 1 [⟨1, []⟩]).element
          ((2 ^ 3 - 1) ^^^ (term.mk 1 [⟨1, []⟩]).element) = some (2 ^ 3 - 1, p) :=
  ⟨by norm_num, by decide, poincare_complement_spec 3 (by norm_num) (term.mk 1 [⟨1, []⟩])
    (by decide)⟩

/-! ## Double complement -/

theorem poincare_complement_eq {Dim : Nat} (hD : Dim < 31) (t : term)
    (hE : t.element < 2 ^ Dim) :
    poincare_complement Dim t
      = some (term.scale ((((-1 : Int)) ^ inversions t.element ((2 ^ Dim - 1) ^^^ t.element) : Int) : Rat)
          ⟨(2 ^ Dim - 1) ^^^ t.element, t.monomials⟩) := by
  have hD64 : Dim < 64 := lt_trans hD (by norm_num)
  have h64 : t.element < 2 ^ 64 :=
    lt_trans hE (Nat.pow_lt_pow_right (by norm_num) hD64)
  unfold poincare_complement
  rw [shift_one_of_lt hD]
  simp only [to_size_t_two_pow_sub_one hD64, poincare_complement_parity_eq hE h64]
  rcases neg_one_pow_eq_or Int (inversions t.element ((2 ^ Dim - 1) ^^^ t.element)) with h | h
  · rw [h, if_pos rfl]
    simp only [Int.cast_one, term_scale_one]
  · rw [h, if_neg (by norm_num)]
    simp only [Int.cast_neg, Int.cast_one, term_scale_neg_one]

theorem term_scale_scale (a b : Rat) (t : term) :
    term.scale a (term.scale b t) = term.scale (a * b) t := by
  unfold term.scale
  simp only [List.map_map]
  congr 1
  apply List.map_congr_left
  intro m _
  simp [mul_assoc]

theorem bits_two_pow_sub_one {d : Nat} (hd : d ≤ 64) : bits (2 ^ d - 1) = Finset.range d := by
  ext j
  rw [mem_bits, Nat.testBit_two_pow_sub_one, Finset.mem_range]
  constructor
  · intro h
    simpa using h.2
  · intro h
    exact ⟨lt_of_lt_of_le h hd, by simpa using h⟩

theorem count_bits_two_pow_sub_one {d : Nat} (hd : d ≤ 64) : count_bits (2 ^ d - 1) = d := by
  unfold count_bits
  rw [bits_two_pow_sub_one hd, Finset.card_range]

theorem and_two_pow_sub_one {Dim E : Nat} (hE : E < 2 ^ Dim) : E &&& (2 ^ Dim - 1) = E := by
  apply Nat.eq_of_testBit_eq
  intro j
  rw [Nat.testBit_and, Nat.testBit_two_pow_sub_one]
  cases hb : E.testBit j
  · simp
  · simp [testBit_lt_of_lt hE hb]

theorem count_bits_complement {Dim E : Nat} (hD : Dim ≤ 64) (hE : E < 2 ^ Dim) :
    count_bits ((2 ^ Dim - 1) ^^^ E) + count_bits E = Dim := by
  rw [Nat.xor_comm, count_bits_xor_of_subset (and_two_pow_sub_one hE),
    count_bits_two_pow_sub_one hD]

theorem complement_lt {Dim E : Nat} (hE : E < 2 ^ Dim) : (2 ^ Dim - 1) ^^^ E < 2 ^ Dim :=
  Nat.xor_lt_two_pow (Nat.sub_lt (Nat.two_pow_pos Dim) (by norm_num)) hE

/-- A vector of `E` and a vector of its complement are in one of the two orders: the two
inversion counts add up to `grade(E) * grade(C)`. -/
theorem inversions_add_inversions_complement {Dim E : Nat} (hE : E < 2 ^ Dim) :
    inversions E ((2 ^ Dim - 1) ^^^ E) + inversions ((2 ^ Dim - 1) ^^^ E) E
      = count_bits E * count_bits ((2 ^ Dim - 1) ^^^ E) := by
  rw [inversions_eq_sum, inversions_eq_sum ((2 ^ Dim - 1) ^^^ E) E]
  have h1 : ∀ i ∈ bits E, ((bits ((2 ^ Dim - 1) ^^^ E)).filter (fun j => j < i)).card
      = ∑ j ∈ bits ((2 ^ Dim - 1) ^^^ E), (if j < i then 1 else 0) :=
    fun i _ => Finset.card_filter _ _
  have h2 : ∀ j ∈ bits ((2 ^ Dim - 1) ^^^ E), ((bits E).filter (fun i => i < j)).card
      = ∑ i ∈ bits E, (if i < j then 1 else 0) :=
    fun j _ => Finset.card_filter _ _
  rw [Finset.sum_congr rfl h1, Finset.sum_congr rfl h2, Finset.sum_comm (s := bits ((2 ^ Dim - 1) ^^^ E)),
    ← Finset.sum_add_distrib]
  unfold count_bits
  rw [Finset.card_eq_sum_ones (bits E), Finset.sum_mul]
  refine Finset.sum_congr rfl (fun i hi => ?_)
  rw [← Finset.sum_add_distrib, Nat.one_mul, Finset.card_eq_sum_ones]
  refine Finset.sum_congr rfl (fun j hj => ?_)
  have hne : i ≠ j := by
    intro h
    subst h
    have hb := (mem_bits.mp hi).2
    have hc := (mem_bits.mp hj).2
    rw [testBit_complement, hb] at hc
    have hiD := testBit_lt_of_lt hE hb
    simp [hiD] at hc
  rcases Nat.lt_or_gt_of_ne hne with h | h
  · rw [if_neg (Nat.lt_asymm h), if_pos h]
  · rw [if_pos h, if_neg (Nat.lt_asymm h)]

/-! ## Dual round trip -/

/-- C11. Dual round trip: for a dimension `Dim` (within the range of the `int` shift)
and a term on a blade `E < 2^Dim` of grade `g`, the Poincaré complement is a term on the
complement blade, and applying the complement to it returns the term on `E` with the
original monomials multiplied by `(-1)^(g * (Dim - g))`; `dual` on the single-term
multivector does the same. -/
theorem poincare_complement_round_trip (Dim : Nat) (hD : Dim < 31) (t : term)
    (hE : t.element < 2 ^ Dim) :
    ∃ c : term, poincare_complement Dim t = some c ∧
      c.element = (2 ^ Dim - 1) ^^^ t.element ∧
      poincare_complement Dim c
        = some (term.scale ((-1) ^ (grade t.element * (Dim - grade t.element))) t) ∧
      ∀ (add : multivector → multivector → multivector) (M : Metric), M.dimension = Dim →
        dual add M [t] = some [c] ∧
        dual add M [c]
          = some [term.scale ((-1) ^ (grade t.element * (Dim - grade t.element))) t] := by
  have hD64 : Dim ≤ 64 := by omega
  have hC := complement_lt hE
  have h1 := poincare_complement_eq hD t hE
  have hsign : grade t.element * (Dim - grade t.element)
      = inversions t.element ((2 ^ Dim - 1) ^^^ t.element)
        + inversions ((2 ^ Dim - 1) ^^^ t.element) t.element := by
    rw [inversions_add_inversions_complement hE]
    have := count_bits_complement hD64 hE
    unfold grade
    congr 1
    omega
  have h2 : poincare_complement Dim
      (term.scale ((((-1 : Int)) ^ inversions t.element ((2 ^ Dim - 1) ^^^ t.element) : Int) : Rat)
        ⟨(2 ^ Dim - 1) ^^^ t.element, t.monomials⟩)
      = some (term.scale
          ((((-1 : Int)) ^ inversions ((2 ^ Dim - 1) ^^^ t.element)
              ((2 ^ Dim - 1) ^^^ ((2 ^ Dim - 1) ^^^ t.element)) : Int) : Rat)
          (term.scale
            ((((-1 : Int)) ^ inversions t.element ((2 ^ Dim - 1) ^^^ t.element) : Int) : Rat)
            ⟨(2 ^ Dim - 1) ^^^ ((2 ^ Dim - 1) ^^^ t.element), t.monomials⟩)) :=
    poincare_complement_eq hD _ hC
  have h3 : poincare_complement Dim
      (term.scale ((((-1 : Int)) ^ inversions t.element ((2 ^ Dim - 1) ^^^ t.element) : Int) : Rat)
        ⟨(2 ^ Dim - 1) ^^^ t.element, t.monomials⟩)
      = some (term.scale ((-1) ^ (grade t.element * (Dim - grade t.element))) t) := by
    rw [h2, Nat.xor_cancel_left, term_scale_scale, hsign, pow_add]
    push_cast
    rw [mul_comm]
  refine ⟨_, h1, rfl, h3, fun add M hM => ⟨?_, ?_⟩⟩
  · show (match poincare_complement M.dimension t with
      | none => none
      | some c => some [c]) = _
    rw [hM, h1]
  · show (match poincare_complement M.dimension _ with
      | none => none
      | some c => some [c]) = _
    rw [hM, h3]

/-- Witness for C11: the complement of `e0` in three dimensions, taken twice. -/
theorem poincare_complement_round_trip_witness :
    (3 : Nat) < 31 ∧ (term.mk 1 [⟨1, []⟩]).element < 2 ^ 3 ∧
    ∃ c : term, poincare_complement 3 (term.mk 1 [⟨1, []⟩]) = some c ∧
      c.element = (2 ^ 3 - 1) ^^^ (term.mk 1 [⟨1, []⟩]).element ∧
      poincare_complement 3 c
        = some (term.scale ((-1) ^ (grade (term.mk 1 [⟨1, []⟩]).element
            * (3 - grade (term.mk 1 [⟨1, []⟩]).element))) (term.mk 1 [⟨1, []⟩])) ∧
      ∀ (add : multivector → multivector → multivector) (M : Metric), M.dimension = 3 →
        dual add M [term.mk 1 [⟨1, []⟩]] = some [c] ∧
        dual add M [c]
          = some [term.scale ((-1) ^ (grade (term.mk 1 [⟨1, []⟩]).element
              * (3 - grade (term.mk 1 [⟨1, []⟩]).element))) (term.mk 1 [⟨1, []⟩])] :=
  ⟨by norm_num, by decide, poincare_complement_round_trip 3 (by norm_num) (term.mk 1 [⟨1, []⟩])
    (by decide)⟩

/-! ## Pseudoscalar -/

theorem merge_terms_nil : merge_terms [] = [] := rfl

theorem merge_terms_singleton (t : term) : merge_terms [t] = [t] := rfl

theorem detail_product_singleton (rule : term → term → Option multivector) (a b : term) :
    detail.product rule [a] [b]
      = match rule a b with
        | none => none
        | some r => some (merge_terms r) := by
  show (match detail.collect rule [(a, b)] with
    | none => none
    | some terms => some (merge_terms terms)) = _
  show (match (match rule a b with
      | none => none
      | some r => some (r ++ [])) with
    | none => none
    | some terms => some (merge_terms terms)) = _
  cases rule a b with
  | none => rfl
  | some r => simp

theorem inversions_top {d : Nat} (hd : d ≤ 64) :
    inversions (2 ^ d - 1) (2 ^ d - 1) = d * (d - 1) / 2 := by
  rw [inversions_eq_sum, bits_two_pow_sub_one hd, ← Finset.sum_range_id]
  refine Finset.sum_congr rfl (fun i hi => ?_)
  have hi' := Finset.mem_range.mp hi
  have : (Finset.range d).filter (fun j => j < i) = Finset.range i := by
    ext j
    simp only [Finset.mem_filter, Finset.mem_range]
    omega
  rw [this, Finset.card_range]

theorem shared_negative_top (sig : Nat → Int) {d : Nat} (hd : d ≤ 64) :
    shared_negative sig (2 ^ d - 1) (2 ^ d - 1)
      = ((Finset.range d).filter (fun i => sig i = -1)).card := by
  unfold shared_negative
  rw [bits_two_pow_sub_one hd]
  congr 1
  apply Finset.filter_congr
  intro i hi
  have hi' := Finset.mem_range.mp hi
  rw [Nat.testBit_two_pow_sub_one]
  simp [hi']

theorem two_pow_sub_one_lt {d : Nat} (hd : d < 31) : 2 ^ d - 1 < 2 ^ 31 :=
  lt_of_le_of_lt (Nat.sub_le _ _) (Nat.pow_lt_pow_right (by norm_num) hd)

/-- The square of the top blade under a non-degenerate diagonal metric. -/
theorem geometric_product_top {M : Metric} {sig : Nat → Int} (hM : M.Diagonal sig) {d : Nat}
    (hd : d < 31) (hnd : ∀ i, i < d → sig i ≠ 0) :
    geometric_product M (2 ^ d - 1) (2 ^ d - 1)
      = some (0, (-1) ^ (d * (d - 1) / 2
          + ((Finset.range d).filter (fun i => sig i = -1)).card)) := by
  have hd64 : d ≤ 64 := by omega
  have hne : ¬ ∃ i ∈ bits (2 ^ d - 1), (2 ^ d - 1).testBit i = true ∧ sig i = 0 := by
    rintro ⟨i, hi, _, hs⟩
    rw [bits_two_pow_sub_one hd64] at hi
    exact hnd i (Finset.mem_range.mp hi) hs
  rw [geometric_product_eq hM _ _ (two_pow_sub_one_lt hd), if_neg hne, Nat.xor_self,
    inversions_top hd64, shared_negative_top sig hd64]

theorem rat_sign_eq_neg_one_pow (n : Nat) :
    (if n % 2 = 0 then (1 : Rat) else -1) = (-1) ^ n := by
  rcases Nat.even_or_odd n with h | h
  · rw [h.neg_one_pow, if_pos (Nat.even_iff.mp h)]
  · rw [h.neg_one_pow, if_neg (by rw [Nat.odd_iff.mp h]; norm_num)]

theorem pseudoscalar_value_eq {M : Metric} (hd : M.dimension < 31) :
    pseudoscalar.value M = some [⟨2 ^ M.dimension - 1, [⟨1, []⟩]⟩] := by
  unfold pseudoscalar.value
  rw [shift_one_of_lt hd]
  simp only [to_size_t_two_pow_sub_one (lt_trans hd (by norm_num))]

theorem pseudoscalar_inverse_eq {M : Metric} (hd : M.dimension < 31) :
    pseudoscalar.inverse M = some [⟨2 ^ M.dimension - 1,
      [⟨(-1) ^ (M.dimension * (M.dimension - 1) / 2 + M.v), []⟩]⟩] := by
  unfold pseudoscalar.inverse
  rw [shift_one_of_lt hd]
  simp only [to_size_t_two_pow_sub_one (lt_trans hd (by norm_num)), rat_sign_eq_neg_one_pow]

/-- C12. For a non-degenerate diagonal metric of dimension `d` (within the range of the
`int` shift) with `v` negative-square basis vectors, `pseudoscalar::inverse` is the top
blade `2^d - 1` with coefficient `(-1)^(d(d-1)/2 + v)`, which is the sign of
`geometric_product<2^d-1, 2^d-1>()`, and the geometric product `value * inverse` is the
scalar `1`. -/
theorem pseudoscalar_inverse_spec (M : Metric) (sig : Nat → Int) (hM : M.Diagonal sig)
    (hd : M.dimension < 31)
    (hv : M.v = ((Finset.range M.dimension).filter (fun i => sig i = -1)).card)
    (hnd : ∀ i, i < M.dimension → sig i ≠ 0) :
    pseudoscalar.value M = some [⟨2 ^ M.dimension - 1, [⟨1, []⟩]⟩] ∧
    pseudoscalar.inverse M = some [⟨2 ^ M.dimension - 1,
      [⟨(-1) ^ (M.dimension * (M.dimension - 1) / 2 + M.v), []⟩]⟩] ∧
    geometric_product M (2 ^ M.dimension - 1) (2 ^ M.dimension - 1)
      = some (0, (-1) ^ (M.dimension * (M.dimension - 1) / 2 + M.v)) ∧
    detail.product (geometric.product_diagonal M)
        [⟨2 ^ M.dimension - 1, [⟨1, []⟩]⟩]
        [⟨2 ^ M.dimension - 1, [⟨(-1) ^ (M.dimension * (M.dimension - 1) / 2 + M.v), []⟩]⟩]
      = some [⟨0, [⟨1, []⟩]⟩] := by
  have hgp := geometric_product_top hM hd hnd
  rw [← hv] at hgp
  refine ⟨pseudoscalar_value_eq hd, pseudoscalar_inverse_eq hd, hgp, ?_⟩
  rw [detail_product_singleton]
  unfold geometric.product_diagonal
  simp only [hgp]
  rcases Nat.even_or_odd (M.dimension * (M.dimension - 1) / 2 + M.v) with h | h
  · simp [h.neg_one_pow, term.mul, merge_terms_singleton]
  · simp [h.neg_one_pow, term.mul, term.scale, merge_terms_singleton]

/-- Witness for C12: the metric with signature `(+1, +1, -1)`. -/
theorem pseudoscalar_inverse_spec_witness :
    (diagonal_metric 3 (fun i => if i = 2 then -1 else 1)).Diagonal
      (fun i => if i = 2 then -1 else 1) ∧
    (diagonal_metric 3 (fun i => if i = 2 then -1 else 1)).dimension < 31 ∧
    (diagonal_metric 3 (fun i => if i = 2 then -1 else 1)).v
      = ((Finset.range (diagonal_metric 3 (fun i => if i = 2 then -1 else 1)).dimension).filter
          (fun i => (fun i => if i = 2 then (-1 : Int) else 1) i = -1)).card ∧
    (∀ i, i < (diagonal_metric 3 (fun i => if i = 2 then -1 else 1)).dimension →
      (fun i => if i = 2 then (-1 : Int) else 1) i ≠ 0) ∧
    (pseudoscalar.value (diagonal_metric 3 (fun i => if i = 2 then -1 else 1))
      = some [⟨2 ^ (diagonal_metric 3 (fun i => if i = 2 then -1 else 1)).dimension - 1,
          [⟨1, []⟩]⟩] ∧
    pseudoscalar.inverse (diagonal_metric 3 (fun i => if i = 2 then -1 else 1))
      = some [⟨2 ^ (diagonal_metric 3 (fun i => if i = 2 then -1 else 1)).dimension - 1,
          [⟨(-1) ^ ((diagonal_metric 3 (fun i => if i = 2 then -1 else 1)).dimension
              * ((diagonal_metric 3 (fun i => if i = 2 then -1 else 1)).dimension - 1) / 2
              + (diagonal_metric 3 (fun i => if i = 2 then -1 else 1)).v), []⟩]⟩] ∧
    geometric_product (diagonal_metric 3 (fun i => if i = 2 then -1 else 1))
        (2 ^ (diagonal_metric 3 (fun i => if i = 2 then -1 else 1)).dimension - 1)
        (2 ^ (diagonal_metric 3 (fun i => if i = 2 then -1 else 1)).dimension - 1)
      = some (0, (-1) ^ ((diagonal_metric 3 (fun i => if i = 2 then -1 else 1)).dimension
              * ((diagonal_metric 3 (fun i => if i = 2 then -1 else 1)).dimension - 1) / 2
              + (diagonal_metric 3 (fun i => if i = 2 then -1 else 1)).v)) ∧
    detail.product (geometric.product_diagonal (diagonal_metric 3 (fun i => if i = 2 then -1 else 1)))
        [⟨2 ^ (diagonal_metric 3 (fun i => if i = 2 then -1 else 1)).dimension - 1, [⟨1, []⟩]⟩]
        [⟨2 ^ (diagonal_metric 3 (fun i => if i = 2 then -1 else 1)).dimension - 1,
          [⟨(-1) ^ ((diagonal_metric 3 (fun i => if i = 2 then -1 else 1)).dimension
              * ((diagonal_metric 3 (fun i => if i = 2 then -1 else 1)).dimension - 1) / 2
              + (diagonal_metric 3 (fun i => if i = 2 then -1 else 1)).v), []⟩]⟩]
      = some [⟨0, [⟨1, []⟩]⟩]) :=
  ⟨diagonal_metric_diagonal 3 _, by decide, rfl, fun i _ => by
      show (if i = 2 then (-1 : Int) else 1) ≠ 0
      split <;> norm_num,
    pseudoscalar_inverse_spec (diagonal_metric 3 (fun i => if i = 2 then -1 else 1))
      (fun i => if i = 2 then -1 else 1) (diagonal_metric_diagonal 3 _) (by decide) rfl
      (fun i _ => by
        show (if i = 2 then (-1 : Int) else 1) ≠ 0
        split <;> norm_num)⟩

/-! ## Polarity dual -/

theorem term_mul_const (a : term) (e : Nat) (c : Rat) :
    term.mul a ⟨e, [⟨c, []⟩]⟩ = term.scale c a := by
  unfold term.mul term.scale
  congr 1
  show (a.monomials.flatMap (fun m => [(⟨m.q * c, m.generators ++ []⟩ : monomial)])) = _
  induction a.monomials with
  | nil => rfl
  | cons m ms ih =>
    rw [List.flatMap_cons, ih, List.map_cons, List.append_nil, mul_comm]
    rfl

/-- Contraction onto the top blade under a diagonal metric. -/
theorem contract_product_top {M : Metric} {sig : Nat → Int} (hM : M.Diagonal sig) {d E : Nat}
    (hd : d < 31) (hE : E < 2 ^ d) :
    contract_product M E (2 ^ d - 1)
      = if ∃ i ∈ bits E, sig i = 0 then some (0, 0)
        else some (and_not (2 ^ d - 1) E,
          (-1) ^ (inversions E (2 ^ d - 1) + negative_count sig E)) := by
  have h31 : E < 2 ^ 31 := lt_trans hE (Nat.pow_lt_pow_right (by norm_num) hd)
  have h64 : E < 2 ^ 64 := lt_trans h31 (by norm_num)
  have hI : 2 ^ d - 1 < 2 ^ 64 := lt_trans (two_pow_sub_one_lt hd) (by norm_num)
  rw [contract_product_eq hM E _ h31 hI]
  by_cases h : ∃ i ∈ bits E, sig i = 0
  · rw [if_pos h, if_neg]
    intro hall
    obtain ⟨i, hi, hs⟩ := h
    exact (hall i hi).2 hs
  · rw [if_neg h, if_pos]
    intro i hi
    have hb := (mem_bits_of_lt h64).mp hi
    refine ⟨?_, fun hs => h ⟨i, hi, hs⟩⟩
    rw [Nat.testBit_two_pow_sub_one]
    simpa using testBit_lt_of_lt hE hb

theorem polarity_dual_eq {M : Metric} {sig : Nat → Int} (hM : M.Diagonal sig)
    (hd : M.dimension < 31) (t : term) (hE : t.element < 2 ^ M.dimension) :
    polarity_dual M [t]
      = if ∃ i ∈ bits t.element, sig i = 0 then some []
        else some [term.scale
          (((((-1 : Int)) ^ (inversions t.element (2 ^ M.dimension - 1)
              + negative_count sig t.element) : Int) : Rat)
            * (-1) ^ (M.dimension * (M.dimension - 1) / 2 + M.v))
          ⟨and_not (2 ^ M.dimension - 1) t.element, t.monomials⟩] := by
  unfold polarity_dual
  rw [pseudoscalar_inverse_eq hd]
  simp only
  rw [detail_product_singleton]
  unfold contract.product
  simp only [contract_product_top hM hd hE]
  by_cases h : ∃ i ∈ bits t.element, sig i = 0
  · rw [if_pos h, if_pos h]
    simp [merge_terms_nil]
  · rw [if_neg h, if_neg h]
    simp only [if_neg (neg_one_pow_ne_zero _)]
    rcases neg_one_pow_eq_or Int
      (inversions t.element (2 ^ M.dimension - 1) + negative_count sig t.element) with hs | hs
    · rw [hs]
      simp only [if_true, term_mul_const, merge_terms_singleton, Int.cast_one, one_mul]
    · rw [hs]
      simp only [if_neg (by norm_num : ¬ (-1 : Int) = 1), term_mul_const, merge_terms_singleton,
        term_scale_scale, Int.cast_neg, Int.cast_one]
      rw [mul_comm]

/-- C13. Under a diagonal metric of dimension `d` (within the range of the `int` shift),
`polarity_dual` of a single-term multivector on a blade `E < 2^d` is zero (the empty
multivector) if and only if `E` contains a basis vector whose square is `0`; otherwise it
is a single term on the complement blade `(2^d - 1) AND NOT E` whose coefficient is `+1` or
`-1` times the input coefficient.  Hence for a non-degenerate metric the polarity dual is
never zero. -/
theorem polarity_dual_spec (M : Metric) (sig : Nat → Int) (hM : M.Diagonal sig)
    (hd : M.dimension < 31) (t : term) (hE : t.element < 2 ^ M.dimension) :
    (polarity_dual M [t] = some [] ↔ ∃ i, t.element.testBit i = true ∧ sig i = 0) ∧
    ((¬ ∃ i, t.element.testBit i = true ∧ sig i = 0) →
      ∃ s : Rat, (s = 1 ∨ s = -1) ∧
        polarity_dual M [t]
          = some [term.scale s ⟨and_not (2 ^ M.dimension - 1) t.element, t.monomials⟩]) ∧
    ((∀ i, i < M.dimension → sig i ≠ 0) → ∃ u : term, polarity_dual M [t] = some [u]) := by
  have heq := polarity_dual_eq hM hd t hE
  have h64 : t.element < 2 ^ 64 :=
    lt_trans hE (Nat.pow_lt_pow_right (by norm_num) (lt_trans hd (by norm_num)))
  have hiff : (∃ i ∈ bits t.element, sig i = 0) ↔
      ∃ i, t.element.testBit i = true ∧ sig i = 0 :=
    ⟨fun ⟨i, hi, h⟩ => ⟨i, (mem_bits_of_lt h64).mp hi, h⟩,
      fun ⟨i, hi, h⟩ => ⟨i, (mem_bits_of_lt h64).mpr hi, h⟩⟩
  have hs : ∀ a b : Nat, ((((-1 : Int)) ^ a : Int) : Rat) * (-1) ^ b = 1 ∨
      ((((-1 : Int)) ^ a : Int) : Rat) * (-1) ^ b = -1 := by
    intro a b
    rcases neg_one_pow_eq_or Int a with h1 | h1 <;>
      rcases neg_one_pow_eq_or Rat b with h2 | h2 <;> rw [h1, h2] <;> norm_num
  refine ⟨?_, ?_, ?_⟩
  · by_cases h : ∃ i ∈ bits t.element, sig i = 0
    · rw [if_pos h] at heq
      exact ⟨fun _ => hiff.mp h, fun _ => heq⟩
    · rw [if_neg h] at heq
      rw [heq]
      exact ⟨fun hc => by simp at hc, fun hc => absurd (hiff.mpr hc) h⟩
  · intro h
    rw [if_neg (fun hc => h (hiff.mp hc))] at heq
    exact ⟨_, hs _ _, heq⟩
  · intro hnd
    have h : ¬ ∃ i ∈ bits t.element, sig i = 0 := by
      rintro ⟨i, hi, hz⟩
      exact hnd i (testBit_lt_of_lt hE (mem_bits.mp hi).2) hz
    rw [if_neg h] at heq
    exact ⟨_, heq⟩

/-- Witness for C13: the Euclidean polarity dual of the term `2 * e0`. -/
theorem polarity_dual_spec_witness :
    (diagonal_metric 3 (fun _ => 1)).Diagonal (fun _ => 1) ∧
    (diagonal_metric 3 (fun _ => 1)).dimension < 31 ∧
    (term.mk 1 [⟨2, []⟩]).element < 2 ^ (diagonal_metric 3 (fun _ => 1)).dimension ∧
    ((polarity_dual (diagonal_metric 3 (fun _ => 1)) [term.mk 1 [⟨2, []⟩]] = some [] ↔
      ∃ i, (term.mk 1 [⟨2, []⟩]).element.testBit i = true ∧ (fun _ => (1 : Int)) i = 0) ∧
    ((¬ ∃ i, (term.mk 1 [⟨2, []⟩]).element.testBit i = true ∧ (fun _ => (1 : Int)) i = 0) →
      ∃ s : Rat, (s = 1 ∨ s = -1) ∧
        polarity_dual (diagonal_metric 3 (fun _ => 1)) [term.mk 1 [⟨2, []⟩]]
          = some [term.scale s ⟨and_not (2 ^ (diagonal_metric 3 (fun _ => 1)).dimension - 1)
              (term.mk 1 [⟨2, []⟩]).element, (term.mk 1 [⟨2, []⟩]).monomials⟩]) ∧
    ((∀ i, i < (diagonal_metric 3 (fun _ => 1)).dimension → (fun _ => (1 : Int)) i ≠ 0) →
      ∃ u : term, polarity_dual (diagonal_metric 3 (fun _ => 1)) [term.mk 1 [⟨2, []⟩]]
        = some [u])) :=
  ⟨diagonal_metric_diagonal 3 _, by decide, by decide,
    polarity_dual_spec (diagonal_metric 3 (fun _ => 1)) (fun _ => 1)
      (diagonal_metric_diagonal 3 _) (by decide) (term.mk 1 [⟨2, []⟩]) (by decide)⟩

/-! ## Signs returned by the blade rules, for any metric -/

theorem sign_cases (n : Nat) :
    (if n % 2 = 0 then (1 : Int) else -1) = -1 ∨ (if n % 2 = 0 then (1 : Int) else -1) = 0 ∨
      (if n % 2 = 0 then (1 : Int) else -1) = 1 := by
  by_cases h : n % 2 = 0
  · rw [if_pos h]; exact Or.inr (Or.inr rfl)
  · rw [if_neg h]; exact Or.inl rfl

theorem geometric_loop_sign (M : Metric) (element : Nat) :
    ∀ (fuel lhs rhs swaps : Nat) (r : Nat × Int),
      geometric_loop M element fuel lhs rhs swaps = some r → r.2 = -1 ∨ r.2 = 0 ∨ r.2 = 1 := by
  intro fuel
  induction fuel with
  | zero =>
    intro lhs rhs swaps r h
    change (if lhs > 0 then none else some (element, if swaps % 2 = 0 then 1 else -1)) = some r at h
    split at h
    · exact Option.noConfusion h
    · rw [← Option.some.inj h]
      exact sign_cases swaps
  | succ fuel ih =>
    intro lhs rhs swaps r h
    change (if lhs > 0 then _ else _) = some r at h
    split at h
    · dsimp only at h
      split at h
      · split at h
        · exact Option.noConfusion h
        · exact ih _ _ _ _ h
      · split at h
        · exact Option.noConfusion h
        · split at h
          · rw [← Option.some.inj h]
            exact Or.inr (Or.inl rfl)
          · split at h
            · exact Option.noConfusion h
            · exact ih _ _ _ _ h
    · rw [← Option.some.inj h]
      exact sign_cases swaps

theorem geometric_product_sign (M : Metric) (E1 E2 : Nat) (r : Nat × Int)
    (h : geometric_product M E1 E2 = some r) : r.2 = -1 ∨ r.2 = 0 ∨ r.2 = 1 := by
  unfold geometric_product at h
  split at h
  · rw [← Option.some.inj h]; exact Or.inr (Or.inr rfl)
  · split at h
    · rw [← Option.some.inj h]; exact Or.inr (Or.inr rfl)
    · exact geometric_loop_sign M _ _ _ _ _ r h

theorem contract_loop_sign (M : Metric) :
    ∀ (fuel lhs rhs swaps : Nat) (r : Nat × Int),
      contract_loop M fuel lhs rhs swaps = some r → r.2 = -1 ∨ r.2 = 0 ∨ r.2 = 1 := by
  intro fuel
  induction fuel with
  | zero =>
    intro lhs rhs swaps r h
    change (if lhs > 0 then none else some (rhs, if swaps % 2 = 0 then 1 else -1)) = some r at h
    split at h
    · exact Option.noConfusion h
    · rw [← Option.some.inj h]
      exact sign_cases swaps
  | succ fuel ih =>
    intro lhs rhs swaps r h
    change (if lhs > 0 then _ else _) = some r at h
    split at h
    · dsimp only at h
      split at h
      · rw [← Option.some.inj h]
        exact Or.inr (Or.inl rfl)
      · split at h
        · exact Option.noConfusion h
        · split at h
          · exact Option.noConfusion h
          · exact ih _ _ _ _ h
    · rw [← Option.some.inj h]
      exact sign_cases swaps

theorem contract_product_sign (M : Metric) (E1 E2 : Nat) (r : Nat × Int)
    (h : contract_product M E1 E2 = some r) : r.2 = -1 ∨ r.2 = 0 ∨ r.2 = 1 := by
  unfold contract_product at h
  split at h
  · rw [← Option.some.inj h]; exact Or.inr (Or.inr rfl)
  · split at h
    · rw [← Option.some.inj h]; exact Or.inr (Or.inl rfl)
    · exact contract_loop_sign M _ _ _ _ r h

theorem exterior_product_sign (E1 E2 : Nat) (r : Nat × Int)
    (h : exterior_product E1 E2 = some r) : r.2 = -1 ∨ r.2 = 0 ∨ r.2 = 1 := by
  unfold exterior_product at h
  split at h
  · rw [← Option.some.inj h]; exact Or.inr (Or.inr rfl)
  · split at h
    · rw [← Option.some.inj h]; exact Or.inr (Or.inr rfl)
    · dsimp only at h
      split at h
      · rw [← Option.some.inj h]; exact Or.inr (Or.inl rfl)
      · split at h
        · exact Option.noConfusion h
        · rw [← Option.some.inj h]
          exact sign_cases _

/-- The selection made by `inner_product`, with the geometric product and the two checked
first checked `int` value abstracted: the result is the geometric pair or `(0, 0)`. -/
theorem inner_selection_sign (g : Option (Nat × Int)) (c : Option Int)
    (r : Nat × Int)
    (h : (match g with
      | none => none
      | some gp =>
        match c with
        | none => none
        | some desired_grade =>
          if gp.1 = to_size_t desired_grade then
            if gp.2 ≠ 0 then some gp else some (0, 0)
          else
            match int_checked (-desired_grade) with
            | none => none
            | some negated =>
              if gp.1 = to_size_t negated ∧ gp.2 ≠ 0 then some gp else some (0, 0)) = some r)
    (hg : ∀ gp, g = some gp → gp.2 = -1 ∨ gp.2 = 0 ∨ gp.2 = 1) :
    r.2 = -1 ∨ r.2 = 0 ∨ r.2 = 1 := by
  cases g with
  | none => exact Option.noConfusion h
  | some gp =>
    have hs := hg gp rfl
    cases c with
    | none => exact Option.noConfusion h
    | some d =>
      simp only at h
      by_cases hA : gp.1 = to_size_t d
      · rw [if_pos hA] at h
        by_cases hC : gp.2 ≠ 0
        · rw [if_pos hC] at h
          rw [← Option.some.inj h]
          exact hs
        · rw [if_neg hC] at h
          rw [← Option.some.inj h]
          exact Or.inr (Or.inl rfl)
      · rw [if_neg hA] at h
        cases hn : int_checked (-d) with
        | none =>
          rw [hn] at h
          exact Option.noConfusion h
        | some m =>
          rw [hn] at h
          simp only at h
          by_cases hB : gp.1 = to_size_t m ∧ gp.2 ≠ 0
          · rw [if_pos hB] at h
            rw [← Option.some.inj h]
            exact hs
          · rw [if_neg hB] at h
            rw [← Option.some.inj h]
            exact Or.inr (Or.inl rfl)

theorem inner_product_sign (M : Metric) (E1 E2 : Nat) (r : Nat × Int)
    (h : inner_product M E1 E2 = some r) : r.2 = -1 ∨ r.2 = 0 ∨ r.2 = 1 := by
  unfold inner_product at h
  by_cases hz : E1 = 0 ∨ E2 = 0
  · rw [if_pos hz] at h
    rw [← Option.some.inj h]
    exact Or.inr (Or.inl rfl)
  · rw [if_neg hz] at h
    generalize hgd : geometric_product M E1 E2 = g at h
    generalize int_checked (static_cast_int E2 - static_cast_int E1) = c at h
    exact inner_selection_sign g c r h
      (fun gp hgp => geometric_product_sign M E1 E2 gp (hgd.trans hgp))

theorem term_mul_scale_left (c : Rat) (a b : term) :
    term.mul (term.scale c a) b = term.scale c (term.mul a b) := by
  unfold term.mul term.scale
  simp only [List.flatMap_map, List.map_flatMap, List.map_map]
  congr 1
  apply List.flatMap_congr
  intro m _
  apply List.map_congr_left
  intro n _
  simp [mul_assoc]

/-- The common shape of the four term rules: from the pair `(e, s)` of the blade rule, the
empty multivector when `s = 0`, and otherwise the single term on `e` whose coefficient is
the product of the two monomial sums times `s`. -/
theorem term_rule_eq (lhs rhs : term) (e : Nat) (s : Int) (hs : s = -1 ∨ s = 0 ∨ s = 1) :
    (if s = 0 then (some [] : Option multivector)
      else if s = 1 then some [term.mul ⟨e, lhs.monomials⟩ ⟨e, rhs.monomials⟩]
      else some [term.mul (term.scale s ⟨e, lhs.monomials⟩) ⟨e, rhs.monomials⟩])
      = if s = 0 then some []
        else some [term.scale s (term.mul ⟨e, lhs.monomials⟩ ⟨e, rhs.monomials⟩)] := by
  rcases hs with h | h | h
  · subst h
    rw [if_neg (by norm_num), if_neg (by norm_num), if_neg (by norm_num), term_mul_scale_left]
  · subst h
    rw [if_pos rfl, if_pos rfl]
  · subst h
    rw [if_neg (by norm_num), if_pos rfl, if_neg (by norm_num)]
    simp only [Int.cast_one, term_scale_one]

theorem term_rule_shape (res : Option multivector) (lhs rhs : term) (e : Nat) (s : Int)
    (hres : res = if s = 0 then some []
      else some [term.scale s (term.mul ⟨e, lhs.monomials⟩ ⟨e, rhs.monomials⟩)]) :
    (res = some [] ↔ s = 0) ∧
    (s ≠ 0 → res = some [term.scale s (term.mul ⟨e, lhs.monomials⟩ ⟨e, rhs.monomials⟩)]) := by
  by_cases h : s = 0
  · rw [if_pos h] at hres
    exact ⟨⟨fun _ => h, fun _ => hres⟩, fun hc => absurd h hc⟩
  · rw [if_neg h] at hres
    refine ⟨⟨fun hc => ?_, fun hc => absurd hc h⟩, fun _ => hres⟩
    rw [hres] at hc
    simp at hc

/-! ## Term-level rules -/

/-- C14. For each of the four term-level rules (`inner::product`, `contract::product`,
`exterior::product`, `geometric::product_diagonal`) and every pair of terms: when the
blade-pair function returns `(e, s)`, the sign `s` is one of `-1`, `0`, `+1`; the rule
returns the empty multivector exactly when `s = 0`, and otherwise a multivector with
exactly one term, on the basis element `e`, whose coefficient is the product of the two
input monomial sums multiplied by `s`. -/
theorem term_rules_spec (M : Metric) (lhs rhs : term) :
    (∀ e s, inner_product M lhs.element rhs.element = some (e, s) →
      (s = -1 ∨ s = 0 ∨ s = 1) ∧
      (inner.product M lhs rhs = some [] ↔ s = 0) ∧
      (s ≠ 0 → inner.product M lhs rhs
        = some [term.scale s (term.mul ⟨e, lhs.monomials⟩ ⟨e, rhs.monomials⟩)])) ∧
    (∀ e s, contract_product M lhs.element rhs.element = some (e, s) →
      (s = -1 ∨ s = 0 ∨ s = 1) ∧
      (contract.product M lhs rhs = some [] ↔ s = 0) ∧
      (s ≠ 0 → contract.product M lhs rhs
        = some [term.scale s (term.mul ⟨e, lhs.monomials⟩ ⟨e, rhs.monomials⟩)])) ∧
    (∀ e s, exterior_product lhs.element rhs.element = some (e, s) →
      (s = -1 ∨ s = 0 ∨ s = 1) ∧
      (exterior.product lhs rhs = some [] ↔ s = 0) ∧
      (s ≠ 0 → exterior.product lhs rhs
        = some [term.scale s (term.mul ⟨e, lhs.monomials⟩ ⟨e, rhs.monomials⟩)])) ∧
    (∀ e s, geometric_product M lhs.element rhs.element = some (e, s) →
      (s = -1 ∨ s = 0 ∨ s = 1) ∧
      (geometric.product_diagonal M lhs rhs = some [] ↔ s = 0) ∧
      (s ≠ 0 → geometric.product_diagonal M lhs rhs
        = some [term.scale s (term.mul ⟨e, lhs.monomials⟩ ⟨e, rhs.monomials⟩)])) := by
  refine ⟨fun e s h => ?_, fun e s h => ?_, fun e s h => ?_, fun e s h => ?_⟩
  · have hs := inner_product_sign M _ _ _ h
    refine ⟨hs, term_rule_shape _ lhs rhs e s ?_⟩
    unfold inner.product
    rw [h]
    exact term_rule_eq lhs rhs e s hs
  · have hs := contract_product_sign M _ _ _ h
    refine ⟨hs, term_rule_shape _ lhs rhs e s ?_⟩
    unfold contract.product
    rw [h]
    exact term_rule_eq lhs rhs e s hs
  · have hs := exterior_product_sign _ _ _ h
    refine ⟨hs, term_rule_shape _ lhs rhs e s ?_⟩
    unfold exterior.product
    rw [h]
    exact term_rule_eq lhs rhs e s hs
  · have hs := geometric_product_sign M _ _ _ h
    refine ⟨hs, term_rule_shape _ lhs rhs e s ?_⟩
    unfold geometric.product_diagonal
    rw [h]
    exact term_rule_eq lhs rhs e s hs

/-! ## PGA2 encodings -/

namespace pga2

theorem int_checked_neg {X : Int} (hlo : -2 ^ 31 < X) (hhi : X < 2 ^ 31) :
    int_checked (-X) = some (-X) := by
  unfold int_checked
  rw [if_pos ⟨by omega, by omega⟩]

/-- What `direction<T>::convert` returns on the direction's own encoding. -/
theorem direction_convert_type {K : Type} [Field K] (ρ : Nat → Nat → K) (ID : Nat) :
    direction.convert ρ (direction.type ID) = ⟨-ρ ID 0, -ρ ID 1⟩ := by
  simp [direction.convert, direction.type, extract, multivector_neg, term.neg, evaluate,
    term.eval, monomial.eval, generator.eval]

/-- C15. PGA2 point round trip: over an exact field, `point<T>::convert` applied to the
point's own symbolic encoding `point<T>::type<ID>`, with the generators `tag<ID, 0>` and
`tag<ID, 1>` bound to `x` and `y`, returns the point `(x, y)`. -/
theorem point_round_trip {K : Type} [Field K] [DecidableEq K] (ρ : Nat → Nat → K) (ID : Nat) :
    point.convert ρ (point.type ID) = some ⟨ρ ID 0, ρ ID 1⟩ := by
  simp [point.convert, point.type, extract, evaluate, term.eval, monomial.eval,
    generator.eval]

/-- C16, at the failing input. With `x = 1` and `y = 2` bound to the generators
`tag<0, 0>` and `tag<0, 1>`, `direction<T>::convert` applied to the direction's own
encoding `direction<T>::type<0>` returns `(-1, -2)`, not the direction `(1, 2)`. -/
theorem direction_round_trip_fails :
    direction.convert (fun _ i => if i = 0 then (1 : Rat) else 2) (direction.type 0)
      = ⟨-1, -2⟩ ∧
    direction.convert (fun _ i => if i = 0 then (1 : Rat) else 2) (direction.type 0)
      ≠ ⟨1, 2⟩ := by
  rw [direction_convert_type]
  constructor
  · simp
  · intro h
    have hx := congrArg direction.x h
    simp at hx
    norm_num at hx

/-- C17, at the failing input. Substituting `x = 1`, `y = 2` into `direction<T>::type<0>`
gives the `0b11` coefficient `-2` and the `0b101` coefficient `1`, whereas the alias
`direction_t<1, 2>` has the `0b11` coefficient `2` and the `0b101` coefficient `-1`. -/
theorem direction_type_disagrees_with_alias :
    evaluate (fun _ i => if i = 0 then (1 : Rat) else 2) (extract 0b11 (direction.type 0)) = -2 ∧
    evaluate (fun _ i => if i = 0 then (1 : Rat) else 2) (extract 0b101 (direction.type 0)) = 1 ∧
    direction_t 1 2 = some [⟨0b11, [⟨2, []⟩]⟩, ⟨0b101, [⟨-1, []⟩]⟩] := by
  refine ⟨?_, ?_, ?_⟩
  · simp [direction.type, extract, evaluate, term.eval, monomial.eval, generator.eval]
  · simp [direction.type, extract, evaluate, term.eval, monomial.eval, generator.eval]
  · unfold direction_t
    rw [int_checked_neg (by norm_num) (by norm_num)]
    simp

/-- C18. For all `int` values `X` (other than the one whose negation overflows) and `Y`,
`cartesian_point` applied to the compile-time point `point_t<X, Y>` returns exactly the
pair of rationals `(X, Y)`. -/
theorem cartesian_point_point_t (X Y : Int) (hlo : -2 ^ 31 < X) (hhi : X < 2 ^ 31) :
    (point_t X Y).bind cartesian_point = some ((X : Rat), (Y : Rat)) := by
  unfold point_t
  rw [int_checked_neg hlo hhi]
  simp [cartesian_point, extract, multivector_neg, term.neg, first_rational, rational_div]

/-- Witness for C18: the point at `(3, -4)`. -/
theorem cartesian_point_point_t_witness :
    (-2 ^ 31 < (3 : Int)) ∧ ((3 : Int) < 2 ^ 31) ∧
    (point_t 3 (-4)).bind cartesian_point = some (((3 : Int) : Rat), (((-4 : Int)) : Rat)) :=
  ⟨by norm_num, by norm_num, cartesian_point_point_t 3 (-4) (by norm_num) (by norm_num)⟩

/-- C19. For all integers `A`, `B`, `C` with `B ≠ 0`, `line_slope` applied to
`line_t<A, B, C>` returns exactly the rational `-A / B`. -/
theorem line_slope_line_t (A B C : Int) (hB : B ≠ 0) :
    line_slope (line_t A B C) = some (-(A : Rat) / (B : Rat)) := by
  have hB' : (B : Rat) ≠ 0 := by exact_mod_cast hB
  simp [line_slope, line_t, extract, first_rational, rational_div, hB']

/-- Witness for C19: the line `2x + 4y + 1 = 0` has slope `-1/2`. -/
theorem line_slope_line_t_witness :
    (4 : Int) ≠ 0 ∧ line_slope (line_t 2 4 1) = some (-((2 : Int) : Rat) / ((4 : Int) : Rat)) :=
  ⟨by norm_num, line_slope_line_t 2 4 1 (by norm_num)⟩

end pga2

/-! ## EGA rotor encoding -/

namespace ega

/-- C20, at the failing input. `rotor<T>::ie(0)` is a four-term multivector on the basis
elements `0`, `0b11`, `0b101`, `0b110`, every generator id lies in `[0, size())`, and each
bivector term is a single monomial in `sin_theta` (id 1) and one axis field; but the
coefficients of the bivector terms are `-1` for `z` (id 4), `+1` for `y` (id 3) and `-1`
for `x` (id 2), the opposite of the signs in the comments of the source. -/
theorem rotor_ie_signs :
    (rotor.ie 0).decode
      = [(0, [(1, [⟨0, 1⟩])]),
         (0b11, [(-1, [⟨1, 1⟩, ⟨4, 1⟩])]),
         (0b101, [(1, [⟨1, 1⟩, ⟨3, 1⟩])]),
         (0b110, [(-1, [⟨1, 1⟩, ⟨2, 1⟩])])] ∧
    (∀ i ∈ (rotor.ie 0).inds, 0 ≤ i.id ∧ i.id < 0 + rotor.size) := by
  constructor
  · rfl
  · intro i hi
    simp only [rotor.ie, List.mem_cons, List.mem_singleton, List.not_mem_nil, or_false] at hi
    rcases hi with h | h | h | h | h | h | h <;> subst h <;> simp [rotor.size]

end ega

/-! ## Relations between the blade rules -/

theorem shared_negative_of_disjoint (sig : Nat → Int) (E1 E2 : Nat) (h31 : E1 < 2 ^ 31)
    (h : E1 &&& E2 = 0) : shared_negative sig E1 E2 = 0 := by
  rw [shared_negative_eq_sum]
  apply Finset.sum_eq_zero
  intro i hi
  have hb := (and_eq_zero_iff_bits E1 E2 h31).mp h i hi
  simp [hb]

theorem or_eq_xor_of_disjoint {a b : Nat} (h : a &&& b = 0) : a ||| b = a ^^^ b := by
  apply Nat.eq_of_testBit_eq
  intro i
  have hi := congrArg (fun x => Nat.testBit x i) h
  simp only [Nat.testBit_and, Nat.zero_testBit] at hi
  rw [Nat.testBit_or, Nat.testBit_xor]
  cases ha : a.testBit i <;> cases hb : b.testBit i <;> simp_all

theorem and_not_eq_xor_of_subset {E1 E2 : Nat} (h1 : E1 < 2 ^ 64) (h2 : E2 < 2 ^ 64)
    (h : ∀ i, E1.testBit i = true → E2.testBit i = true) : and_not E2 E1 = E1 ^^^ E2 := by
  apply Nat.eq_of_testBit_eq
  intro j
  rw [testBit_and_not E2 h1 j, Nat.testBit_xor]
  cases ha : E1.testBit j with
  | true => rw [h j ha]; simp
  | false =>
    cases hb : E2.testBit j with
    | false => simp
    | true => simp [testBit_lt_of_lt h2 hb]

theorem shared_negative_of_subset (sig : Nat → Int) {E1 E2 : Nat}
    (h : ∀ i, E1.testBit i = true → E2.testBit i = true) :
    shared_negative sig E1 E2 = negative_count sig E1 := by
  rw [shared_negative_eq_sum, negative_count_eq_sum]
  refine Finset.sum_congr rfl (fun i hi => ?_)
  have hb : E2.testBit i = true := h i (mem_bits.mp hi).2
  simp [hb]

theorem xor_eq_sub_of_subset {a b : Nat} (h : a &&& b = a) : a ≤ b ∧ a ^^^ b = b - a := by
  have hx := xor_add_two_mul_and a b
  rw [h] at hx
  generalize a ^^^ b = x at hx
  omega

theorem inner_test_iff {E1 E2 : Nat} (h1 : E1 < 2 ^ 31) (h2 : E2 < 2 ^ 31) :
    E1 ^^^ E2 = to_size_t ((E2 : Int) - (E1 : Int)) ↔ E1 &&& E2 = E1 := by
  constructor
  · intro h
    rcases le_or_lt E1 E2 with hle | hlt
    · rw [to_size_t_sub_of_le hle h2] at h
      exact and_eq_left_of_xor_eq_sub hle h
    · have hbig := to_size_t_sub_of_lt hlt h1
      have hx : E1 ^^^ E2 < 2 ^ 31 := Nat.xor_lt_two_pow h1 h2
      omega
  · intro h
    obtain ⟨hle, hx⟩ := xor_eq_sub_of_subset h
    rw [to_size_t_sub_of_le hle h2]
    exact hx

theorem count_bits_xor_add (a b : Nat) :
    count_bits (a ^^^ b) + 2 * count_bits (a &&& b) = count_bits a + count_bits b := by
  rw [count_bits_eq_sum, count_bits_eq_sum, count_bits_eq_sum, count_bits_eq_sum,
    Finset.mul_sum, ← Finset.sum_add_distrib, ← Finset.sum_add_distrib]
  refine Finset.sum_congr rfl (fun i _ => ?_)
  rw [Nat.testBit_xor, Nat.testBit_and]
  cases ha : a.testBit i <;> cases hb : b.testBit i <;> simp

theorem count_bits_and_le (a b : Nat) : count_bits (a &&& b) ≤ count_bits a := by
  apply Finset.card_le_card
  intro i hi
  rw [mem_bits] at hi ⊢
  rw [Nat.testBit_and, Bool.and_eq_true] at hi
  exact ⟨hi.1, hi.2.1⟩

theorem and_eq_left_of_count_bits {a b : Nat} (ha : a < 2 ^ 64)
    (h : count_bits (a &&& b) = count_bits a) : a &&& b = a := by
  have hsub : bits (a &&& b) ⊆ bits a := by
    intro i hi
    rw [mem_bits] at hi ⊢
    rw [Nat.testBit_and, Bool.and_eq_true] at hi
    exact ⟨hi.1, hi.2.1⟩
  have heq : bits (a &&& b) = bits a := Finset.eq_of_subset_of_card_le hsub (le_of_eq h.symm)
  apply Nat.eq_of_testBit_eq
  intro i
  cases hai : a.testBit i with
  | false => rw [Nat.testBit_and, hai]; rfl
  | true =>
    have hmem : i ∈ bits a := (mem_bits_of_lt ha).mpr hai
    rw [← heq] at hmem
    exact (mem_bits.mp hmem).2

theorem grade_xor_iff {a b : Nat} (ha : a < 2 ^ 64) (hb : b < 2 ^ 64) :
    (grade (a ^^^ b) : Int) = |(grade b : Int) - (grade a : Int)|
      ↔ (a &&& b = a ∨ a &&& b = b) := by
  unfold grade
  have hsum := count_bits_xor_add a b
  have hle1 := count_bits_and_le a b
  have hle2 := count_bits_and_le b a
  rw [Nat.and_comm b a] at hle2
  constructor
  · intro h
    rcases le_total (count_bits a) (count_bits b) with hab | hab
    · rw [abs_of_nonneg (by omega)] at h
      exact Or.inl (and_eq_left_of_count_bits ha (by omega))
    · rw [abs_of_nonpos (by omega)] at h
      right
      rw [Nat.and_comm]
      apply and_eq_left_of_count_bits hb
      rw [Nat.and_comm]
      omega
  · intro h
    rcases h with h | h
    · have hc := count_bits_xor_of_subset h
      rw [abs_of_nonneg (by omega)]
      omega
    · rw [Nat.and_comm] at h
      have hc := count_bits_xor_of_subset h
      rw [Nat.xor_comm] at hc
      rw [abs_of_nonpos (by omega)]
      omega

/-- Closed form of the inner blade rule under a diagonal metric. -/
theorem inner_product_eq {M : Metric} {sig : Nat → Int} (hM : M.Diagonal sig)
    (E1 E2 : Nat) (h1 : E1 < 2 ^ 31) (h2 : E2 < 2 ^ 31) :
    inner_product M E1 E2
      = if E1 ≠ 0 ∧ E2 ≠ 0 ∧ (E1 &&& E2 = E1 ∨ E1 &&& E2 = E2) ∧
            ¬ ∃ i ∈ bits E1, E2.testBit i = true ∧ sig i = 0 then
          some (E1 ^^^ E2, (-1) ^ (inversions E1 E2 + shared_negative sig E1 E2))
        else some (0, 0) := by
  unfold inner_product
  by_cases hz : E1 = 0 ∨ E2 = 0
  · rw [if_pos hz, if_neg]
    rintro ⟨hz1, hz2, _⟩
    exact hz.elim hz1 hz2
  · rw [if_neg hz]
    have hz1 : E1 ≠ 0 := fun h => hz (Or.inl h)
    have hz2 : E2 ≠ 0 := fun h => hz (Or.inr h)
    have hgp := geometric_product_eq hM E1 E2 h1
    have hB : E1 ^^^ E2 = to_size_t ((E1 : Int) - (E2 : Int)) ↔ E1 &&& E2 = E2 := by
      rw [Nat.xor_comm, Nat.and_comm]
      exact inner_test_iff h2 h1
    by_cases hex : ∃ i ∈ bits E1, E2.testBit i = true ∧ sig i = 0
    · rw [if_pos hex] at hgp
      rw [hgp, static_cast_int_of_lt h1, static_cast_int_of_lt h2, int_checked_sub h1 h2]
      simp only
      have hneg : ¬ (E1 ≠ 0 ∧ E2 ≠ 0 ∧ (E1 &&& E2 = E1 ∨ E1 &&& E2 = E2) ∧
          ¬ ∃ i ∈ bits E1, E2.testBit i = true ∧ sig i = 0) := fun hc => hc.2.2.2 hex
      rw [if_neg hneg]
      by_cases hA : (0 : Nat) = to_size_t ((E2 : Int) - (E1 : Int))
      · rw [if_pos hA, if_neg (fun h => h rfl)]
      · rw [if_neg hA, neg_sub, int_checked_sub h2 h1]
        simp only
        rw [if_neg (fun hc => hc.2 rfl)]
    · rw [if_neg hex] at hgp
      rw [hgp, static_cast_int_of_lt h1, static_cast_int_of_lt h2, int_checked_sub h1 h2]
      simp only
      by_cases hA : E1 ^^^ E2 = to_size_t ((E2 : Int) - (E1 : Int))
      · rw [if_pos hA, if_pos (neg_one_pow_ne_zero _),
          if_pos ⟨hz1, hz2, Or.inl ((inner_test_iff h1 h2).mp hA), hex⟩]
      · rw [if_neg hA, neg_sub, int_checked_sub h2 h1]
        simp only
        by_cases hB2 : E1 ^^^ E2 = to_size_t ((E1 : Int) - (E2 : Int))
        · rw [if_pos ⟨hB2, neg_one_pow_ne_zero _⟩,
            if_pos ⟨hz1, hz2, Or.inr (hB.mp hB2), hex⟩]
        · rw [if_neg (fun hc => hB2 hc.1), if_neg]
          rintro ⟨_, _, hsub, _⟩
          rcases hsub with hs | hs
          · exact hA ((inner_test_iff h1 h2).mpr hs)
          · exact hB2 (hB.mpr hs)

/-- C25. Under a diagonal metric of any signature (degenerate ones included), for blades
that share no basis vector (`E1 AND E2 = 0`) the exterior blade rule and the geometric
blade rule return the same pair: the basis element `E1 OR E2`, which is then `E1 XOR E2`,
with the sign of the reordering permutation. -/
theorem exterior_product_eq_geometric_product (M : Metric) (sig : Nat → Int)
    (hM : M.Diagonal sig) (E1 E2 : Nat) (h31 : E1 < 2 ^ 31) (hd : E1 &&& E2 = 0) :
    exterior_product E1 E2 = geometric_product M E1 E2 ∧
    geometric_product M E1 E2 = some (E1 ||| E2, (-1) ^ inversions E1 E2) ∧
    E1 ||| E2 = E1 ^^^ E2 := by
  have hgp := geometric_product_eq hM E1 E2 h31
  have hno : ¬ ∃ i ∈ bits E1, E2.testBit i = true ∧ sig i = 0 := by
    rintro ⟨i, hi, hb, _⟩
    have hf := (and_eq_zero_iff_bits E1 E2 h31).mp hd i hi
    rw [hf] at hb
    exact Bool.noConfusion hb
  rw [if_neg hno, shared_negative_of_disjoint sig E1 E2 h31 hd, Nat.add_zero,
    ← or_eq_xor_of_disjoint hd] at hgp
  have hext := exterior_product_eq E1 E2 h31
  rw [if_neg (fun hc => hc hd)] at hext
  exact ⟨hext.trans hgp.symm, hgp, or_eq_xor_of_disjoint hd⟩

/-- Witness for C25: `e0` and `e1` in the degenerate metric whose every basis vector
squares to zero. -/
theorem exterior_product_eq_geometric_product_witness :
    (diagonal_metric 3 (fun _ => 0)).Diagonal (fun _ => 0) ∧ (1 : Nat) < 2 ^ 31 ∧
    (1 : Nat) &&& 2 = 0 ∧
    exterior_product 1 2 = geometric_product (diagonal_metric 3 (fun _ => 0)) 1 2 ∧
    geometric_product (diagonal_metric 3 (fun _ => 0)) 1 2
      = some (1 ||| 2, (-1) ^ inversions 1 2) ∧
    (1 : Nat) ||| 2 = 1 ^^^ 2 :=
  ⟨diagonal_metric_diagonal 3 _, by norm_num, by decide,
    exterior_product_eq_geometric_product (diagonal_metric 3 (fun _ => 0)) (fun _ => 0)
      (diagonal_metric_diagonal 3 _) 1 2 (by norm_num) (by decide)⟩

/-- C24. Under a diagonal metric the contraction blade rule is the geometric blade rule
restricted to nested blades: when every basis vector of `E1` is in `E2` the two rules
return the same pair (same element, same sign, zero in the same cases); when `E1` has a
basis vector absent from `E2` the contraction is the zero pair; and the grade test
`count_bits(E1) > count_bits(E2)` is redundant: the rule returns what its loop returns
without that test. -/
theorem contract_product_eq_geometric_product (M : Metric) (sig : Nat → Int)
    (hM : M.Diagonal sig) (E1 E2 : Nat) (h31 : E1 < 2 ^ 31) (h64 : E2 < 2 ^ 64) :
    ((∀ i, E1.testBit i = true → E2.testBit i = true) →
      contract_product M E1 E2 = geometric_product M E1 E2) ∧
    ((∃ i, E1.testBit i = true ∧ E2.testBit i = false) →
      contract_product M E1 E2 = some (0, 0)) ∧
    contract_product M E1 E2
      = (if E1 = 0 then some (E2, 1) else contract_loop M 64 E1 E2 0) := by
  have h164 : E1 < 2 ^ 64 := lt_trans h31 (by norm_num)
  have hc := contract_product_eq hM E1 E2 h31 h64
  refine ⟨fun hsub => ?_, fun hex => ?_, ?_⟩
  · have hgp := geometric_product_eq hM E1 E2 h31
    by_cases hz : ∃ i ∈ bits E1, E2.testBit i = true ∧ sig i = 0
    · have hnall : ¬ ∀ i ∈ bits E1, E2.testBit i = true ∧ sig i ≠ 0 := by
        obtain ⟨i, hi, _, hs⟩ := hz
        exact fun hall => (hall i hi).2 hs
      rw [if_pos hz] at hgp
      rw [if_neg hnall] at hc
      rw [hc, hgp]
    · have hall : ∀ i ∈ bits E1, E2.testBit i = true ∧ sig i ≠ 0 := by
        intro i hi
        have hb : E2.testBit i = true := hsub i (mem_bits.mp hi).2
        exact ⟨hb, fun hs => hz ⟨i, hi, hb, hs⟩⟩
      rw [if_neg hz] at hgp
      rw [if_pos hall] at hc
      rw [hc, hgp, and_not_eq_xor_of_subset h164 h64 hsub, shared_negative_of_subset sig hsub]
  · have hnall : ¬ ∀ i ∈ bits E1, E2.testBit i = true ∧ sig i ≠ 0 := by
      obtain ⟨i, hi, hf⟩ := hex
      intro hall
      have hb := (hall i ((mem_bits_of_lt h164).mpr hi)).1
      rw [hf] at hb
      exact Bool.noConfusion hb
    rw [if_neg hnall] at hc
    exact hc
  · by_cases h1 : E1 = 0
    · rw [if_pos h1]
      unfold contract_product
      rw [if_pos h1]
    · rw [if_neg h1, hc, contract_loop_eq hM E2 64 E1 E2 0 h164 h31 h64 (fun _ _ => rfl)]
      simp only [Nat.zero_add, sign_eq_neg_one_pow]

/-- Witness for C24: `e1` inside `e01`, in the metric with `e0² = 1`, `e1² = -1`. -/
theorem contract_product_eq_geometric_product_witness :
    (diagonal_metric 2 (fun i => if i = 1 then -1 else 1)).Diagonal
      (fun i => if i = 1 then -1 else 1) ∧ (2 : Nat) < 2 ^ 31 ∧ (3 : Nat) < 2 ^ 64 ∧
    ((∀ i, (2 : Nat).testBit i = true → (3 : Nat).testBit i = true) →
      contract_product (diagonal_metric 2 (fun i => if i = 1 then -1 else 1)) 2 3
        = geometric_product (diagonal_metric 2 (fun i => if i = 1 then -1 else 1)) 2 3) ∧
    ((∃ i, (2 : Nat).testBit i = true ∧ (3 : Nat).testBit i = false) →
      contract_product (diagonal_metric 2 (fun i => if i = 1 then -1 else 1)) 2 3
        = some (0, 0)) ∧
    contract_product (diagonal_metric 2 (fun i => if i = 1 then -1 else 1)) 2 3
      = (if (2 : Nat) = 0 then some (3, 1)
          else contract_loop (diagonal_metric 2 (fun i => if i = 1 then -1 else 1)) 64 2 3 0) :=
  ⟨diagonal_metric_diagonal 2 _, by norm_num, by norm_num,
    contract_product_eq_geometric_product
      (diagonal_metric 2 (fun i => if i = 1 then -1 else 1))
      (fun i => if i = 1 then -1 else 1) (diagonal_metric_diagonal 2 _) 2 3
      (by norm_num) (by norm_num)⟩

/-- C23. Under a diagonal metric and for blade bitmasks below `2^31`, `inner_product`
always returns a pair, and that pair is non-zero exactly when `E1 ≠ 0`, `E2 ≠ 0`, one
blade is contained in the other (`E1 AND E2` is `E1` or `E2`) and no shared basis vector
squares to zero; equivalently, exactly when both blades are non-scalar and the geometric
product is non-zero with grade `|grade(E2) - grade(E1)|`.  A non-zero inner product is
the geometric product, and a scalar operand (`E = 0`) always gives the zero pair. -/
theorem inner_product_nonzero_iff (M : Metric) (sig : Nat → Int) (hM : M.Diagonal sig)
    (E1 E2 : Nat) (h1 : E1 < 2 ^ 31) (h2 : E2 < 2 ^ 31) :
    (∃ r, inner_product M E1 E2 = some r) ∧
    ((∃ r, inner_product M E1 E2 = some r ∧ r.2 ≠ 0) ↔
      E1 ≠ 0 ∧ E2 ≠ 0 ∧ (E1 &&& E2 = E1 ∨ E1 &&& E2 = E2) ∧
        ¬ ∃ i, E1.testBit i = true ∧ E2.testBit i = true ∧ sig i = 0) ∧
    ((∃ r, inner_product M E1 E2 = some r ∧ r.2 ≠ 0) ↔
      E1 ≠ 0 ∧ E2 ≠ 0 ∧ ∃ g, geometric_product M E1 E2 = some g ∧ g.2 ≠ 0 ∧
        (grade g.1 : Int) = |(grade E2 : Int) - (grade E1 : Int)|) ∧
    (∀ r, inner_product M E1 E2 = some r → r.2 ≠ 0 → geometric_product M E1 E2 = some r) ∧
    (E1 = 0 ∨ E2 = 0 → inner_product M E1 E2 = some (0, 0)) := by
  have h164 : E1 < 2 ^ 64 := lt_trans h1 (by norm_num)
  have h264 : E2 < 2 ^ 64 := lt_trans h2 (by norm_num)
  have hin := inner_product_eq hM E1 E2 h1 h2
  have hgp := geometric_product_eq hM E1 E2 h1
  have hzero : (∃ i ∈ bits E1, E2.testBit i = true ∧ sig i = 0) ↔
      ∃ i, E1.testBit i = true ∧ E2.testBit i = true ∧ sig i = 0 :=
    ⟨fun ⟨i, hi, hb, hs⟩ => ⟨i, (mem_bits.mp hi).2, hb, hs⟩,
      fun ⟨i, ha, hb, hs⟩ => ⟨i, (mem_bits_of_lt h164).mpr ha, hb, hs⟩⟩
  by_cases hc : E1 ≠ 0 ∧ E2 ≠ 0 ∧ (E1 &&& E2 = E1 ∨ E1 &&& E2 = E2) ∧
      ¬ ∃ i ∈ bits E1, E2.testBit i = true ∧ sig i = 0
  · rw [if_pos hc] at hin
    rw [if_neg hc.2.2.2] at hgp
    have hnz : ∃ r, inner_product M E1 E2 = some r ∧ r.2 ≠ 0 :=
      ⟨_, hin, neg_one_pow_ne_zero _⟩
    refine ⟨⟨_, hin⟩, ⟨fun _ => ⟨hc.1, hc.2.1, hc.2.2.1, fun h => hc.2.2.2 (hzero.mpr h)⟩,
      fun _ => hnz⟩, ⟨fun _ => ⟨hc.1, hc.2.1, _, hgp, neg_one_pow_ne_zero _,
        (grade_xor_iff h164 h264).mpr hc.2.2.1⟩, fun _ => hnz⟩, ?_, ?_⟩
    · intro r hr _
      rw [hin] at hr
      rw [hgp, ← Option.some.inj hr]
    · intro hz
      exact absurd hz (fun h => h.elim hc.1 hc.2.1)
  · rw [if_neg hc] at hin
    have hnz : ¬ ∃ r, inner_product M E1 E2 = some r ∧ r.2 ≠ 0 := by
      rintro ⟨r, hr, hr2⟩
      rw [hin] at hr
      rw [← Option.some.inj hr] at hr2
      exact hr2 rfl
    refine ⟨⟨_, hin⟩, ⟨fun h => absurd h hnz, fun h => absurd
        ⟨h.1, h.2.1, h.2.2.1, fun hz => h.2.2.2 (hzero.mp hz)⟩ hc⟩,
      ⟨fun h => absurd h hnz, ?_⟩, ?_, fun _ => hin⟩
    · rintro ⟨hz1, hz2, g, hg, hg2, hgrade⟩
      by_cases hex : ∃ i ∈ bits E1, E2.testBit i = true ∧ sig i = 0
      · rw [if_pos hex] at hgp
        rw [hgp] at hg
        rw [← Option.some.inj hg] at hg2
        exact absurd rfl hg2
      · rw [if_neg hex] at hgp
        rw [hgp] at hg
        rw [← Option.some.inj hg] at hgrade
        exact absurd ⟨hz1, hz2, (grade_xor_iff h164 h264).mp hgrade, hex⟩ hc
    · intro r hr hr2
      exact absurd ⟨r, hr, hr2⟩ hnz

/-- Witness for C23: the Euclidean inner product of `e0` with `e01`. -/
theorem inner_product_nonzero_iff_witness :
    (diagonal_metric 3 (fun _ => 1)).Diagonal (fun _ => 1) ∧ (1 : Nat) < 2 ^ 31 ∧
    (3 : Nat) < 2 ^ 31 ∧
    (∃ r, inner_product (diagonal_metric 3 (fun _ => 1)) 1 3 = some r) ∧
    ((∃ r, inner_product (diagonal_metric 3 (fun _ => 1)) 1 3 = some r ∧ r.2 ≠ 0) ↔
      (1 : Nat) ≠ 0 ∧ (3 : Nat) ≠ 0 ∧ ((1 : Nat) &&& 3 = 1 ∨ (1 : Nat) &&& 3 = 3) ∧
        ¬ ∃ i, (1 : Nat).testBit i = true ∧ (3 : Nat).testBit i = true ∧
          (fun _ => (1 : Int)) i = 0) ∧
    ((∃ r, inner_product (diagonal_metric 3 (fun _ => 1)) 1 3 = some r ∧ r.2 ≠ 0) ↔
      (1 : Nat) ≠ 0 ∧ (3 : Nat) ≠ 0 ∧
        ∃ g, geometric_product (diagonal_metric 3 (fun _ => 1)) 1 3 = some g ∧ g.2 ≠ 0 ∧
          (grade g.1 : Int) = |(grade 3 : Int) - (grade 1 : Int)|) ∧
    (∀ r, inner_product (diagonal_metric 3 (fun _ => 1)) 1 3 = some r → r.2 ≠ 0 →
      geometric_product (diagonal_metric 3 (fun _ => 1)) 1 3 = some r) ∧
    ((1 : Nat) = 0 ∨ (3 : Nat) = 0 →
      inner_product (diagonal_metric 3 (fun _ => 1)) 1 3 = some (0, 0)) :=
  ⟨diagonal_metric_diagonal 3 _, by norm_num, by norm_num,
    inner_product_nonzero_iff (diagonal_metric 3 (fun _ => 1)) (fun _ => 1)
      (diagonal_metric_diagonal 3 _) 1 3 (by norm_num) (by norm_num)⟩

/-! ## Associativity of the blade-level geometric product -/

theorem sum_bits_eq_sum_range (x : Nat) (f : Nat → Nat) :
    ∑ i ∈ bits x, f i = ∑ i ∈ Finset.range 64, (if x.testBit i = true then f i else 0) := by
  unfold bits
  rw [Finset.sum_filter]

theorem card_filter_bits_eq_sum (y : Nat) (p : Nat → Prop) [DecidablePred p] :
    ((bits y).filter p).card
      = ∑ j ∈ Finset.range 64, (if y.testBit j = true then (if p j then 1 else 0) else 0) := by
  rw [Finset.card_filter, sum_bits_eq_sum_range]

theorem ite_xor_add (a b : Bool) (n : Nat) :
    (if (a ^^ b) = true then n else 0) + 2 * (if (a && b) = true then n else 0)
      = (if a = true then n else 0) + (if b = true then n else 0) := by
  cases a <;> cases b <;> simp [two_mul]

theorem inversions_xor_left (A B C : Nat) :
    inversions (A ^^^ B) C + 2 * inversions (A &&& B) C = inversions A C + inversions B C := by
  rw [inversions_eq_sum, inversions_eq_sum, inversions_eq_sum, inversions_eq_sum,
    sum_bits_eq_sum_range, sum_bits_eq_sum_range, sum_bits_eq_sum_range, sum_bits_eq_sum_range,
    Finset.mul_sum, ← Finset.sum_add_distrib, ← Finset.sum_add_distrib]
  refine Finset.sum_congr rfl (fun i _ => ?_)
  rw [Nat.testBit_xor, Nat.testBit_and]
  exact ite_xor_add _ _ _

theorem inversions_xor_right (A B C : Nat) :
    inversions A (B ^^^ C) + 2 * inversions A (B &&& C) = inversions A B + inversions A C := by
  rw [inversions_eq_sum, inversions_eq_sum, inversions_eq_sum, inversions_eq_sum,
    Finset.mul_sum, ← Finset.sum_add_distrib, ← Finset.sum_add_distrib]
  refine Finset.sum_congr rfl (fun i _ => ?_)
  rw [card_filter_bits_eq_sum, card_filter_bits_eq_sum, card_filter_bits_eq_sum,
    card_filter_bits_eq_sum, Finset.mul_sum, ← Finset.sum_add_distrib,
    ← Finset.sum_add_distrib]
  refine Finset.sum_congr rfl (fun j _ => ?_)
  rw [Nat.testBit_xor, Nat.testBit_and]
  exact ite_xor_add _ _ _

theorem shared_negative_xor_left (sig : Nat → Int) (A B C : Nat) :
    shared_negative sig (A ^^^ B) C + 2 * shared_negative sig (A &&& B) C
      = shared_negative sig A C + shared_negative sig B C := by
  rw [shared_negative_eq_sum, shared_negative_eq_sum, shared_negative_eq_sum,
    shared_negative_eq_sum,
    sum_bits_eq_sum_range, sum_bits_eq_sum_range, sum_bits_eq_sum_range, sum_bits_eq_sum_range,
    Finset.mul_sum, ← Finset.sum_add_distrib, ← Finset.sum_add_distrib]
  refine Finset.sum_congr rfl (fun i _ => ?_)
  rw [Nat.testBit_xor, Nat.testBit_and]
  exact ite_xor_add _ _ _

theorem shared_negative_xor_right (sig : Nat → Int) (A B C : Nat) :
    shared_negative sig A (B ^^^ C) + 2 * shared_negative sig A (B &&& C)
      = shared_negative sig A B + shared_negative sig A C := by
  rw [shared_negative_eq_sum, shared_negative_eq_sum, shared_negative_eq_sum,
    shared_negative_eq_sum, Finset.mul_sum, ← Finset.sum_add_distrib,
    ← Finset.sum_add_distrib]
  refine Finset.sum_congr rfl (fun i _ => ?_)
  rw [Nat.testBit_xor, Nat.testBit_and]
  by_cases hs : sig i = -1
  · simp only [hs, and_true]
    exact ite_xor_add _ _ _
  · simp [hs]

theorem neg_one_pow_congr {m n : Nat} (h : m % 2 = n % 2) : ((-1 : Int)) ^ m = (-1) ^ n := by
  have h1 : ((-1 : Int)) ^ m = (-1) ^ (m % 2) := neg_one_pow_eq_pow_mod_two m
  have h2 : ((-1 : Int)) ^ n = (-1) ^ (n % 2) := neg_one_pow_eq_pow_mod_two n
  rw [h1, h2, h]

/-- A zero-square vector shared by `A XOR B` and `C`, when `A` and `B` share none, is one
shared by `A` and `C` or by `B` and `C`. -/
theorem shared_zero_xor_left (sig : Nat → Int) (A B C : Nat)
    (hab : ¬ ∃ i ∈ bits A, B.testBit i = true ∧ sig i = 0) :
    (∃ i ∈ bits (A ^^^ B), C.testBit i = true ∧ sig i = 0) ↔
      (∃ i ∈ bits A, C.testBit i = true ∧ sig i = 0) ∨
      (∃ i ∈ bits B, C.testBit i = true ∧ sig i = 0) := by
  constructor
  · rintro ⟨i, hi, hc, hs⟩
    rw [mem_bits, Nat.testBit_xor] at hi
    cases ha : A.testBit i with
    | true => exact Or.inl ⟨i, mem_bits.mpr ⟨hi.1, ha⟩, hc, hs⟩
    | false =>
      have hb : B.testBit i = true := by
        have h2 := hi.2
        rw [ha] at h2
        simpa using h2
      exact Or.inr ⟨i, mem_bits.mpr ⟨hi.1, hb⟩, hc, hs⟩
  · rintro (⟨i, hi, hc, hs⟩ | ⟨i, hi, hc, hs⟩)
    · have hi2 := mem_bits.mp hi
      have hb : B.testBit i = false := by
        cases hb : B.testBit i with
        | false => rfl
        | true => exact absurd ⟨i, hi, hb, hs⟩ hab
      refine ⟨i, mem_bits.mpr ⟨hi2.1, ?_⟩, hc, hs⟩
      rw [Nat.testBit_xor, hi2.2, hb]
      rfl
    · have hi2 := mem_bits.mp hi
      have ha : A.testBit i = false := by
        cases ha : A.testBit i with
        | false => rfl
        | true => exact absurd ⟨i, mem_bits.mpr ⟨hi2.1, ha⟩, hi2.2, hs⟩ hab
      refine ⟨i, mem_bits.mpr ⟨hi2.1, ?_⟩, hc, hs⟩
      rw [Nat.testBit_xor, hi2.2, ha]
      rfl

/-- A zero-square vector shared by `A` and `B XOR C`, when `B` and `C` share none, is one
shared by `A` and `B` or by `A` and `C`. -/
theorem shared_zero_xor_right (sig : Nat → Int) (A B C : Nat)
    (hbc : ¬ ∃ i ∈ bits B, C.testBit i = true ∧ sig i = 0) :
    (∃ i ∈ bits A, (B ^^^ C).testBit i = true ∧ sig i = 0) ↔
      (∃ i ∈ bits A, B.testBit i = true ∧ sig i = 0) ∨
      (∃ i ∈ bits A, C.testBit i = true ∧ sig i = 0) := by
  constructor
  · rintro ⟨i, hi, hx, hs⟩
    rw [Nat.testBit_xor] at hx
    cases hb : B.testBit i with
    | true => exact Or.inl ⟨i, hi, hb, hs⟩
    | false =>
      rw [hb] at hx
      exact Or.inr ⟨i, hi, by simpa using hx, hs⟩
  · rintro (⟨i, hi, hb, hs⟩ | ⟨i, hi, hc, hs⟩)
    · have hi2 := mem_bits.mp hi
      have hc : C.testBit i = false := by
        cases hc : C.testBit i with
        | false => rfl
        | true => exact absurd ⟨i, mem_bits.mpr ⟨hi2.1, hb⟩, hc, hs⟩ hbc
      refine ⟨i, hi, ?_, hs⟩
      rw [Nat.testBit_xor, hb, hc]
      rfl
    · have hi2 := mem_bits.mp hi
      have hb : B.testBit i = false := by
        cases hb : B.testBit i with
        | false => rfl
        | true => exact absurd ⟨i, mem_bits.mpr ⟨hi2.1, hb⟩, hc, hs⟩ hbc
      refine ⟨i, hi, ?_, hs⟩
      rw [Nat.testBit_xor, hb, hc]
      rfl

/-- Closed form of `(A * B) * C` on blades under a diagonal metric. -/
theorem geometric_product_left_eq {M : Metric} {sig : Nat → Int} (hM : M.Diagonal sig)
    (A B C : Nat) (hA : A < 2 ^ 31) (hB : B < 2 ^ 31) :
    geometric_product_left M A B C
      = if (∃ i ∈ bits A, B.testBit i = true ∧ sig i = 0) ∨
            (∃ i ∈ bits A, C.testBit i = true ∧ sig i = 0) ∨
            (∃ i ∈ bits B, C.testBit i = true ∧ sig i = 0) then some (0, 0)
        else some (A ^^^ B ^^^ C,
          (-1) ^ (inversions A B + inversions A C + inversions B C
            + shared_negative sig A B + shared_negative sig A C + shared_negative sig B C)) := by
  unfold geometric_product_left
  rw [geometric_product_eq hM A B hA]
  by_cases hab : ∃ i ∈ bits A, B.testBit i = true ∧ sig i = 0
  · rw [if_pos hab, if_pos (Or.inl hab)]
    simp only
    rw [if_pos trivial]
  · rw [if_neg hab]
    simp only
    rw [if_neg (neg_one_pow_ne_zero _),
      geometric_product_eq hM (A ^^^ B) C (Nat.xor_lt_two_pow hA hB)]
    have hz := shared_zero_xor_left sig A B C hab
    by_cases hx : ∃ i ∈ bits (A ^^^ B), C.testBit i = true ∧ sig i = 0
    · rw [if_pos hx, if_pos (Or.inr (hz.mp hx))]
      simp only
      rw [if_pos trivial]
    · have hno : ¬ ((∃ i ∈ bits A, B.testBit i = true ∧ sig i = 0) ∨
          (∃ i ∈ bits A, C.testBit i = true ∧ sig i = 0) ∨
          (∃ i ∈ bits B, C.testBit i = true ∧ sig i = 0)) := by
        rintro (h | h)
        · exact hab h
        · exact hx (hz.mpr h)
      rw [if_neg hx, if_neg hno]
      simp only
      rw [if_neg (neg_one_pow_ne_zero _), ← pow_add]
      have h1 := inversions_xor_left A B C
      have h2 := shared_negative_xor_left sig A B C
      rw [neg_one_pow_congr (show (inversions A B + shared_negative sig A B
          + (inversions (A ^^^ B) C + shared_negative sig (A ^^^ B) C)) % 2
        = (inversions A B + inversions A C + inversions B C
            + shared_negative sig A B + shared_negative sig A C
            + shared_negative sig B C) % 2 by omega)]

/-- Closed form of `A * (B * C)` on blades under a diagonal metric. -/
theorem geometric_product_right_eq {M : Metric} {sig : Nat → Int} (hM : M.Diagonal sig)
    (A B C : Nat) (hA : A < 2 ^ 31) (hB : B < 2 ^ 31) :
    geometric_product_right M A B C
      = if (∃ i ∈ bits A, B.testBit i = true ∧ sig i = 0) ∨
            (∃ i ∈ bits A, C.testBit i = true ∧ sig i = 0) ∨
            (∃ i ∈ bits B, C.testBit i = true ∧ sig i = 0) then some (0, 0)
        else some (A ^^^ B ^^^ C,
          (-1) ^ (inversions A B + inversions A C + inversions B C
            + shared_negative sig A B + shared_negative sig A C + shared_negative sig B C)) := by
  unfold geometric_product_right
  rw [geometric_product_eq hM B C hB]
  by_cases hbc : ∃ i ∈ bits B, C.testBit i = true ∧ sig i = 0
  · rw [if_pos hbc, if_pos (Or.inr (Or.inr hbc))]
    simp only
    rw [if_pos trivial]
  · rw [if_neg hbc]
    simp only
    rw [if_neg (neg_one_pow_ne_zero _), geometric_product_eq hM A (B ^^^ C) hA]
    have hz := shared_zero_xor_right sig A B C hbc
    by_cases hx : ∃ i ∈ bits A, (B ^^^ C).testBit i = true ∧ sig i = 0
    · have hyes : (∃ i ∈ bits A, B.testBit i = true ∧ sig i = 0) ∨
          (∃ i ∈ bits A, C.testBit i = true ∧ sig i = 0) ∨
          (∃ i ∈ bits B, C.testBit i = true ∧ sig i = 0) := by
        rcases hz.mp hx with h | h
        · exact Or.inl h
        · exact Or.inr (Or.inl h)
      rw [if_pos hx, if_pos hyes]
      simp only
      rw [if_pos trivial]
    · have hno : ¬ ((∃ i ∈ bits A, B.testBit i = true ∧ sig i = 0) ∨
          (∃ i ∈ bits A, C.testBit i = true ∧ sig i = 0) ∨
          (∃ i ∈ bits B, C.testBit i = true ∧ sig i = 0)) := by
        rintro (h | h | h)
        · exact hx (hz.mpr (Or.inl h))
        · exact hx (hz.mpr (Or.inr h))
        · exact hbc h
      rw [if_neg hx, if_neg hno]
      simp only
      rw [if_neg (neg_one_pow_ne_zero _), ← pow_add, Nat.xor_assoc]
      have h1 := inversions_xor_right A B C
      have h2 := shared_negative_xor_right sig A B C
      rw [neg_one_pow_congr (show (inversions B C + shared_negative sig B C
          + (inversions A (B ^^^ C) + shared_negative sig A (B ^^^ C))) % 2
        = (inversions A B + inversions A C + inversions B C
            + shared_negative sig A B + shared_negative sig A C
            + shared_negative sig B C) % 2 by omega)]

/-! ## Products of constant-coefficient blades -/

theorem detail_product_nil_left (rule : term → term → Option multivector)
    (rhs : multivector) : detail.product rule [] rhs = some [] := rfl

theorem sign_left (sig : Nat → Int) (A B C : Nat) :
    ((-1 : Int)) ^ (inversions A B + shared_negative sig A B)
        * (-1) ^ (inversions (A ^^^ B) C + shared_negative sig (A ^^^ B) C)
      = (-1) ^ (inversions A B + inversions A C + inversions B C
          + shared_negative sig A B + shared_negative sig A C + shared_negative sig B C) := by
  have h1 := inversions_xor_left A B C
  have h2 := shared_negative_xor_left sig A B C
  rw [← pow_add]
  exact neg_one_pow_congr (by omega)

theorem sign_right (sig : Nat → Int) (A B C : Nat) :
    ((-1 : Int)) ^ (inversions B C + shared_negative sig B C)
        * (-1) ^ (inversions A (B ^^^ C) + shared_negative sig A (B ^^^ C))
      = (-1) ^ (inversions A B + inversions A C + inversions B C
          + shared_negative sig A B + shared_negative sig A C + shared_negative sig B C) := by
  have h1 := inversions_xor_right A B C
  have h2 := shared_negative_xor_right sig A B C
  rw [← pow_add]
  exact neg_one_pow_congr (by omega)

/-- The term rule `product_diagonal` on two blades with constant coefficients. -/
theorem product_diagonal_blade {M : Metric} {sig : Nat → Int} (hM : M.Diagonal sig)
    (A B : Nat) (p q : Rat) (hA : A < 2 ^ 31) :
    geometric.product_diagonal M ⟨A, [⟨p, []⟩]⟩ ⟨B, [⟨q, []⟩]⟩
      = if ∃ i ∈ bits A, B.testBit i = true ∧ sig i = 0 then some []
        else some [⟨A ^^^ B,
          [⟨(((-1 : Int) ^ (inversions A B + shared_negative sig A B) : Int) : Rat) * (p * q),
            []⟩]⟩] := by
  unfold geometric.product_diagonal
  simp only
  rw [geometric_product_eq hM A B hA]
  by_cases hz : ∃ i ∈ bits A, B.testBit i = true ∧ sig i = 0
  · rw [if_pos hz, if_pos hz]
    simp only
    rw [if_pos trivial]
  · rw [if_neg hz, if_neg hz]
    simp only
    rw [term_rule_eq ⟨A, [⟨p, []⟩]⟩ ⟨B, [⟨q, []⟩]⟩ (A ^^^ B) _
      (by
        rcases neg_one_pow_eq_or Int (inversions A B + shared_negative sig A B) with h | h
        · exact Or.inr (Or.inr h)
        · exact Or.inl h),
      if_neg (neg_one_pow_ne_zero _)]
    rfl

/-- The operator `*` on two single blades with constant coefficients. -/
theorem operator_mul_blade {M : Metric} {sig : Nat → Int} (hM : M.Diagonal sig)
    (A B : Nat) (p q : Rat) (hA : A < 2 ^ 31) :
    operator_mul M [⟨A, [⟨p, []⟩]⟩] [⟨B, [⟨q, []⟩]⟩]
      = if ∃ i ∈ bits A, B.testBit i = true ∧ sig i = 0 then some []
        else some [⟨A ^^^ B,
          [⟨(((-1 : Int) ^ (inversions A B + shared_negative sig A B) : Int) : Rat) * (p * q),
            []⟩]⟩] := by
  unfold operator_mul
  rw [detail_product_singleton, product_diagonal_blade hM A B p q hA]
  by_cases hz : ∃ i ∈ bits A, B.testBit i = true ∧ sig i = 0
  · rw [if_pos hz]
    rfl
  · rw [if_neg hz]
    rfl

/-- The product `(a * b) * c` of three single blades with constant coefficients. -/
theorem operator_mul_left_blade {M : Metric} {sig : Nat → Int} (hM : M.Diagonal sig)
    (A B C : Nat) (p q r : Rat) (hA : A < 2 ^ 31) (hB : B < 2 ^ 31) :
    (operator_mul M [⟨A, [⟨p, []⟩]⟩] [⟨B, [⟨q, []⟩]⟩]).bind
        (fun ab => operator_mul M ab [⟨C, [⟨r, []⟩]⟩])
      = if (∃ i ∈ bits A, B.testBit i = true ∧ sig i = 0) ∨
            (∃ i ∈ bits A, C.testBit i = true ∧ sig i = 0) ∨
            (∃ i ∈ bits B, C.testBit i = true ∧ sig i = 0) then some []
        else some [⟨A ^^^ B ^^^ C,
          [⟨(((-1 : Int) ^ (inversions A B + inversions A C + inversions B C
              + shared_negative sig A B + shared_negative sig A C
              + shared_negative sig B C) : Int) : Rat) * (p * q * r), []⟩]⟩] := by
  rw [operator_mul_blade hM A B p q hA]
  by_cases hab : ∃ i ∈ bits A, B.testBit i = true ∧ sig i = 0
  · rw [if_pos hab, if_pos (Or.inl hab)]
    rfl
  · rw [if_neg hab, Option.some_bind,
      operator_mul_blade hM (A ^^^ B) C _ r (Nat.xor_lt_two_pow hA hB)]
    have hz := shared_zero_xor_left sig A B C hab
    by_cases hx : ∃ i ∈ bits (A ^^^ B), C.testBit i = true ∧ sig i = 0
    · rw [if_pos hx, if_pos (Or.inr (hz.mp hx))]
    · have hno : ¬ ((∃ i ∈ bits A, B.testBit i = true ∧ sig i = 0) ∨
          (∃ i ∈ bits A, C.testBit i = true ∧ sig i = 0) ∨
          (∃ i ∈ bits B, C.testBit i = true ∧ sig i = 0)) := by
        rintro (h | h)
        · exact hab h
        · exact hx (hz.mpr h)
      rw [if_neg hx, if_neg hno, ← sign_left sig A B C]
      congr 5
      push_cast
      ring

/-- The product `a * (b * c)` of three single blades with constant coefficients. -/
theorem operator_mul_right_blade {M : Metric} {sig : Nat → Int} (hM : M.Diagonal sig)
    (A B C : Nat) (p q r : Rat) (hA : A < 2 ^ 31) (hB : B < 2 ^ 31) :
    (operator_mul M [⟨B, [⟨q, []⟩]⟩] [⟨C, [⟨r, []⟩]⟩]).bind
        (fun bc => operator_mul M [⟨A, [⟨p, []⟩]⟩] bc)
      = if (∃ i ∈ bits A, B.testBit i = true ∧ sig i = 0) ∨
            (∃ i ∈ bits A, C.testBit i = true ∧ sig i = 0) ∨
            (∃ i ∈ bits B, C.testBit i = true ∧ sig i = 0) then some []
        else some [⟨A ^^^ B ^^^ C,
          [⟨(((-1 : Int) ^ (inversions A B + inversions A C + inversions B C
              + shared_negative sig A B + shared_negative sig A C
              + shared_negative sig B C) : Int) : Rat) * (p * q * r), []⟩]⟩] := by
  rw [operator_mul_blade hM B C q r hB]
  by_cases hbc : ∃ i ∈ bits B, C.testBit i = true ∧ sig i = 0
  · rw [if_pos hbc, if_pos (Or.inr (Or.inr hbc))]
    rfl
  · rw [if_neg hbc, Option.some_bind, operator_mul_blade hM A (B ^^^ C) p _ hA]
    have hz := shared_zero_xor_right sig A B C hbc
    by_cases hx : ∃ i ∈ bits A, (B ^^^ C).testBit i = true ∧ sig i = 0
    · have hyes : (∃ i ∈ bits A, B.testBit i = true ∧ sig i = 0) ∨
          (∃ i ∈ bits A, C.testBit i = true ∧ sig i = 0) ∨
          (∃ i ∈ bits B, C.testBit i = true ∧ sig i = 0) := by
        rcases hz.mp hx with h | h
        · exact Or.inl h
        · exact Or.inr (Or.inl h)
      rw [if_pos hx, if_pos hyes]
    · have hno : ¬ ((∃ i ∈ bits A, B.testBit i = true ∧ sig i = 0) ∨
          (∃ i ∈ bits A, C.testBit i = true ∧ sig i = 0) ∨
          (∃ i ∈ bits B, C.testBit i = true ∧ sig i = 0)) := by
        rintro (h | h | h)
        · exact hx (hz.mpr (Or.inl h))
        · exact hx (hz.mpr (Or.inr h))
        · exact hbc h
      rw [if_neg hx, if_neg hno, ← sign_right sig A B C, Nat.xor_assoc]
      congr 5
      push_cast
      ring

/-- C26. Under a diagonal metric the blade-level geometric product is associative:
composing `geometric_product` as `(A * B) * C` and as `A * (B * C)` gives the same pair.
That pair is zero exactly when a zero-square basis vector lies in two of the three
blades, and otherwise has basis element `A XOR B XOR C` and sign `±1`, the product of the
two signs along either bracketing.  Consequently the product of three single blades with
constant coefficients, and the sandwich `action * subject * reverse(action)` of unit
blades, do not depend on the bracketing. -/
theorem geometric_product_associative (M : Metric) (sig : Nat → Int) (hM : M.Diagonal sig)
    (A B C : Nat) (hA : A < 2 ^ 31) (hB : B < 2 ^ 31) :
    geometric_product_left M A B C = geometric_product_right M A B C ∧
    (∃ r, geometric_product_left M A B C = some r ∧
      (r.2 = 0 ↔ ∃ i, sig i = 0 ∧ ((A.testBit i = true ∧ B.testBit i = true) ∨
        (A.testBit i = true ∧ C.testBit i = true) ∨
        (B.testBit i = true ∧ C.testBit i = true))) ∧
      (r.2 = 0 → r = (0, 0)) ∧
      (r.2 ≠ 0 → r.1 = A ^^^ B ^^^ C ∧ (r.2 = 1 ∨ r.2 = -1))) ∧
    (∀ p q r : Rat,
      (operator_mul M [⟨A, [⟨p, []⟩]⟩] [⟨B, [⟨q, []⟩]⟩]).bind
          (fun ab => operator_mul M ab [⟨C, [⟨r, []⟩]⟩])
        = (operator_mul M [⟨B, [⟨q, []⟩]⟩] [⟨C, [⟨r, []⟩]⟩]).bind
          (fun bc => operator_mul M [⟨A, [⟨p, []⟩]⟩] bc)) ∧
    conjugate M [⟨A, [⟨1, []⟩]⟩] [⟨B, [⟨1, []⟩]⟩]
      = conjugate_right M [⟨A, [⟨1, []⟩]⟩] [⟨B, [⟨1, []⟩]⟩] := by
  have hA64 : A < 2 ^ 64 := lt_trans hA (by norm_num)
  have hB64 : B < 2 ^ 64 := lt_trans hB (by norm_num)
  have hl := geometric_product_left_eq hM A B C hA hB
  have hr := geometric_product_right_eq hM A B C hA hB
  have hzero : ((∃ i ∈ bits A, B.testBit i = true ∧ sig i = 0) ∨
      (∃ i ∈ bits A, C.testBit i = true ∧ sig i = 0) ∨
      (∃ i ∈ bits B, C.testBit i = true ∧ sig i = 0)) ↔
      ∃ i, sig i = 0 ∧ ((A.testBit i = true ∧ B.testBit i = true) ∨
        (A.testBit i = true ∧ C.testBit i = true) ∨
        (B.testBit i = true ∧ C.testBit i = true)) := by
    constructor
    · rintro (⟨i, hi, hb, hs⟩ | ⟨i, hi, hc, hs⟩ | ⟨i, hi, hc, hs⟩)
      · exact ⟨i, hs, Or.inl ⟨(mem_bits.mp hi).2, hb⟩⟩
      · exact ⟨i, hs, Or.inr (Or.inl ⟨(mem_bits.mp hi).2, hc⟩)⟩
      · exact ⟨i, hs, Or.inr (Or.inr ⟨(mem_bits.mp hi).2, hc⟩)⟩
    · rintro ⟨i, hs, (⟨ha, hb⟩ | ⟨ha, hc⟩ | ⟨hb, hc⟩)⟩
      · exact Or.inl ⟨i, (mem_bits_of_lt hA64).mpr ha, hb, hs⟩
      · exact Or.inr (Or.inl ⟨i, (mem_bits_of_lt hA64).mpr ha, hc, hs⟩)
      · exact Or.inr (Or.inr ⟨i, (mem_bits_of_lt hB64).mpr hb, hc, hs⟩)
  refine ⟨hl.trans hr.symm, ?_, fun p q r => ?_, ?_⟩
  · by_cases hz : (∃ i ∈ bits A, B.testBit i = true ∧ sig i = 0) ∨
        (∃ i ∈ bits A, C.testBit i = true ∧ sig i = 0) ∨
        (∃ i ∈ bits B, C.testBit i = true ∧ sig i = 0)
    · rw [if_pos hz] at hl
      exact ⟨(0, 0), hl, ⟨fun _ => hzero.mp hz, fun _ => rfl⟩, fun _ => rfl,
        fun h => absurd rfl h⟩
    · rw [if_neg hz] at hl
      refine ⟨_, hl, ⟨fun h => absurd h (neg_one_pow_ne_zero _),
        fun h => absurd (hzero.mpr h) hz⟩, fun h => absurd h (neg_one_pow_ne_zero _),
        fun _ => ⟨rfl, neg_one_pow_eq_or Int _⟩⟩
  · rw [operator_mul_left_blade hM A B C p q r hA hB,
      operator_mul_right_blade hM A B C p q r hA hB]
  · have hrev : ∃ c : Rat, reverse_multivector [(⟨A, [⟨1, []⟩]⟩ : term)] = [⟨A, [⟨c, []⟩]⟩] := by
      show ∃ c : Rat, [reverse (⟨A, [⟨1, []⟩]⟩ : term)] = [⟨A, [⟨c, []⟩]⟩]
      rw [reverse_eq]
      by_cases hg : grade A % 4 = 2 ∨ grade A % 4 = 3
      · rw [if_pos hg]
        exact ⟨-1, rfl⟩
      · rw [if_neg hg]
        exact ⟨1, rfl⟩
    obtain ⟨c, hc⟩ := hrev
    unfold conjugate conjugate_right
    rw [hc, operator_mul_left_blade hM A B A 1 1 c hA hB,
      operator_mul_right_blade hM A B A 1 1 c hA hB]

/-- Witness for C26: `e0`, `e01`, `e1` in the metric with `e0² = 1`, `e1² = -1`. -/
theorem geometric_product_associative_witness :
    (diagonal_metric 2 (fun i => if i = 1 then -1 else 1)).Diagonal
      (fun i => if i = 1 then -1 else 1) ∧ (1 : Nat) < 2 ^ 31 ∧ (3 : Nat) < 2 ^ 31 ∧
    (geometric_product_left (diagonal_metric 2 (fun i => if i = 1 then -1 else 1)) 1 3 2
      = geometric_product_right (diagonal_metric 2 (fun i => if i = 1 then -1 else 1)) 1 3 2 ∧
    (∃ r, geometric_product_left (diagonal_metric 2 (fun i => if i = 1 then -1 else 1)) 1 3 2
        = some r ∧
      (r.2 = 0 ↔ ∃ i, (fun i => if i = 1 then (-1 : Int) else 1) i = 0 ∧
        (((1 : Nat).testBit i = true ∧ (3 : Nat).testBit i = true) ∨
        ((1 : Nat).testBit i = true ∧ (2 : Nat).testBit i = true) ∨
        ((3 : Nat).testBit i = true ∧ (2 : Nat).testBit i = true))) ∧
      (r.2 = 0 → r = (0, 0)) ∧
      (r.2 ≠ 0 → r.1 = 1 ^^^ 3 ^^^ 2 ∧ (r.2 = 1 ∨ r.2 = -1))) ∧
    (∀ p q r : Rat,
      (operator_mul (diagonal_metric 2 (fun i => if i = 1 then -1 else 1))
          [⟨1, [⟨p, []⟩]⟩] [⟨3, [⟨q, []⟩]⟩]).bind
          (fun ab => operator_mul (diagonal_metric 2 (fun i => if i = 1 then -1 else 1)) ab
            [⟨2, [⟨r, []⟩]⟩])
        = (operator_mul (diagonal_metric 2 (fun i => if i = 1 then -1 else 1))
          [⟨3, [⟨q, []⟩]⟩] [⟨2, [⟨r, []⟩]⟩]).bind
          (fun bc => operator_mul (diagonal_metric 2 (fun i => if i = 1 then -1 else 1))
            [⟨1, [⟨p, []⟩]⟩] bc)) ∧
    conjugate (diagonal_metric 2 (fun i => if i = 1 then -1 else 1))
        [⟨1, [⟨1, []⟩]⟩] [⟨3, [⟨1, []⟩]⟩]
      = conjugate_right (diagonal_metric 2 (fun i => if i = 1 then -1 else 1))
        [⟨1, [⟨1, []⟩]⟩] [⟨3, [⟨1, []⟩]⟩]) :=
  ⟨diagonal_metric_diagonal 2 _, by norm_num, by norm_num,
    geometric_product_associative (diagonal_metric 2 (fun i => if i = 1 then -1 else 1))
      (fun i => if i = 1 then -1 else 1) (diagonal_metric_diagonal 2 _) 1 3 2
      (by norm_num) (by norm_num)⟩

/-- C27. Under a diagonal metric, for unit blades `A` (the action) and `S` (the subject),
`conjugate(A, S) = A * S * reverse(A)` always has a value; it is the empty multivector
exactly when `A` contains a basis vector whose square is zero, and otherwise it is a
single term on the basis element `S` itself with coefficient `+1` or `-1`. -/
theorem conjugate_unit_blade (M : Metric) (sig : Nat → Int) (hM : M.Diagonal sig)
    (A S : Nat) (hA : A < 2 ^ 31) (hS : S < 2 ^ 31) :
    (∃ m, conjugate M [⟨A, [⟨1, []⟩]⟩] [⟨S, [⟨1, []⟩]⟩] = some m) ∧
    (conjugate M [⟨A, [⟨1, []⟩]⟩] [⟨S, [⟨1, []⟩]⟩] = some [] ↔
      ∃ i, A.testBit i = true ∧ sig i = 0) ∧
    ((¬ ∃ i, A.testBit i = true ∧ sig i = 0) →
      ∃ c : Rat, (c = 1 ∨ c = -1) ∧
        conjugate M [⟨A, [⟨1, []⟩]⟩] [⟨S, [⟨1, []⟩]⟩] = some [⟨S, [⟨c, []⟩]⟩]) := by
  have hA64 : A < 2 ^ 64 := lt_trans hA (by norm_num)
  have hrev : ∃ c : Rat, (c = 1 ∨ c = -1) ∧
      reverse_multivector [(⟨A, [⟨1, []⟩]⟩ : term)] = [⟨A, [⟨c, []⟩]⟩] := by
    show ∃ c : Rat, (c = 1 ∨ c = -1) ∧ [reverse (⟨A, [⟨1, []⟩]⟩ : term)] = [⟨A, [⟨c, []⟩]⟩]
    rw [reverse_eq]
    by_cases hg : grade A % 4 = 2 ∨ grade A % 4 = 3
    · rw [if_pos hg]
      exact ⟨-1, Or.inr rfl, rfl⟩
    · rw [if_neg hg]
      exact ⟨1, Or.inl rfl, rfl⟩
  obtain ⟨c, hc1, hc⟩ := hrev
  have hzero : ((∃ i ∈ bits A, S.testBit i = true ∧ sig i = 0) ∨
      (∃ i ∈ bits A, A.testBit i = true ∧ sig i = 0) ∨
      (∃ i ∈ bits S, A.testBit i = true ∧ sig i = 0)) ↔
      ∃ i, A.testBit i = true ∧ sig i = 0 := by
    constructor
    · rintro (⟨i, hi, _, hs⟩ | ⟨i, _, ha, hs⟩ | ⟨i, _, ha, hs⟩)
      · exact ⟨i, (mem_bits.mp hi).2, hs⟩
      · exact ⟨i, ha, hs⟩
      · exact ⟨i, ha, hs⟩
    · rintro ⟨i, ha, hs⟩
      exact Or.inr (Or.inl ⟨i, (mem_bits_of_lt hA64).mpr ha, ha, hs⟩)
  have hxor : A ^^^ S ^^^ A = S := by
    rw [Nat.xor_comm A S, Nat.xor_assoc, Nat.xor_self, Nat.xor_zero]
  have hval : conjugate M [⟨A, [⟨1, []⟩]⟩] [⟨S, [⟨1, []⟩]⟩]
      = if (∃ i ∈ bits A, S.testBit i = true ∧ sig i = 0) ∨
            (∃ i ∈ bits A, A.testBit i = true ∧ sig i = 0) ∨
            (∃ i ∈ bits S, A.testBit i = true ∧ sig i = 0) then some []
        else some [⟨S,
          [⟨(((-1 : Int) ^ (inversions A S + inversions A A + inversions S A
              + shared_negative sig A S + shared_negative sig A A
              + shared_negative sig S A) : Int) : Rat) * (1 * 1 * c), []⟩]⟩] := by
    unfold conjugate
    rw [hc, operator_mul_left_blade hM A S A 1 1 c hA hS, hxor]
  by_cases hz : (∃ i ∈ bits A, S.testBit i = true ∧ sig i = 0) ∨
      (∃ i ∈ bits A, A.testBit i = true ∧ sig i = 0) ∨
      (∃ i ∈ bits S, A.testBit i = true ∧ sig i = 0)
  · rw [if_pos hz] at hval
    exact ⟨⟨_, hval⟩, ⟨fun _ => hzero.mp hz, fun _ => hval⟩,
      fun h => absurd (hzero.mp hz) h⟩
  · rw [if_neg hz] at hval
    refine ⟨⟨_, hval⟩, ⟨fun h => ?_, fun h => absurd (hzero.mpr h) hz⟩, fun _ => ⟨_, ?_, hval⟩⟩
    · rw [hval] at h
      simp at h
    · rcases neg_one_pow_eq_or Int (inversions A S + inversions A A + inversions S A
          + shared_negative sig A S + shared_negative sig A A
          + shared_negative sig S A) with h | h <;> rcases hc1 with h2 | h2 <;>
        rw [h, h2] <;> norm_num

/-- Witness for C27: the Euclidean sandwich of `e0` by the bivector `e01`. -/
theorem conjugate_unit_blade_witness :
    (diagonal_metric 3 (fun _ => 1)).Diagonal (fun _ => 1) ∧ (3 : Nat) < 2 ^ 31 ∧
    (1 : Nat) < 2 ^ 31 ∧
    (∃ m, conjugate (diagonal_metric 3 (fun _ => 1)) [⟨3, [⟨1, []⟩]⟩] [⟨1, [⟨1, []⟩]⟩]
      = some m) ∧
    (conjugate (diagonal_metric 3 (fun _ => 1)) [⟨3, [⟨1, []⟩]⟩] [⟨1, [⟨1, []⟩]⟩] = some [] ↔
      ∃ i, (3 : Nat).testBit i = true ∧ (fun _ => (1 : Int)) i = 0) ∧
    ((¬ ∃ i, (3 : Nat).testBit i = true ∧ (fun _ => (1 : Int)) i = 0) →
      ∃ c : Rat, (c = 1 ∨ c = -1) ∧
        conjugate (diagonal_metric 3 (fun _ => 1)) [⟨3, [⟨1, []⟩]⟩] [⟨1, [⟨1, []⟩]⟩]
          = some [⟨1, [⟨c, []⟩]⟩]) :=
  ⟨diagonal_metric_diagonal 3 _, by norm_num, by norm_num,
    conjugate_unit_blade (diagonal_metric 3 (fun _ => 1)) (fun _ => 1)
      (diagonal_metric_diagonal 3 _) 3 1 (by norm_num) (by norm_num)⟩

/-- C22. Summing two monomials with the same generator set gives a single monomial with
that generator set whose coefficient is the exact rational sum of the two coefficients,
a fraction in lowest terms with positive denominator; simplification keeps it unless the
sum is zero.  In particular the coefficients `1/2` and `1/3` on the generator set `{x}`
give the single monomial `5/6 x`. -/
theorem sum_monomials_same_generators (q1 q2 : Rat) (gens : List generator) :
    sum_monomials [⟨q1, gens⟩, ⟨q2, gens⟩] = [⟨q1 + q2, gens⟩] ∧
    simplify_monomials [⟨q1, gens⟩, ⟨q2, gens⟩]
      = (if q1 + q2 = 0 then [] else [⟨q1 + q2, gens⟩]) ∧
    0 < (q1 + q2).den ∧ Nat.Coprime (q1 + q2).num.natAbs (q1 + q2).den ∧
    (∀ x : generator, ∃ m : monomial,
      simplify_monomials [⟨1 / 2, [x]⟩, ⟨1 / 3, [x]⟩] = [m] ∧ m.generators = [x] ∧
        m.q.num = 5 ∧ m.q.den = 6) := by
  have hsum : ∀ (a b : Rat) (g : List generator),
      sum_monomials [⟨a, g⟩, ⟨b, g⟩] = [⟨a + b, g⟩] := by
    intro a b g
    show (if g = g then [(⟨a + b, g⟩ : monomial)] else _) = _
    rw [if_pos rfl]
  have hsimp : ∀ (a b : Rat) (g : List generator),
      simplify_monomials [⟨a, g⟩, ⟨b, g⟩] = (if a + b = 0 then [] else [⟨a + b, g⟩]) := by
    intro a b g
    unfold simplify_monomials
    rw [hsum]
    by_cases h : a + b = 0
    · simp [h]
    · simp [h]
  refine ⟨hsum q1 q2 gens, hsimp q1 q2 gens, (q1 + q2).den_pos, (q1 + q2).reduced, fun x => ?_⟩
  have h56 : (1 / 2 + 1 / 3 : Rat) = 5 / 6 := by norm_num
  refine ⟨⟨5 / 6, [x]⟩, ?_, rfl, ?_, ?_⟩
  · rw [hsimp, h56, if_neg (by norm_num)]
  · show ((5 : Rat) / 6).num = 5
    norm_num
  · show ((5 : Rat) / 6).den = 6
    norm_num

end gal
